import Mathlib
/-!
# Verification of the IES4 JSON consolidator

A shallow embedding, in Lean 4, of the consolidation engine implemented in
`ies4_consolidator.py` (class `IES4Consolidator`), together with theorems
settling the specification claims about it.

Modelling conventions:
* JSON values are modelled by the inductive type `J` below.  JSON numbers are
  modelled as integers (no claim involves floating point).  Python `dict`s are
  modelled as insertion-ordered association lists; documents produced by
  `json.load` have unique keys, and every update in the source either replaces
  the value at an existing key (keeping its position) or appends a fresh key,
  which is exactly what `oset` does.
* Equality of JSON values (Python `==`) is modelled structurally.  Python
  additionally identifies `True` with `1`; boolean entity ids are outside the
  modelled input space and are noted where relevant.
* Fallible operations return `Option`: `none` models an uncaught Python
  exception escaping `_merge_json_files` (the orchestrator catches it and
  marks the folder failed).
* `datetime.now().isoformat()` is passed in as an explicit `now : String`
  argument; `datetime.fromisoformat` (the only stdlib service used by the
  timestamp validator) is passed in as an explicit `fromOk : String → Bool`
  argument, since its parsing algorithm is not part of this repository.
-/


/-! ## Definitions -/

/-- JSON values, as produced by `json.load`.  Numbers are modelled as
integers; floating point values do not occur in any claim. -/
inductive J where
  | null : J
  | b : Bool → J
  | i : Int → J
  | s : String → J
  | a : List J → J
  | o : List (String × J) → J
deriving Repr

/-- First-wins lookup in an association list (Python `d[k]` / `d.get(k)` on a
dict with unique keys). -/
def olookup (kvs : List (String × J)) (k : String) : Option J :=
  match kvs with
  | [] => none
  | (k1, v) :: rest => if k1 = k then some v else olookup rest k

/-- Python `k in d`. -/
def omem (kvs : List (String × J)) (k : String) : Bool :=
  (olookup kvs k).isSome

/-- Python `d.get(k, dflt)`. -/
def ogetD (kvs : List (String × J)) (k : String) (dflt : J) : J :=
  match olookup kvs k with
  | some v => v
  | none => dflt

/-- Python `d[k] = v`: replace the value at an existing key in place, or
append the key at the end. -/
def oset (kvs : List (String × J)) (k : String) (v : J) : List (String × J) :=
  match kvs with
  | [] => [(k, v)]
  | (k1, v1) :: rest =>
      if k1 = k then (k1, v) :: rest else (k1, v1) :: oset rest k v

/-! ## Python scalar helpers -/
/-- ASCII whitespace stripped by Python `int()` and `str.strip()`.
Unicode-only whitespace is outside the modelled input space. -/
def isWsChar (c : Char) : Bool :=
  c = ' ' ∨ c = Char.ofNat 9 ∨ c = Char.ofNat 10 ∨ c = Char.ofNat 13 ∨
  c = Char.ofNat 11 ∨ c = Char.ofNat 12

/-- Strip leading and trailing whitespace from a character list. -/
def trimWs (cs : List Char) : List Char :=
  ((cs.dropWhile isWsChar).reverse.dropWhile isWsChar).reverse

/-- Python `str.strip()`. -/
def pyStrip (s : String) : String :=
  String.mk (trimWs s.data)

/-- Digit run of a Python integer literal: decimal digits, with single
underscores allowed between digits. -/
def digitsLoop (acc : Nat) : List Char → Option Nat
  | [] => some acc
  | c :: cs =>
      if c.isDigit then digitsLoop (acc * 10 + (c.toNat - 48)) cs
      else if c = '_' then
        match cs with
        | d :: cs1 =>
            if d.isDigit then digitsLoop (acc * 10 + (d.toNat - 48)) cs1
            else none
        | [] => none
      else none

/-- Python `int(s)` on an ASCII string: optional surrounding whitespace, an
optional sign, then a digit run.  Returns `none` when `int` would raise
`ValueError`. -/
def pyParseInt (str : String) : Option Int :=
  match trimWs str.data with
  | [] => none
  | c :: cs =>
      if c = '-' then
        match cs with
        | d :: cs1 => if d.isDigit then (digitsLoop (d.toNat - 48) cs1).map (fun n => -(n : Int)) else none
        | [] => none
      else if c = '+' then
        match cs with
        | d :: cs1 => if d.isDigit then (digitsLoop (d.toNat - 48) cs1).map (fun n => (n : Int)) else none
        | [] => none
      else if c.isDigit then (digitsLoop (c.toNat - 48) cs).map (fun n => (n : Int))
      else none

/-- Lexicographic strict order on character lists, by code point: this is
Python string `<`. -/
def strLtL : List Char → List Char → Bool
  | [], [] => false
  | [], _ :: _ => true
  | _ :: _, [] => false
  | c :: cs, d :: ds => c < d ∨ (c = d ∧ strLtL cs ds)

/-- Python three-way comparison of two strings:
`1 if s1 > s2 else (-1 if s1 < s2 else 0)`. -/
def pyStrCmp (s1 s2 : String) : Int :=
  if strLtL s2.data s1.data then 1 else if strLtL s1.data s2.data then -1 else 0

/-! ## The version comparator (`_compare_versions`)

The source first tries the numeric path: split both strings on `.`, parse
every segment with `int`, right-pad the shorter list with zeros, and return
the result of the first differing segment.  If parsing raises (`ValueError`
because a segment is non-numeric, or `AttributeError` because an argument is
not a string), it falls back to Python `>` / `<` on the raw arguments. -/
/-- `str.split(sep)` for a one-character separator, on character lists:
empty segments are kept, and splitting the empty string yields one empty
segment, exactly as in Python. -/
def splitOnChar (sep : Char) : List Char → List (List Char)
  | [] => [[]]
  | c :: cs =>
      match splitOnChar sep cs with
      | [] => [[]]
      | g :: gs => if c = sep then [] :: g :: gs else (c :: g) :: gs

/-- The comprehension `[int(x) for x in segments]`: parse left to right,
failing at the first non-numeric segment. -/
def parseAll : List (List Char) → Option (List Int)
  | [] => some []
  | s :: rest =>
      match pyParseInt (String.mk s), parseAll rest with
      | some n, some r => some (n :: r)
      | _, _ => none

/-- Segments of a version string: `version.split(".")` followed by `int` on
each segment; `none` if any segment fails to parse. -/
def versionParts (v : String) : Option (List Int) :=
  parseAll (splitOnChar '.' v.data)

/-- Right-pad a segment list with zeros to length `n`
(`parts.extend([0] * (max_len - len(parts)))`). -/
def padTo (l : List Int) (n : Nat) : List Int :=
  l ++ List.replicate (n - l.length) 0

/-- Result of the first differing pair of segments, walking two equal-length
lists left to right (the `for v1, v2 in zip(...)` loop). -/
def firstDiff : List Int → List Int → Int
  | x :: xs, y :: ys =>
      if x > y then 1 else if x < y then -1 else firstDiff xs ys
  | _, _ => 0

/-- The numeric comparison path of `_compare_versions`. -/
def numCmp (v1 v2 : List Int) : Int :=
  let n := max v1.length v2.length
  firstDiff (padTo v1 n) (padTo v2 n)

/-- Python three-way comparison of two JSON values, as used by the fallback
`version1 > version2` branch.  Numbers (booleans included, since Python
treats `True` as `1`) compare numerically, strings lexicographically; every
other combination raises `TypeError`, modelled as `none`.  Python would also
compare two arrays elementwise; array-valued versions are outside the
modelled comparison domain. -/
def pyCmpJ (v1 v2 : J) : Option Int :=
  match v1, v2 with
  | J.s a, J.s b => some (pyStrCmp a b)
  | J.i m, J.i n => some (if m > n then 1 else if m < n then -1 else 0)
  | J.b m, J.i n => some (if (if m then (1 : Int) else 0) > n then 1 else if (if m then (1 : Int) else 0) < n then -1 else 0)
  | J.i m, J.b n => some (if m > (if n then (1 : Int) else 0) then 1 else if m < (if n then (1 : Int) else 0) then -1 else 0)
  | J.b m, J.b n => some (if (if m then (1 : Int) else 0) > (if n then (1 : Int) else 0) then 1 else if (if m then (1 : Int) else 0) < (if n then (1 : Int) else 0) then -1 else 0)
  | _, _ => none

/-- `_compare_versions`.  The call sites pass arbitrary JSON values (an
entity's `version` field), so the model takes `J` arguments; the annotated
`str → str` case is the two-string case.  `none` models an uncaught
`TypeError` escaping the fallback comparison. -/
def compare_versions (version1 version2 : J) : Option Int :=
  match version1, version2 with
  | J.s s1, J.s s2 =>
      match versionParts s1, versionParts s2 with
      | some p1, some p2 => some (numCmp p1 p2)
      | _, _ => some (pyStrCmp s1 s2)
  | v1, v2 => pyCmpJ v1 v2

/-! ## Python equality of JSON values

Python `==` on the values reachable in the merge (entity ids, version
strings, titles) coincides with structural equality; `beqJ` is the
structural test.  Python additionally identifies `True` with `1` and
compares dicts without regard to key order; neither case is reachable with
the scalar ids and string metadata the claims concern. -/
mutual
def beqJ : J → J → Bool
  | J.null, J.null => true
  | J.b x, J.b y => x = y
  | J.i x, J.i y => x = y
  | J.s x, J.s y => x = y
  | J.a xs, J.a ys => beqJL xs ys
  | J.o xs, J.o ys => beqJO xs ys
  | _, _ => false

def beqJL : List J → List J → Bool
  | [], [] => true
  | x :: xs, y :: ys => beqJ x y && beqJL xs ys
  | _, _ => false

def beqJO : List (String × J) → List (String × J) → Bool
  | [], [] => true
  | (k1, v1) :: xs, (k2, v2) :: ys => k1 = k2 && beqJ v1 v2 && beqJO xs ys
  | _, _ => false
end

/-! ## Python `str()` for f-string interpolation -/
/-- The single-quote character used by Python `repr` of strings. -/
def pyQ : String := String.singleton (Char.ofNat 39)

mutual
/-- Simplified Python `repr`, used only for values interpolated into
f-strings from inside containers.  String escaping inside `repr` is
simplified to plain quoting; no claim interpolates a container. -/
def pyRepr : J → String
  | J.null => "None"
  | J.b true => "True"
  | J.b false => "False"
  | J.i n => toString n
  | J.s t => pyQ ++ t ++ pyQ
  | J.a xs => "[" ++ pyReprL xs ++ "]"
  | J.o kvs => "\x7b" ++ pyReprO kvs ++ "\x7d"

def pyReprL : List J → String
  | [] => ""
  | [x] => pyRepr x
  | x :: xs => pyRepr x ++ ", " ++ pyReprL xs

def pyReprO : List (String × J) → String
  | [] => ""
  | [(k, v)] => pyQ ++ k ++ pyQ ++ ": " ++ pyRepr v
  | (k, v) :: kvs => pyQ ++ k ++ pyQ ++ ": " ++ pyRepr v ++ ", " ++ pyReprO kvs
end

/-- Python `str()` of a JSON value, as used by f-string interpolation:
it agrees with `repr` except on strings, which render unquoted. -/
def pyStr (v : J) : String :=
  match v with
  | J.s t => t
  | v => pyRepr v

/-! ## Fixed configuration of `IES4Consolidator.__init__` -/
/-- `self.entity_types`. -/
def entity_types : List String :=
  ["countries", "areas", "vehicles", "vehicleTypes", "peopleTypes", "people",
   "representations", "organizations", "events", "activities", "facilities",
   "items", "locations", "relationships"]

/-- `self.ies4_version`. -/
def ies4_version : String := "4.3.0"

/-- `self.ies4_spec_date`. -/
def ies4_spec_date : String := "2024-12-16"

/-- `self.required_ies4_fields`. -/
def required_ies4_fields : List String := ["id", "type", "timestamp", "version"]

/-! ## The timestamp validator (`_validate_timestamp`) -/
/-- `timestamp.replace("Z", "+00:00")` on character lists. -/
def replaceZ : List Char → List Char
  | [] => []
  | c :: cs =>
      if c = 'Z' then '+' :: '0' :: '0' :: ':' :: '0' :: '0' :: replaceZ cs
      else c :: replaceZ cs

/-- `_validate_timestamp`: non-strings are invalid; strings are valid exactly
when `datetime.fromisoformat` accepts them after the `Z` replacement.
`fromOk` abstracts `datetime.fromisoformat` (standard library, not part of
this repository). -/
def validate_timestamp (fromOk : String → Bool) (v : J) : Bool :=
  match v with
  | J.s t => fromOk (String.mk (replaceZ t.data))
  | _ => false

/-! ## The document validator (`_validate_ies4_compliance`)

The function both returns the violation list and mutates its argument
(inserting `ies4Version` / `specificationDate` when absent); it is modelled
in state-passing style, returning the violation list together with the
updated document. -/
/-- The `for field in self.required_ies4_fields` loop for one entity. -/
def entityFieldErrors (t : String) (idx : Nat) (fields : List String)
    (ekvs : List (String × J)) : List String :=
  match fields with
  | [] => []
  | f :: rest =>
      if omem ekvs f then entityFieldErrors t idx rest ekvs
      else (t ++ "[" ++ toString idx ++ "]: Missing required field " ++ pyQ ++ f ++ pyQ)
           :: entityFieldErrors t idx rest ekvs

/-- The `Invalid ID format` check: fires when `id` is present but is not a
string, or is a string that is blank after `strip()`. -/
def idFormatErrors (t : String) (idx : Nat) (ekvs : List (String × J)) : List String :=
  match olookup ekvs "id" with
  | some (J.s sid) =>
      if (pyStrip sid).isEmpty then [t ++ "[" ++ toString idx ++ "]: Invalid ID format"]
      else []
  | some _ => [t ++ "[" ++ toString idx ++ "]: Invalid ID format"]
  | none => []

/-- The `Invalid timestamp format` check: fires when `timestamp` is present
and rejected by the Timestamp Validator. -/
def timestampErrors (fromOk : String → Bool) (t : String) (idx : Nat)
    (ekvs : List (String × J)) : List String :=
  match olookup ekvs "timestamp" with
  | some ts =>
      if validate_timestamp fromOk ts then []
      else [t ++ "[" ++ toString idx ++ "]: Invalid timestamp format"]
  | none => []

/-- Violations contributed by the entity at index `idx` of collection `t`:
shape check, required fields, id format, timestamp format, in source
order. -/
def entityErrors (fromOk : String → Bool) (t : String) (idx : Nat) (e : J) : List String :=
  match e with
  | J.o ekvs =>
      entityFieldErrors t idx required_ies4_fields ekvs
      ++ idFormatErrors t idx ekvs
      ++ timestampErrors fromOk t idx ekvs
  | _ => [t ++ "[" ++ toString idx ++ "]: Entity must be an object"]

/-- The `for i, entity in enumerate(...)` loop. -/
def entitiesErrors (fromOk : String → Bool) (t : String) (idx : Nat) (es : List J) : List String :=
  match es with
  | [] => []
  | e :: rest => entityErrors fromOk t idx e ++ entitiesErrors fromOk t (idx + 1) rest

/-- The `for entity_type in self.entity_types` loop: only keys present as
lists are checked. -/
def typeErrorsLoop (fromOk : String → Bool) (dkvs : List (String × J))
    (ts : List String) : List String :=
  match ts with
  | [] => []
  | t :: rest =>
      (match olookup dkvs t with
       | some (J.a es) => entitiesErrors fromOk t 0 es
       | _ => []) ++ typeErrorsLoop fromOk dkvs rest

/-- `_validate_ies4_compliance`: returns the violation list and the document
after the in-place insertion of the two compliance keys. -/
def validate_ies4_compliance (fromOk : String → Bool) (dkvs : List (String × J)) :
    List String × List (String × J) :=
  let d1 := if omem dkvs "ies4Version" then dkvs else oset dkvs "ies4Version" (J.s ies4_version)
  let d2 := if omem d1 "specificationDate" then d1 else oset d1 "specificationDate" (J.s ies4_spec_date)
  (typeErrorsLoop fromOk d2 entity_types, d2)

/-- `_validate_json_structure` in the configuration of this repository: the
schema file `ies4_json_schema.json` is not present, so `self.schema` is
`None`, the jsonschema branch is skipped, and only the IES4 compliance check
runs.  Returns the verdict and the (possibly mutated) document. -/
def validate_json_structure (fromOk : String → Bool) (dkvs : List (String × J)) :
    Bool × List (String × J) :=
  let r := validate_ies4_compliance fromOk dkvs
  (r.1.isEmpty, r.2)

/-- `_save_consolidated_file`: validate, then write.  The file write is
modelled as succeeding; the result is the document as written (i.e. after
the validator's in-place mutation), `none` when validation failed and
nothing was written. -/
def save_consolidated_file (fromOk : String → Bool) (dkvs : List (String × J)) :
    Option (List (String × J)) :=
  let r := validate_json_structure fromOk dkvs
  if r.1 then some r.2 else none

/-! ## The entity merge engine (`_merge_json_files`)

One input file is a path (relative to the data root), a byte size
(`stat().st_size`), and the result of `_load_json_file`: `none` for a parse
failure, otherwise the parsed top-level JSON object.  (Per the data model,
a parsed document is a JSON object; non-object top-level documents are
outside the modelled input space.) -/
structure SrcFile where
  path : String
  size : Nat
  data : Option (List (String × J))
deriving Repr

/-- Lookup in a string-keyed `defaultdict`. -/
def tlookup {α : Type} (m : List (String × α)) (k : String) (d : α) : α :=
  match m with
  | [] => d
  | (k1, v) :: rest => if k1 = k then v else tlookup rest k d

/-- Update of a string-keyed `defaultdict`. -/
def tset {α : Type} (m : List (String × α)) (k : String) (v : α) : List (String × α) :=
  match m with
  | [] => [(k, v)]
  | (k1, v1) :: rest => if k1 = k then (k1, v) :: rest else (k1, v1) :: tset rest k v

/-- Lookup in a dict keyed by JSON values (`entity_versions[t]`), with
Python equality. -/
def vlookup (m : List (J × J)) (k : J) : Option J :=
  match m with
  | [] => none
  | (k1, v) :: rest => if beqJ k1 k then some v else vlookup rest k

/-- Update of a dict keyed by JSON values. -/
def vset (m : List (J × J)) (k : J) (v : J) : List (J × J) :=
  match m with
  | [] => [(k, v)]
  | (k1, v1) :: rest => if beqJ k1 k then (k1, v) :: rest else (k1, v1) :: vset rest k v

/-- Python hashability of a JSON value: containers are unhashable, and using
one as an entity id raises `TypeError` at the tracker set. -/
def hashable : J → Bool
  | J.a _ => false
  | J.o _ => false
  | _ => true

/-- In-place update of a list at an index (`merged_data[t][i] = e`). -/
def lset : List J → Nat → J → List J
  | [], _, _ => []
  | _ :: xs, 0, v => v :: xs
  | x :: xs, Nat.succ n, v => x :: lset xs n v

/-- Lines 295-305 of the source: shallow-copy the entity and stamp
`_sourceFiles`, `_consolidatedAt`, and default `timestamp` / `version` when
absent. -/
def stampFirst (now path : String) (ekvs : List (String × J)) : List (String × J) :=
  let c := oset ekvs "_sourceFiles" (J.a [J.s path])
  let c := oset c "_consolidatedAt" (J.s now)
  let c := if omem c "timestamp" then c else oset c "timestamp" (J.s now)
  if omem c "version" then c else oset c "version" (J.s "1.0")

/-- Lines 331-340: replacement stamping.  Unlike `stampFirst`, no default
`timestamp` / `version` is added; `_replacedVersion` records the version
being superseded. -/
def stampReplaced (now path : String) (ekvs : List (String × J)) (replaced : J) :
    List (String × J) :=
  let c := oset ekvs "_sourceFiles" (J.a [J.s path])
  let c := oset c "_consolidatedAt" (J.s now)
  oset c "_replacedVersion" replaced

/-- The `for i, existing_entity in enumerate(...)` replacement scan: first
index whose stored entity has `id` equal to `eid`.  Outer `none` models the
`TypeError` / `KeyError` Python would raise on a stored entity that is not a
dict with an id (unreachable: the engine only stores stamped dicts); inner
`none` means the loop finished without a match, in which case the source
performs no update. -/
def findReplaceIdx (eid : J) : List J → Option (Option Nat)
  | [] => some none
  | e :: rest =>
      match e with
      | J.o ekvs =>
          match olookup ekvs "id" with
          | some i =>
              if beqJ i eid then some (some 0)
              else (findReplaceIdx eid rest).map (fun r => r.map (· + 1))
          | none => none
      | _ => none

/-- Per-entity-type working state: the output collection
`merged_data[t]`, the seen-id set `entity_tracker[t]`, and the version dict
`entity_versions[t]`.  (`source_tracking` is also maintained by the source
but is write-only and never observable, so it is not modelled.) -/
structure TypeState where
  entities : List J
  tracker : List J
  versions : List (J × J)
deriving Repr

/-- Lines 289-357: processing of one qualifying entity (a dict containing
`"id"`).  `none` models an uncaught exception: an unhashable id at the
tracker set, or a `TypeError` escaping the version comparison fallback. -/
def mergeEntityStep (now path : String) (ekvs : List (String × J)) (ts : TypeState) :
    Option TypeState :=
  match olookup ekvs "id" with
  | none => some ts
  | some eid =>
      if hashable eid = false then none
      else if ts.tracker.any (fun x => beqJ x eid) = false then
        some { entities := ts.entities ++ [J.o (stampFirst now path ekvs)],
               tracker := ts.tracker ++ [eid],
               versions := vset ts.versions eid (ogetD ekvs "version" (J.s "1.0")) }
      else
        match vlookup ts.versions eid with
        | none => none
        | some existing =>
            match compare_versions (ogetD ekvs "version" (J.s "1.0")) existing with
            | none => none
            | some c =>
                if c > 0 then
                  match findReplaceIdx eid ts.entities with
                  | none => none
                  | some none => some ts
                  | some (some idx) =>
                      some { entities := lset ts.entities idx (J.o (stampReplaced now path ekvs existing)),
                             tracker := ts.tracker,
                             versions := vset ts.versions eid (ogetD ekvs "version" (J.s "1.0")) }
                else some ts

/-- Line 289: only dict entities carrying an `"id"` key participate; every
other element of the collection is skipped outright. -/
def entityStep (now path : String) (e : J) (ts : TypeState) : Option TypeState :=
  match e with
  | J.o ekvs => if omem ekvs "id" then mergeEntityStep now path ekvs ts else some ts
  | _ => some ts

/-- The `for entity in data[entity_type]` loop. -/
def foldEntities (now path : String) (es : List J) (ts : TypeState) : Option TypeState :=
  match es with
  | [] => some ts
  | e :: rest =>
      match entityStep now path e ts with
      | none => none
      | some ts1 => foldEntities now path rest ts1

/-- Global merge state: the output document under construction and the two
per-type tracking maps. -/
structure MergeState where
  merged : List (String × J)
  tracker : List (String × List J)
  versions : List (String × List (J × J))
deriving Repr

/-- Processing of one entity type of one document.  The per-entity updates
of the source all target `merged_data[t]`, `entity_tracker[t]` and
`entity_versions[t]`; they are batched into one read-modify-write per
collection, which is observationally identical.  A `merged_data[t]` that is
not an array is unreachable (the engine initialises every type to `[]` and
only ever stores arrays back). -/
def processType (now path : String) (t : String) (dkvs : List (String × J))
    (st : MergeState) : Option MergeState :=
  match olookup dkvs t with
  | some (J.a es) =>
      let ts : TypeState :=
        { entities := (match olookup st.merged t with | some (J.a l) => l | _ => []),
          tracker := tlookup st.tracker t [],
          versions := tlookup st.versions t [] }
      match foldEntities now path es ts with
      | none => none
      | some ts1 =>
          some { merged := oset st.merged t (J.a ts1.entities),
                 tracker := tset st.tracker t ts1.tracker,
                 versions := tset st.versions t ts1.versions }
  | _ => some st

/-- The `for entity_type in self.entity_types` loop of the merge. -/
def processTypes (now path : String) (dkvs : List (String × J)) (ts : List String)
    (st : MergeState) : Option MergeState :=
  match ts with
  | [] => some st
  | t :: rest =>
      match processType now path t dkvs st with
      | none => none
      | some st1 => processTypes now path dkvs rest st1

/-- Lines 382-392 of `_preserve_source_metadata`: copy title and description
from the source while the output title still equals the initial default. -/
def preserveTitleDesc (merged source : List (String × J)) : List (String × J) :=
  if (match olookup merged "title" with
      | some v => beqJ v (J.s "Consolidated IES4 Military Database")
      | none => true) then
    let m :=
      if omem source "title" then
        oset merged "title" (J.s ("Consolidated " ++ pyStr (ogetD source "title" (J.s "IES4 Database"))))
      else merged
    if omem source "description" then oset m "description" (ogetD source "description" J.null)
    else m
  else merged

/-- Lines 394-403 of `_preserve_source_metadata`: record a deviating source
`ies4Version` under `consolidationMetadata.sourceVersions`. -/
def recordSourceVersion (merged source : List (String × J)) (path : String) :
    List (String × J) :=
  if (match olookup source "ies4Version" with
      | some v => !(beqJ v (J.s ies4_version))
      | none => false) then
    match olookup merged "consolidationMetadata" with
    | some (J.o meta) =>
        let meta1 := if omem meta "sourceVersions" then meta else oset meta "sourceVersions" (J.o [])
        let meta2 :=
          match olookup meta1 "sourceVersions" with
          | some (J.o sv) => oset meta1 "sourceVersions" (J.o (oset sv path (ogetD source "ies4Version" J.null)))
          | _ => meta1
        oset merged "consolidationMetadata" (J.o meta2)
    | _ => merged
  else merged

/-- `_preserve_source_metadata`. -/
def preserve_source_metadata (merged : List (String × J)) (source : List (String × J))
    (path : String) : List (String × J) :=
  recordSourceVersion (preserveTitleDesc merged source) source path

/-- The per-file record appended to `consolidatedFiles`. -/
def fileEntry (now : String) (f : SrcFile) : J :=
  J.o [("path", J.s f.path), ("size", J.i (f.size : Int)), ("processedAt", J.s now)]

/-- Lines 273-280: source-file tracking. -/
def appendConsolidatedFile (now : String) (merged : List (String × J)) (f : SrcFile) :
    List (String × J) :=
  match olookup merged "consolidationMetadata" with
  | some (J.o meta) =>
      (match olookup meta "consolidatedFiles" with
       | some (J.a fs) =>
           oset merged "consolidationMetadata"
             (J.o (oset meta "consolidatedFiles" (J.a (fs ++ [fileEntry now f]))))
       | _ => merged)
  | _ => merged

/-- Processing of one input file inside the merge loop: a file that failed
to parse is skipped (`if not data: continue`), as is one whose parsed dict
is empty (an empty dict is falsy in Python). -/
def processFile (now : String) (st : MergeState) (f : SrcFile) : Option MergeState :=
  match f.data with
  | none => some st
  | some dkvs =>
      if dkvs.isEmpty then some st
      else
        let m1 := appendConsolidatedFile now st.merged f
        let m2 := preserve_source_metadata m1 dkvs f.path
        processTypes now f.path dkvs entity_types { st with merged := m2 }

/-- The `for file_path in json_files` loop. -/
def processFiles (now : String) (st : MergeState) (fs : List SrcFile) : Option MergeState :=
  match fs with
  | [] => some st
  | f :: rest =>
      match processFile now st f with
      | none => none
      | some st1 => processFiles now st1 rest

/-- Lines 241-258: the initial merged document.  Note `sourceFileCount` is
the number of files handed in, fixed before any parsing is attempted. -/
def initMerged (now : String) (n : Nat) : List (String × J) :=
  [("$schema", J.s "http://json-schema.org/draft-07/schema#"),
   ("title", J.s "Consolidated IES4 Military Database"),
   ("description", J.s ("Consolidated database created on " ++ now)),
   ("ies4Version", J.s ies4_version),
   ("specificationDate", J.s ies4_spec_date),
   ("consolidationMetadata", J.o
     [("timestamp", J.s now),
      ("consolidatedFiles", J.a []),
      ("sourceFileCount", J.i (n : Int)),
      ("consolidationTool", J.s "IES4Consolidator"),
      ("toolVersion", J.s "2.0")])]
  ++ entity_types.map (fun t => (t, J.a []))

/-- Lines 360-367: per-type entity counts, zero counts omitted. -/
def entityCounts (merged : List (String × J)) (ts : List String) : List (String × J) :=
  match ts with
  | [] => []
  | t :: rest =>
      let c := (match olookup merged t with | some (J.a l) => l.length | _ => 0)
      if c > 0 then (t, J.i (c : Int)) :: entityCounts merged rest
      else entityCounts merged rest

/-- Attach the consolidation summary to the metadata block. -/
def addEntityCounts (merged : List (String × J)) : List (String × J) :=
  match olookup merged "consolidationMetadata" with
  | some (J.o meta) =>
      oset merged "consolidationMetadata" (J.o (oset meta "entityCounts" (J.o (entityCounts merged entity_types))))
  | _ => merged

/-- `_merge_json_files`.  `now` is `datetime.now().isoformat()`; `none`
models an exception escaping the merge (the orchestrator then marks the
folder failed). -/
def mergeJsonFiles (now : String) (files : List SrcFile) : Option (List (String × J)) :=
  let st0 : MergeState := { merged := initMerged now files.length, tracker := [], versions := [] }
  match processFiles now st0 files with
  | none => none
  | some st => some (addEntityCounts st.merged)

/-! ## Folder discovery (`_discover_country_folders` / `_discover_nested_folders`)

The file system below the data root is modelled flat: one record per
directory, carrying its path relative to the data root (as a component
list, so `length` is the nesting depth) and the names of the `.json` files
directly inside it.  Directory-listing order is the list order. -/
structure FSDir where
  path : List String
  jsonFiles : List String
deriving Repr, DecidableEq

/-- `p` is a strict ancestor of `q`. -/
def strictUnder : List String → List String → Bool
  | [], [] => false
  | [], _ :: _ => true
  | _ :: _, [] => false
  | a :: ps, b :: qs => a = b && strictUnder ps qs

/-- `_discover_nested_folders`: `parent.rglob("*.json")` walks the whole
subtree, and every directory other than `parent` itself that directly
contains a JSON file is collected (once — the flat model lists each
directory once). -/
def discover_nested_folders (fs : List FSDir) (parent : List String) : List (List String) :=
  (fs.filter (fun d => strictUnder parent d.path && !d.jsonFiles.isEmpty)).map (·.path)

/-- `_discover_country_folders`: an immediate child of the data root with
JSON files directly inside is a target folder; one without any is scanned
with `_discover_nested_folders`. -/
def discover_country_folders (fs : List FSDir) : List (List String) :=
  (fs.filter (fun d => d.path.length = 1)).flatMap (fun d =>
    if d.jsonFiles.isEmpty then discover_nested_folders fs d.path else [d.path])

def dvDrone1v1 : J := J.o [("id", J.s "iran-drone-001"), ("type", J.s "Drone"), ("timestamp", J.s "2024-11-01T10:00:00Z"), ("version", J.s "1.0"), ("name", J.s "Shahed-136")]

def dvDrone1v2 : J := J.o [("id", J.s "iran-drone-001"), ("type", J.s "Drone"), ("timestamp", J.s "2024-12-01T10:00:00Z"), ("version", J.s "2.0"), ("name", J.s "Shahed-136 Enhanced")]

def dvDrone2 : J := J.o [("id", J.s "iran-drone-002"), ("type", J.s "Drone"), ("timestamp", J.s "2024-12-01T11:00:00Z"), ("version", J.s "1.0"), ("name", J.s "Mohajer-10")]

def dvOrg : J := J.o [("id", J.s "iran-org-001"), ("type", J.s "MilitaryOrganization"), ("timestamp", J.s "2024-12-01T09:00:00Z"), ("version", J.s "1.0"), ("name", J.s "IRGC")]

def dvF1 : SrcFile :=
  { path := "iran/iran_v1.json", size := 300,
    data := some [("title", J.s "Iran Database v1"), ("ies4Version", J.s "4.1.0"), ("vehicles", J.a [dvDrone1v1])] }

def dvF2 : SrcFile :=
  { path := "iran/iran_v2.json", size := 600,
    data := some [("title", J.s "Iran Database v2"), ("ies4Version", J.s "4.3.0"), ("vehicles", J.a [dvDrone1v2, dvDrone2]), ("organizations", J.a [dvOrg])] }

def dvBad : SrcFile := { path := "iran/invalid.json", size := 22, data := none }

/-- Well-formedness of one entity, sufficient for the IES4 compliance check
to report nothing about it. -/
def entityOk (fromOk : String → Bool) (e : J) : Prop :=
  ∃ ekvs, e = J.o ekvs ∧
    (∀ f ∈ required_ies4_fields, omem ekvs f = true) ∧
    (∃ sid, olookup ekvs "id" = some (J.s sid) ∧ (pyStrip sid).isEmpty = false) ∧
    (∀ ts, olookup ekvs "timestamp" = some ts → validate_timestamp fromOk ts = true)

/-- Computable shape check for one entity: a dict, all required fields
present, and a non-blank string id.  Timestamp validity is factored out
through `entityTimestamps`. -/
def entityShapeOk (e : J) : Bool :=
  match e with
  | J.o ekvs =>
      required_ies4_fields.all (fun f => omem ekvs f) &&
      (match olookup ekvs "id" with
       | some (J.s sid) => !(pyStrip sid).isEmpty
       | _ => false)
  | _ => false

/-- The timestamp values carried by one entity. -/
def entityTimestamps (e : J) : List J :=
  match e with
  | J.o ekvs => (match olookup ekvs "timestamp" with | some v => [v] | none => [])
  | _ => []

/-- Shape check across all recognized collections of a document. -/
def docShapeOk (d : List (String × J)) (ts : List String) : Bool :=
  ts.all (fun t => match olookup d t with
    | some (J.a es) => es.all entityShapeOk
    | _ => true)

/-- All timestamp values in all recognized collections of a document. -/
def docTimestamps (d : List (String × J)) (ts : List String) : List J :=
  ts.flatMap (fun t => match olookup d t with
    | some (J.a es) => es.flatMap entityTimestamps
    | _ => [])

/-- Spec-side reading of the Version Comparator for the zero-padding of an
exhausted left list (claim C5 wording): compare zeros against the remaining
right segments. -/
def cmpZeroList : List Int → Int
  | [] => 0
  | b :: bs => if 0 > b then 1 else if 0 < b then -1 else cmpZeroList bs

/-- Spec-side reading of the Version Comparator (claim C5 / spec section
"Version Comparator"): walk both segment lists left to right, treating a
missing segment as zero, and return the result of the first differing
segment, or 0 when all match. -/
def cmpSegsRec : List Int → List Int → Int
  | [], bs => cmpZeroList bs
  | a :: as, [] => if a > 0 then 1 else if a < 0 then -1 else cmpSegsRec as []
  | a :: as, b :: bs => if a > b then 1 else if a < b then -1 else cmpSegsRec as bs

/-- The violation predicate exactly as claim C6 states it: violation iff not
a mapping, or id missing or not a non-empty string, or type missing or
empty, or timestamp present and failing the Timestamp Validator. -/
def claimEntityViolates (fromOk : String → Bool) (e : J) : Bool :=
  match e with
  | J.o ekvs =>
      (match olookup ekvs "id" with
       | some (J.s sid) => (pyStrip sid).isEmpty
       | some _ => true
       | none => true) ||
      (match olookup ekvs "type" with
       | some (J.s st) => st.isEmpty
       | some _ => false
       | none => true) ||
      (match olookup ekvs "timestamp" with
       | some ts => !(validate_timestamp fromOk ts)
       | none => false)
  | _ => true

/-- The violation predicate as the code actually behaves (amended claim C6):
violation iff not a mapping, or any of the four required fields (id, type,
timestamp, version) is missing, or id is present but not a non-blank
string, or timestamp is present and fails the Timestamp Validator. -/
def amendedEntityViolates (fromOk : String → Bool) (e : J) : Bool :=
  match e with
  | J.o ekvs =>
      required_ies4_fields.any (fun f => !(omem ekvs f)) ||
      (match olookup ekvs "id" with
       | some (J.s sid) => (pyStrip sid).isEmpty
       | some _ => true
       | none => false) ||
      (match olookup ekvs "timestamp" with
       | some ts => !(validate_timestamp fromOk ts)
       | none => false)
  | _ => true

/-- An element of an entity collection qualifies for merge tracking when it
is a dict containing an `"id"` key (line 289). -/
def qualify (path : String) (e : J) : Option (String × List (String × J)) :=
  match e with
  | J.o ekvs => if omem ekvs "id" then some (path, ekvs) else none
  | _ => none

/-- The qualifying entities that one input file contributes to entity type
`t`, each paired with the file's relative path, in source order. -/
def fileTypeEntities (t : String) (f : SrcFile) : List (String × List (String × J)) :=
  match f.data with
  | none => []
  | some dkvs =>
      if dkvs.isEmpty then []
      else
        match olookup dkvs t with
        | some (J.a es) => es.filterMap (qualify f.path)
        | _ => []

/-- All qualifying entities of entity type `t` across a file list, in
processing order. -/
def occs (t : String) (files : List SrcFile) : List (String × List (String × J)) :=
  files.flatMap (fileTypeEntities t)

/-- Iterated `mergeEntityStep` over a stream of qualifying entities: the
per-type sub-computation the merge performs for one entity type. -/
def mergeEntitySteps (now : String) :
    List (String × List (String × J)) → TypeState → Option TypeState
  | [], ts => some ts
  | (p, ekvs) :: rest, ts =>
      match mergeEntityStep now p ekvs ts with
      | none => none
      | some ts1 => mergeEntitySteps now rest ts1

/-- The per-type invariant tying the global merge state at entity type `t`
to the standalone per-type computation over the occurrence stream `occ`. -/
def InvAt (now t : String) (occ : List (String × List (String × J))) (st : MergeState) : Prop :=
  ∃ ts1, mergeEntitySteps now occ ⟨[], [], []⟩ = some ts1 ∧
    olookup st.merged t = some (J.a ts1.entities) ∧
    tlookup st.tracker t [] = ts1.tracker ∧
    tlookup st.versions t [] = ts1.versions

/-- The qualifying entities that a parsed nonempty document contributes to
type `t`. -/
def docTypeOccs (path : String) (dkvs : List (String × J)) (t : String) :
    List (String × List (String × J)) :=
  match olookup dkvs t with
  | some (J.a es) => es.filterMap (qualify path)
  | _ => []

/-- An output entity is a dict carrying an `"id"` key. -/
def entityHasId (e : J) : Bool :=
  match e with
  | J.o ekvs => omem ekvs "id"
  | _ => false

/-- Lookup inside the consolidation metadata block of an output document. -/
def metaLookup (d : List (String × J)) (k : String) : Option J :=
  match olookup d "consolidationMetadata" with
  | some (J.o m) => olookup m k
  | _ => none

/-- The version carried by the first entity of collection `t`. -/
def firstEntityVersion (out : List (String × J)) (t : String) : Option J :=
  match olookup out t with
  | some (J.a (J.o ekvs :: _)) => olookup ekvs "version"
  | _ => none

def cx1File1 : SrcFile :=
  { path := "x/f1.json", size := 1,
    data := some [("vehicles", J.a [J.o [("id", J.s "e1"), ("version", J.s "10")]])] }

def cx1File2 : SrcFile :=
  { path := "x/f2.json", size := 1,
    data := some [("vehicles", J.a [J.o [("id", J.s "e1"), ("version", J.s "1a")]])] }

def cx1File3 : SrcFile :=
  { path := "x/f3.json", size := 1,
    data := some [("vehicles", J.a [J.o [("id", J.s "e1"), ("version", J.s "9")]])] }

def cx2File : SrcFile :=
  { path := "x/f.json", size := 1,
    data := some [("vehicles", J.a [J.o [("name", J.s "ghost")]])] }

def cx4Good : SrcFile :=
  { path := "x/good.json", size := 1,
    data := some [("vehicles", J.a [J.o [("id", J.s "v1"), ("type", J.s "T"),
      ("timestamp", J.s "2024-12-01T10:00:00Z"), ("version", J.s "1.0")]])] }

def cx4Bad : SrcFile :=
  { path := "x/bad.json", size := 1, data := none }

def cx8File1 : SrcFile :=
  { path := "x/a.json", size := 1,
    data := some [("title", J.s "IES4 Military Database"), ("description", J.s "D1")] }

def cx8File2 : SrcFile :=
  { path := "x/b.json", size := 1, data := some [("title", J.s "T2")] }

def cx3FS : List FSDir :=
  [⟨["a"], []⟩, ⟨["a", "b"], []⟩, ⟨["a", "b", "c"], ["x.json"]⟩]

mutual
/-- `beqJ` is sound for propositional equality. -/
theorem beqJ_sound : (x y : J) → beqJ x y = true → x = y
  | J.null, J.null, _ => rfl
  | J.null, J.b _, h => nomatch h
  | J.null, J.i _, h => nomatch h
  | J.null, J.s _, h => nomatch h
  | J.null, J.a _, h => nomatch h
  | J.null, J.o _, h => nomatch h
  | J.b _, J.null, h => nomatch h
  | J.b x1, J.b y1, h => congrArg J.b (of_decide_eq_true h)
  | J.b _, J.i _, h => nomatch h
  | J.b _, J.s _, h => nomatch h
  | J.b _, J.a _, h => nomatch h
  | J.b _, J.o _, h => nomatch h
  | J.i _, J.null, h => nomatch h
  | J.i _, J.b _, h => nomatch h
  | J.i x1, J.i y1, h => congrArg J.i (of_decide_eq_true h)
  | J.i _, J.s _, h => nomatch h
  | J.i _, J.a _, h => nomatch h
  | J.i _, J.o _, h => nomatch h
  | J.s _, J.null, h => nomatch h
  | J.s _, J.b _, h => nomatch h
  | J.s _, J.i _, h => nomatch h
  | J.s x1, J.s y1, h => congrArg J.s (of_decide_eq_true h)
  | J.s _, J.a _, h => nomatch h
  | J.s _, J.o _, h => nomatch h
  | J.a _, J.null, h => nomatch h
  | J.a _, J.b _, h => nomatch h
  | J.a _, J.i _, h => nomatch h
  | J.a _, J.s _, h => nomatch h
  | J.a x1, J.a y1, h => congrArg J.a (beqJL_sound x1 y1 h)
  | J.a _, J.o _, h => nomatch h
  | J.o _, J.null, h => nomatch h
  | J.o _, J.b _, h => nomatch h
  | J.o _, J.i _, h => nomatch h
  | J.o _, J.s _, h => nomatch h
  | J.o _, J.a _, h => nomatch h
  | J.o x1, J.o y1, h => congrArg J.o (beqJO_sound x1 y1 h)

theorem beqJL_sound : (xs ys : List J) → beqJL xs ys = true → xs = ys
  | [], [], _ => rfl
  | [], _ :: _, h => nomatch h
  | _ :: _, [], h => nomatch h
  | x :: xs, y :: ys, h => by
      simp only [beqJL, Bool.and_eq_true] at h
      rw [beqJ_sound x y h.1, beqJL_sound xs ys h.2]

theorem beqJO_sound : (xs ys : List (String × J)) → beqJO xs ys = true → xs = ys
  | [], [], _ => rfl
  | [], _ :: _, h => nomatch h
  | _ :: _, [], h => nomatch h
  | (k1, v1) :: xs, (k2, v2) :: ys, h => by
      simp only [beqJO, Bool.and_eq_true] at h
      rw [of_decide_eq_true h.1.1, beqJ_sound v1 v2 h.1.2, beqJO_sound xs ys h.2]
end

mutual
/-- `beqJ` is reflexive. -/
theorem beqJ_refl : (x : J) → beqJ x x = true
  | J.null => rfl
  | J.b x1 => by simp [beqJ]
  | J.i x1 => by simp [beqJ]
  | J.s x1 => by simp [beqJ]
  | J.a xs => beqJL_refl xs
  | J.o xs => beqJO_refl xs

theorem beqJL_refl : (xs : List J) → beqJL xs xs = true
  | [] => rfl
  | x :: xs => by simp only [beqJL, Bool.and_eq_true]; exact ⟨beqJ_refl x, beqJL_refl xs⟩

theorem beqJO_refl : (xs : List (String × J)) → beqJO xs xs = true
  | [] => rfl
  | (k, v) :: xs => by
      simp only [beqJO, Bool.and_eq_true]
      exact ⟨⟨by simp, beqJ_refl v⟩, beqJO_refl xs⟩
end

/-- The effective version of an entity: its `version` field or the default
`"1.0"` (`entity.get("version", "1.0")`). -/
def effVersion (ekvs : List (String × J)) : J := ogetD ekvs "version" (J.s "1.0")

/-- The entity is a dict whose id equals `eid`. -/
def idIs (eid : J) (e : J) : Bool :=
  match e with
  | J.o ekvs =>
      (match olookup ekvs "id" with
       | some i => beqJ i eid
       | none => false)
  | _ => false

/-- The qualifying occurrence carries id `eid`. -/
def occIdIs (eid : J) (pe : String × List (String × J)) : Bool := idIs eid (J.o pe.2)

/-- Version carried by a JSON value, when it is a dotted-numeric string. -/
def partsOf (v : J) : Option (List Int) :=
  match v with
  | J.s s => versionParts s
  | _ => none

/-- The value is a dotted-numeric version string. -/
def isNumericVersion (v : J) : Bool := (partsOf v).isSome

/-- Boolean `compare(v, w) ∈ {greater, equal}` (used to state maximality). -/
def cmpGeB (v w : J) : Bool :=
  match compare_versions v w with
  | some c => decide (0 ≤ c)
  | none => false

/-- Boolean `compare(v, w) = less`. -/
def cmpLtB (v w : J) : Bool :=
  match compare_versions v w with
  | some c => decide (c < 0)
  | none => false

/-- The per-id projection of the merge: fold over the occurrences that carry
one fixed id.  State: `none` before the id is first seen; afterwards the
stored entity and the recorded version. -/
def projStep (now : String) (pe : String × List (String × J)) :
    Option (J × J) → Option (Option (J × J))
  | none => some (some (J.o (stampFirst now pe.1 pe.2), effVersion pe.2))
  | some (cur, rec) =>
      match compare_versions (effVersion pe.2) rec with
      | none => none
      | some c =>
          if c > 0 then some (some (J.o (stampReplaced now pe.1 pe.2 rec), effVersion pe.2))
          else some (some (cur, rec))

/-- Iterated per-id projection over an occurrence stream. -/
def projFold (now : String) :
    List (String × List (String × J)) → Option (J × J) → Option (Option (J × J))
  | [], ps => some ps
  | pe :: rest, ps =>
      match projStep now pe ps with
      | none => none
      | some ps1 => projFold now rest ps1

/-- The survivor of an occurrence stream, as claim C1 (amended) describes
it: `rec` is comparator-greater-or-equal to every occurrence's effective
version; the stream splits as `before ++ pe :: after` where `pe` is the
earliest occurrence attaining that maximum (everything before it compares
strictly less); the surviving entity `cur` is `pe` stamped — as a first
insertion when nothing preceded it, else as a replacement carrying
`_replacedVersion rprev`, where `rprev` is the version superseded by the
final replacement: the maximum of the occurrences before `pe`. -/
def survivorSpec (now : String) (occ : List (String × List (String × J)))
    (cur rec : J) : Prop :=
  (∀ pe ∈ occ, cmpGeB rec (effVersion pe.2) = true) ∧
  ∃ before pe after, occ = before ++ pe :: after ∧ rec = effVersion pe.2 ∧
    (∀ qe ∈ before, cmpLtB (effVersion qe.2) rec = true) ∧
    ((before = [] ∧ cur = J.o (stampFirst now pe.1 pe.2)) ∨
     (before ≠ [] ∧ ∃ rprev, cur = J.o (stampReplaced now pe.1 pe.2 rprev) ∧
        olookup (stampReplaced now pe.1 pe.2 rprev) "_replacedVersion" = some rprev ∧
        (∀ qe ∈ before, cmpGeB rprev (effVersion qe.2) = true) ∧
        rprev ∈ before.map (fun qe => effVersion qe.2)))

/-- Relation between the per-type merge state and the per-id projection
state: the stored `eid`-entity, the tracker membership bit and the recorded
version all agree with the projection state; every stored entity carries an
id. -/
def projInv (eid : J) (ts : TypeState) (ps : Option (J × J)) : Prop :=
  (∀ e ∈ ts.entities, entityHasId e = true) ∧
  match ps with
  | none =>
      ts.entities.filter (idIs eid) = [] ∧
      (ts.tracker.any fun x => beqJ x eid) = false ∧
      vlookup ts.versions eid = none
  | some (cur, rec) =>
      ts.entities.filter (idIs eid) = [cur] ∧ idIs eid cur = true ∧
      (ts.tracker.any fun x => beqJ x eid) = true ∧
      vlookup ts.versions eid = some rec

/-- The id a stored entity carries (`entity["id"]`), if any. -/
def entityIdOf (e : J) : Option J :=
  match e with
  | J.o ekvs => olookup ekvs "id"
  | _ => none

/-- The id sequence of an output collection, in list order. -/
def entityIds (l : List J) : List (Option J) := l.map entityIdOf

/-- The id of a qualifying occurrence (qualifying entities always carry
one). -/
def occId (pe : String × List (String × J)) : J :=
  match olookup pe.2 "id" with
  | some i => i
  | none => J.null

/-- First occurrences of ids not yet seen, in stream order: the order in
which the merge appends fresh entities. -/
def dedupNew (seen : List J) : List J → List J
  | [] => []
  | x :: xs =>
      if seen.any (fun y => beqJ y x) then dedupNew seen xs
      else x :: dedupNew (seen ++ [x]) xs

/-! ## Heap model of the merge loop (claim C9)

Python dicts and lists are mutable objects on a heap; `entity.copy()`
allocates a new dict sharing the old one's values.  To state that the merge
never mutates an input document, the per-entity logic of lines 286-357 is
repeated over an explicit heap: scalars are immediate, every dict or list
is a reference, and each Python field/element write becomes a `hset` at one
address.  The entity collection `data[entity_type]` is read once from the
input document before the loop; since the loop never writes below the
watermark this matches the source's repeated reads. -/
/-- Heap addresses. -/
abbrev Addr := Nat

/-- Runtime values: JSON scalars are immediate; dicts and lists live behind
references. -/
inductive HVal where
  | null : HVal
  | b : Bool → HVal
  | i : Int → HVal
  | s : String → HVal
  | ref : Addr → HVal
deriving Repr, DecidableEq

/-- Heap objects: a dict (insertion-ordered fields) or a list. -/
inductive HObj where
  | dict : List (String × HVal) → HObj
  | arr : List HVal → HObj
deriving Repr, DecidableEq

/-- The heap: bindings plus the next fresh address. -/
structure Heap where
  objs : List (Addr × HObj)
  next : Addr
deriving Repr, DecidableEq

/-- Read an object. -/
def hget (h : Heap) (a : Addr) : Option HObj :=
  match h.objs.find? (fun kv => kv.1 = a) with
  | some kv => some kv.2
  | none => none

/-- Overwrite the object at a bound address (Python field/element update on
an existing object); unbound addresses are untouched. -/
def hset (h : Heap) (a : Addr) (o : HObj) : Heap :=
  ⟨h.objs.map (fun kv => if kv.1 = a then (a, o) else kv), h.next⟩

/-- Allocate a fresh object (`entity.copy()`, a list display, ...). -/
def halloc (h : Heap) (o : HObj) : Heap × Addr :=
  (⟨h.objs ++ [(h.next, o)], h.next + 1⟩, h.next)

/-- `==` on the values the merge compares (ids are hashable scalars; a
reference equals only itself, and never equals a scalar, as in Python where
an id that reached the tracker is never a container). -/
def beqHV (x y : HVal) : Bool := x = y

/-- Dict field lookup. -/
def olookupH (kvs : List (String × HVal)) (k : String) : Option HVal :=
  match kvs.find? (fun kv => kv.1 = k) with
  | some kv => some kv.2
  | none => none

/-- `k in d`. -/
def omemH (kvs : List (String × HVal)) (k : String) : Bool :=
  (olookupH kvs k).isSome

/-- `d.get(k, dflt)`. -/
def ogetDH (kvs : List (String × HVal)) (k : String) (dflt : HVal) : HVal :=
  match olookupH kvs k with
  | some v => v
  | none => dflt

/-- `d[k] = v`: overwrite in place, else append. -/
def osetH (kvs : List (String × HVal)) (k : String) (v : HVal) : List (String × HVal) :=
  match kvs with
  | [] => [(k, v)]
  | (k1, v1) :: rest =>
      if k1 = k then (k, v) :: rest else (k1, v1) :: osetH rest k v

/-- Field write on the dict object at `a`. -/
def hsetField (h : Heap) (a : Addr) (k : String) (v : HVal) : Heap :=
  match hget h a with
  | some (HObj.dict kvs) => hset h a (HObj.dict (osetH kvs k v))
  | _ => h

/-- Field membership test on the dict object at `a`. -/
def hmemField (h : Heap) (a : Addr) (k : String) : Bool :=
  match hget h a with
  | some (HObj.dict kvs) => omemH kvs k
  | _ => false

/-- Set membership / dict-key test used for the trackers (ids are scalars). -/
def vlookupH (m : List (HVal × HVal)) (k : HVal) : Option HVal :=
  match m.find? (fun kv => beqHV kv.1 k) with
  | some kv => some kv.2
  | none => none

def vsetH (m : List (HVal × HVal)) (k : HVal) (v : HVal) : List (HVal × HVal) :=
  match m with
  | [] => [(k, v)]
  | (k1, v1) :: rest =>
      if beqHV k1 k then (k, v) :: rest else (k1, v1) :: vsetH rest k v

/-- In-place list element update. -/
def lsetH : List HVal → Nat → HVal → List HVal
  | [], _, _ => []
  | _ :: xs, 0, v => v :: xs
  | x :: xs, Nat.succ n, v => x :: lsetH xs n v

/-- `set.add(entity_id)` raises `TypeError` on a container id. -/
def hashableH : HVal → Bool
  | HVal.ref _ => false
  | _ => true

/-- A scalar runtime value as a JSON value (a reference has no scalar
reading; comparing container versions raises, as in the pure model). -/
def hvalScalarJ : HVal → Option J
  | HVal.null => some J.null
  | HVal.b x => some (J.b x)
  | HVal.i x => some (J.i x)
  | HVal.s x => some (J.s x)
  | HVal.ref _ => none

/-- `_compare_versions` on runtime values: scalars compare exactly as the
pure comparator; a container version makes the fallback comparison raise. -/
def hCompareVersions (v w : HVal) : Option Int :=
  match hvalScalarJ v, hvalScalarJ w with
  | some jv, some jw => compare_versions jv jw
  | _, _ => none

/-- The replacement scan over the merged collection: elements are
references to stamped entity dicts. -/
def findReplaceIdxH (h : Heap) (eid : HVal) : List HVal → Option (Option Nat)
  | [] => some none
  | e :: rest =>
      match e with
      | HVal.ref a =>
          match hget h a with
          | some (HObj.dict ekvs) =>
              match olookupH ekvs "id" with
              | some i =>
                  if beqHV i eid then some (some 0)
                  else (findReplaceIdxH h eid rest).map (fun r => r.map (· + 1))
              | none => none
          | _ => none
      | _ => none

/-- Per-type merge state over the heap: the address of
`merged_data[entity_type]` is fixed outside; tracker and versions hold
scalars only. -/
structure HState where
  heap : Heap
  tracker : List HVal
  versions : List (HVal × HVal)
deriving Repr

/-- `if k not in d: d[k] = v` (the required-field defaulting writes). -/
def hEnsureField (h : Heap) (b : Addr) (k : String) (v : HVal) : Heap :=
  if hmemField h b k then h else hsetField h b k v

/-- `entity.copy()` plus the first-insertion stamping writes of lines
295-303: allocate the copy and the fresh `[relative_path]` list, then write
`_sourceFiles`, `_consolidatedAt` and the defaulted `timestamp` /
`version` fields onto the copy.  Returns the heap and the copy's address. -/
def hStampNew (now path : String) (h : Heap) (ekvs : List (String × HVal)) :
    Heap × Addr :=
  let p1 := halloc h (HObj.dict ekvs)
  let p2 := halloc p1.1 (HObj.arr [HVal.s path])
  let h3 := hsetField p2.1 p1.2 "_sourceFiles" (HVal.ref p2.2)
  let h4 := hsetField h3 p1.2 "_consolidatedAt" (HVal.s now)
  let h5 := hEnsureField h4 p1.2 "timestamp" (HVal.s now)
  let h6 := hEnsureField h5 p1.2 "version" (HVal.s "1.0")
  (h6, p1.2)

/-- `entity.copy()` plus the replacement stamping writes of lines 330-340:
no defaulting, `_replacedVersion` records the superseded version. -/
def hStampRepl (now path : String) (h : Heap) (ekvs : List (String × HVal))
    (existing : HVal) : Heap × Addr :=
  let p1 := halloc h (HObj.dict ekvs)
  let p2 := halloc p1.1 (HObj.arr [HVal.s path])
  let h3 := hsetField p2.1 p1.2 "_sourceFiles" (HVal.ref p2.2)
  let h4 := hsetField h3 p1.2 "_consolidatedAt" (HVal.s now)
  let h5 := hsetField h4 p1.2 "_replacedVersion" existing
  (h5, p1.2)

/-- First insertion (lines 293-310): stamp a fresh copy and append its
reference to the merged collection object. -/
def hAppendNew (now path : String) (aMerged : Addr) (ekvs : List (String × HVal))
    (eid : HVal) (st : HState) : Option HState :=
  match hget (hStampNew now path st.heap ekvs).1 aMerged with
  | some (HObj.arr xs) =>
      some ⟨hset (hStampNew now path st.heap ekvs).1 aMerged
              (HObj.arr (xs ++ [HVal.ref (hStampNew now path st.heap ekvs).2])),
            st.tracker ++ [eid],
            vsetH st.versions eid (ogetDH ekvs "version" (HVal.s "1.0"))⟩
  | _ => none

/-- Replacement write (lines 330-345): stamp a fresh copy and overwrite the
element at `idx` of the merged collection object with its reference. -/
def hReplaceAt (now path : String) (aMerged : Addr) (ekvs : List (String × HVal))
    (eid existing : HVal) (idx : Nat) (st : HState) : Option HState :=
  match hget (hStampRepl now path st.heap ekvs existing).1 aMerged with
  | some (HObj.arr xs2) =>
      some ⟨hset (hStampRepl now path st.heap ekvs existing).1 aMerged
              (HObj.arr (lsetH xs2 idx
                (HVal.ref (hStampRepl now path st.heap ekvs existing).2))),
            st.tracker,
            vsetH st.versions eid (ogetDH ekvs "version" (HVal.s "1.0"))⟩
  | _ => none

/-- Lines 291-357 for one qualifying entity (a dict with an id): dedup via
the tracker; version conflicts either replace in place or skip. -/
def hMergeQualified (now path : String) (aMerged : Addr)
    (ekvs : List (String × HVal)) (eid : HVal) (st : HState) : Option HState :=
  if hashableH eid = false then none
  else if st.tracker.any (fun x => beqHV x eid) = false then
    hAppendNew now path aMerged ekvs eid st
  else
    match vlookupH st.versions eid with
    | none => none
    | some existing =>
        match hCompareVersions (ogetDH ekvs "version" (HVal.s "1.0")) existing with
        | none => none
        | some c =>
            if c > 0 then
              match hget st.heap aMerged with
              | some (HObj.arr xs) =>
                  match findReplaceIdxH st.heap eid xs with
                  | none => none
                  | some none => some st
                  | some (some idx) => hReplaceAt now path aMerged ekvs eid existing idx st
              | _ => none
            else some st

/-- Lines 289-357 over the heap.  The copy (`entity.copy()`) allocates a
fresh dict before any stamping write; the fresh `[relative_path]` list is
also allocated; every mutation is a `hset` on the copy or on the merged
collection. -/
def hMergeEntityStep (now path : String) (aMerged : Addr) (e : HVal)
    (st : HState) : Option HState :=
  match e with
  | HVal.ref a =>
      match hget st.heap a with
      | some (HObj.dict ekvs) =>
          if omemH ekvs "id" = false then some st
          else
            match olookupH ekvs "id" with
            | none => some st
            | some eid => hMergeQualified now path aMerged ekvs eid st
      | some (HObj.arr _) => some st
      | none => none
  | _ => some st

/-- The `for entity in data[entity_type]` loop over the heap. -/
def hMergeEntities (now path : String) (aMerged : Addr) :
    List HVal → HState → Option HState
  | [], st => some st
  | e :: rest, st =>
      match hMergeEntityStep now path aMerged e st with
      | none => none
      | some st1 => hMergeEntities now path aMerged rest st1

def cx6TypeEmpty : J :=
  J.o [("id", J.s "a"), ("type", J.s ""), ("timestamp", J.s "TS"), ("version", J.s "1.0")]

def cx6NoVersion : J :=
  J.o [("id", J.s "a"), ("type", J.s "T"), ("timestamp", J.s "TS")]

def c1wF1 : SrcFile :=
  { path := "a/1.json", size := 1,
    data := some [("vehicles", J.a
      [J.o [("id", J.s "v1"), ("version", J.s "1.0")],
       J.o [("id", J.s "v2"), ("version", J.s "1.0")]])] }

def c1wF2 : SrcFile :=
  { path := "a/2.json", size := 1,
    data := some [("vehicles", J.a [J.o [("id", J.s "v1"), ("version", J.s "2.0")]])] }

def c1wOut : List (String × J) := (mergeJsonFiles "T0" [c1wF1, c1wF2]).getD []

def c2wOut : List (String × J) := (mergeJsonFiles "T0" [cx1File1]).getD []

def c2wList : List J :=
  match olookup c2wOut "vehicles" with
  | some (J.a l) => l
  | _ => []

def c4wOut : List (String × J) := (mergeJsonFiles "T0" [cx4Good, cx4Bad]).getD []

def c8wSt : MergeState :=
  { merged := oset (initMerged "T0" 1) "title" (J.s "Allied Forces DB"),
    tracker := [], versions := [] }

def c8wSt2 : MergeState := (processFiles "T0" c8wSt [cx8File2]).getD c8wSt

def c9h0 : Heap :=
  ⟨[(0, HObj.dict [("id", HVal.s "x"), ("version", HVal.s "1.0"), ("inner", HVal.ref 1)]),
    (1, HObj.arr [HVal.i 3])], 2⟩

def c9res : HState :=
  (hMergeEntities "T0" "a/1.json" (halloc c9h0 (HObj.arr [])).2 [HVal.ref 0]
    ⟨(halloc c9h0 (HObj.arr [])).1, [], []⟩).getD
      ⟨(halloc c9h0 (HObj.arr [])).1, [], []⟩

/-! ## Theorems -/

example : compare_versions (J.s "1.2.3") (J.s "1.2.1") = some 1 := by decide

example : compare_versions (J.s "1.0") (J.s "1.0") = some 0 := by decide

example : compare_versions (J.s "2.0") (J.s "1.0") = some 1 := by decide

example : compare_versions (J.s "1a") (J.s "10") = some 1 := by decide

example : compare_versions (J.s "9") (J.s "1a") = some 1 := by decide

example : compare_versions (J.s "9") (J.s "10") = some (-1) := by decide

theorem entityFieldErrors_nil (t : String) (i : Nat) (fields : List String)
    (ekvs : List (String × J)) (h : ∀ f ∈ fields, omem ekvs f = true) :
    entityFieldErrors t i fields ekvs = [] := by
  induction fields with
  | nil => rfl
  | cons f rest ih =>
      have hf := h f (List.mem_cons_self f rest)
      simp only [entityFieldErrors, hf, if_true]
      exact ih (fun g hg => h g (List.mem_cons_of_mem f hg))

theorem entityErrors_nil (fromOk : String → Bool) (t : String) (i : Nat) (e : J)
    (h : entityOk fromOk e) : entityErrors fromOk t i e = [] := by
  obtain ⟨ekvs, rfl, hfields, ⟨sid, hsid, hstrip⟩, hts⟩ := h
  simp only [entityErrors, entityFieldErrors_nil t i required_ies4_fields ekvs hfields,
    idFormatErrors, timestampErrors, hsid]
  rw [hstrip]
  cases hl : olookup ekvs "timestamp" with
  | none => simp
  | some ts => simp [hts ts hl]

theorem entitiesErrors_nil (fromOk : String → Bool) (t : String) (i : Nat) (es : List J)
    (h : ∀ e ∈ es, entityOk fromOk e) : entitiesErrors fromOk t i es = [] := by
  induction es generalizing i with
  | nil => rfl
  | cons e rest ih =>
      simp only [entitiesErrors, entityErrors_nil fromOk t i e (h e (List.mem_cons_self e rest))]
      exact ih (i + 1) (fun x hx => h x (List.mem_cons_of_mem e hx))

theorem typeErrorsLoop_nil (fromOk : String → Bool) (d : List (String × J)) (ts : List String)
    (h : ∀ t ∈ ts, ∀ es, olookup d t = some (J.a es) → ∀ e ∈ es, entityOk fromOk e) :
    typeErrorsLoop fromOk d ts = [] := by
  induction ts with
  | nil => rfl
  | cons t rest ih =>
      simp only [typeErrorsLoop]
      rw [ih (fun u hu => h u (List.mem_cons_of_mem t hu))]
      cases hl : olookup d t with
      | none => simp
      | some v =>
          cases v with
          | a es => simp [entitiesErrors_nil fromOk t 0 es (h t (List.mem_cons_self t rest) es hl)]
          | null => simp
          | b x => simp
          | i x => simp
          | s x => simp
          | o x => simp

theorem save_of_no_errors (fromOk : String → Bool) (d : List (String × J))
    (h : (validate_ies4_compliance fromOk d).1 = []) :
    save_consolidated_file fromOk d = some (validate_ies4_compliance fromOk d).2 := by
  simp [save_consolidated_file, validate_json_structure, h]

theorem entityErrors_nil_of_shape (fromOk : String → Bool) (t : String) (i : Nat) (e : J)
    (hs : entityShapeOk e = true)
    (ht : ∀ v ∈ entityTimestamps e, validate_timestamp fromOk v = true) :
    entityErrors fromOk t i e = [] := by
  cases e with
  | o ekvs =>
      simp only [entityShapeOk, Bool.and_eq_true, List.all_eq_true] at hs
      obtain ⟨hfields, hid⟩ := hs
      apply entityErrors_nil
      refine ⟨ekvs, rfl, fun f hf => hfields f hf, ?_, ?_⟩
      · cases hl : olookup ekvs "id" with
        | none => rw [hl] at hid; exact absurd hid (by simp)
        | some v =>
            cases v with
            | s sid => exact ⟨sid, rfl, by rw [hl] at hid; simpa using hid⟩
            | null => rw [hl] at hid; exact absurd hid (by simp)
            | b x => rw [hl] at hid; exact absurd hid (by simp)
            | i x => rw [hl] at hid; exact absurd hid (by simp)
            | a x => rw [hl] at hid; exact absurd hid (by simp)
            | o x => rw [hl] at hid; exact absurd hid (by simp)
      · intro v hv
        apply ht
        simp only [entityTimestamps, hv, List.mem_singleton]
  | null => exact absurd hs (by simp [entityShapeOk])
  | b x => exact absurd hs (by simp [entityShapeOk])
  | i x => exact absurd hs (by simp [entityShapeOk])
  | s x => exact absurd hs (by simp [entityShapeOk])
  | a x => exact absurd hs (by simp [entityShapeOk])

theorem entitiesErrors_nil_of_shape (fromOk : String → Bool) (t : String) (i : Nat)
    (es : List J) (hs : ∀ e ∈ es, entityShapeOk e = true)
    (ht : ∀ e ∈ es, ∀ v ∈ entityTimestamps e, validate_timestamp fromOk v = true) :
    entitiesErrors fromOk t i es = [] := by
  induction es generalizing i with
  | nil => rfl
  | cons e rest ih =>
      simp only [entitiesErrors,
        entityErrors_nil_of_shape fromOk t i e (hs e (List.mem_cons_self e rest))
          (ht e (List.mem_cons_self e rest))]
      exact ih (i + 1) (fun x hx => hs x (List.mem_cons_of_mem e hx))
        (fun x hx => ht x (List.mem_cons_of_mem e hx))

theorem typeErrorsLoop_nil_of_shape (fromOk : String → Bool) (d : List (String × J))
    (ts : List String) (hs : docShapeOk d ts = true)
    (ht : ∀ v ∈ docTimestamps d ts, validate_timestamp fromOk v = true) :
    typeErrorsLoop fromOk d ts = [] := by
  induction ts with
  | nil => rfl
  | cons t rest ih =>
      simp only [docShapeOk, List.all_cons, Bool.and_eq_true] at hs
      obtain ⟨hst, hsrest⟩ := hs
      simp only [typeErrorsLoop]
      rw [ih hsrest ?hrest]
      case hrest =>
        intro v hv
        apply ht
        simp only [docTimestamps, List.flatMap_cons, List.mem_append]
        right
        simpa [docTimestamps] using hv
      cases hl : olookup d t with
      | none => simp
      | some v =>
          cases v with
          | a es =>
              simp only [List.append_nil]
              rw [hl] at hst
              simp only [List.all_eq_true] at hst
              apply entitiesErrors_nil_of_shape fromOk t 0 es hst
              intro e he v hv
              apply ht
              simp only [docTimestamps, List.flatMap_cons, List.mem_append]
              left
              rw [hl]
              simp only [List.mem_flatMap]
              exact ⟨e, he, hv⟩
          | null => simp
          | b x => simp
          | i x => simp
          | s x => simp
          | o x => simp

theorem validate_fst (fromOk : String → Bool) (d : List (String × J))
    (hv : omem d "ies4Version" = true) (hs : omem d "specificationDate" = true) :
    (validate_ies4_compliance fromOk d).1 = typeErrorsLoop fromOk d entity_types := by
  simp [validate_ies4_compliance, hv, hs]

/-- C7: a folder whose files include an unparseable JSON file still
consolidates the rest and reports success: with the iran_v1 / iran_v2 /
invalid fixtures the output has exactly two vehicles, the first carries
version `"2.0"` and the v2 name with `_replacedVersion "1.0"`, and the save
path succeeds (the folder is reported successful).  `fromOk` abstracts the
`datetime.fromisoformat` acceptance of the three timestamps. -/
theorem invalid_file_excluded_scenario (fromOk : String → Bool)
    (h1 : validate_timestamp fromOk (J.s "2024-12-01T10:00:00Z") = true)
    (h2 : validate_timestamp fromOk (J.s "2024-12-01T11:00:00Z") = true)
    (h3 : validate_timestamp fromOk (J.s "2024-12-01T09:00:00Z") = true) :
    ∃ out v1kv v2kv,
      mergeJsonFiles "2025-06-01T12:00:00" [dvF1, dvF2, dvBad] = some out ∧
      olookup out "vehicles" = some (J.a [J.o v1kv, J.o v2kv]) ∧
      olookup v1kv "id" = some (J.s "iran-drone-001") ∧
      olookup v1kv "version" = some (J.s "2.0") ∧
      olookup v1kv "name" = some (J.s "Shahed-136 Enhanced") ∧
      olookup v1kv "_replacedVersion" = some (J.s "1.0") ∧
      olookup v2kv "id" = some (J.s "iran-drone-002") ∧
      save_consolidated_file fromOk out = some out := by
  refine ⟨_, _, _, rfl, rfl, rfl, rfl, rfl, rfl, rfl, ?_⟩
  rw [save_of_no_errors fromOk _ ?herr]
  case herr =>
    rw [validate_fst fromOk _ (by rfl) (by rfl)]
    apply typeErrorsLoop_nil_of_shape _ _ _ (by rfl)
    intro v hv
    have hv2 : v ∈ [J.s "2024-12-01T10:00:00Z", J.s "2024-12-01T11:00:00Z", J.s "2024-12-01T09:00:00Z"] := hv
    simp only [List.mem_cons, List.mem_singleton] at hv2
    rcases hv2 with rfl | rfl | rfl | h
    · exact h1
    · exact h2
    · exact h3
    · exact absurd h (by simp)
  rfl

theorem firstDiff_replicate_zero (bs : List Int) :
    firstDiff (List.replicate bs.length 0) bs = cmpZeroList bs := by
  induction bs with
  | nil => rfl
  | cons b rest ih => simp only [List.length_cons, List.replicate_succ, firstDiff, cmpZeroList, ih]

theorem firstDiff_zero_replicate (as : List Int) :
    firstDiff as (List.replicate as.length 0) = cmpSegsRec as [] := by
  induction as with
  | nil => rfl
  | cons a rest ih =>
      simp only [List.length_cons, List.replicate_succ, firstDiff, cmpSegsRec, ih]

theorem padTo_nil (n : Nat) : padTo [] n = List.replicate n 0 := by
  simp [padTo]

theorem padTo_cons (a : Int) (as : List Int) (n : Nat) :
    padTo (a :: as) (n + 1) = a :: padTo as n := by
  simp [padTo]

/-- The source's pad-then-scan comparison equals the spec-side recursive
comparison. -/
theorem numCmp_eq_cmpSegsRec (v1 v2 : List Int) : numCmp v1 v2 = cmpSegsRec v1 v2 := by
  induction v1 generalizing v2 with
  | nil =>
      cases v2 with
      | nil => rfl
      | cons b bs =>
          simp only [numCmp, padTo_nil, List.length_nil, Nat.max_eq_right (Nat.zero_le _),
            cmpSegsRec]
          have : padTo (b :: bs) (b :: bs).length = b :: bs := by simp [padTo]
          rw [this, firstDiff_replicate_zero]
  | cons a as ih =>
      cases v2 with
      | nil =>
          simp only [numCmp, padTo_nil, List.length_nil, Nat.max_eq_left (Nat.zero_le _),
            cmpSegsRec]
          have : padTo (a :: as) (a :: as).length = a :: as := by simp [padTo]
          rw [this, firstDiff_zero_replicate]
          rfl
      | cons b bs =>
          simp only [numCmp, List.length_cons, Nat.succ_max_succ, padTo_cons, firstDiff,
            cmpSegsRec]
          split
          · rfl
          · split
            · rfl
            · rw [show ((as.length ⊔ bs.length).succ - (as.length + 1)) = as.length ⊔ bs.length - as.length from Nat.succ_sub_succ _ _,
                 show ((as.length ⊔ bs.length).succ - (bs.length + 1)) = as.length ⊔ bs.length - bs.length from Nat.succ_sub_succ _ _]
              exact ih bs

theorem parseAll_some_of_forall (l : List (List Char))
    (h : ∀ x ∈ l, ∃ y, pyParseInt (String.mk x) = some y) : ∃ r, parseAll l = some r := by
  induction l with
  | nil => exact ⟨[], rfl⟩
  | cons x rest ih =>
      obtain ⟨y, hy⟩ := h x (List.mem_cons_self x rest)
      obtain ⟨r, hr⟩ := ih (fun z hz => h z (List.mem_cons_of_mem x hz))
      exact ⟨y :: r, by simp [parseAll, hy, hr]⟩

/-- C5: when every dot-segment of both strings parses as a non-negative
integer, `_compare_versions` returns the zero-padded segmentwise verdict
(`cmpSegsRec`); when either side has a non-numeric segment it returns
Python string comparison of the whole strings; `"1.2.3" > "1.2.1"` and
`"1.0" == "1.0"`. -/
theorem compare_versions_spec (v1 v2 : String) :
    ((∀ seg ∈ splitOnChar '.' v1.data, ∃ n : Int, 0 ≤ n ∧ pyParseInt (String.mk seg) = some n) →
     (∀ seg ∈ splitOnChar '.' v2.data, ∃ n : Int, 0 ≤ n ∧ pyParseInt (String.mk seg) = some n) →
     ∃ p1 p2, versionParts v1 = some p1 ∧ versionParts v2 = some p2 ∧
       compare_versions (J.s v1) (J.s v2) = some (cmpSegsRec p1 p2)) ∧
    ((versionParts v1 = none ∨ versionParts v2 = none) →
     compare_versions (J.s v1) (J.s v2) = some (pyStrCmp v1 v2)) ∧
    compare_versions (J.s "1.2.3") (J.s "1.2.1") = some 1 ∧
    compare_versions (J.s "1.0") (J.s "1.0") = some 0 := by
  refine ⟨?_, ?_, by decide, by decide⟩
  · intro h1 h2
    obtain ⟨p1, hp1⟩ := parseAll_some_of_forall _ (fun x hx => (h1 x hx).imp (fun n hn => hn.2))
    obtain ⟨p2, hp2⟩ := parseAll_some_of_forall _ (fun x hx => (h2 x hx).imp (fun n hn => hn.2))
    have hv1 : versionParts v1 = some p1 := hp1
    have hv2 : versionParts v2 = some p2 := hp2
    refine ⟨p1, p2, hv1, hv2, ?_⟩
    simp only [compare_versions, hv1, hv2]
    rw [numCmp_eq_cmpSegsRec]
  · intro h
    rcases h with h | h
    · simp only [compare_versions, h]
    · simp only [compare_versions, h]
      cases hv : versionParts v1 <;> simp

theorem olookup_oset_self (d : List (String × J)) (k : String) (v : J) :
    olookup (oset d k v) k = some v := by
  induction d with
  | nil => simp [oset, olookup]
  | cons kv rest ih =>
      obtain ⟨k1, v1⟩ := kv
      by_cases h : k1 = k
      · subst h; simp [oset, olookup]
      · simp [oset, olookup, h, ih]

theorem olookup_oset_ne (d : List (String × J)) (k k2 : String) (v : J) (h : k ≠ k2) :
    olookup (oset d k v) k2 = olookup d k2 := by
  induction d with
  | nil => simp [oset, olookup, h]
  | cons kv rest ih =>
      obtain ⟨k1, v1⟩ := kv
      by_cases h1 : k1 = k
      · subst h1; simp [oset, olookup, h]
      · simp only [oset, if_neg h1, olookup]
        by_cases h2 : k1 = k2
        · simp [h2]
        · simp [h2, ih]

theorem omem_oset_self (d : List (String × J)) (k : String) (v : J) :
    omem (oset d k v) k = true := by
  simp [omem, olookup_oset_self]

theorem omem_oset_ne (d : List (String × J)) (k k2 : String) (v : J) (h : k ≠ k2) :
    omem (oset d k v) k2 = omem d k2 := by
  simp [omem, olookup_oset_ne d k k2 v h]

theorem length_oset_absent (d : List (String × J)) (k : String) (v : J)
    (h : omem d k = false) : (oset d k v).length = d.length + 1 := by
  induction d with
  | nil => rfl
  | cons kv rest ih =>
      obtain ⟨k1, v1⟩ := kv
      simp only [omem, olookup] at h
      by_cases h1 : k1 = k
      · simp [h1] at h
      · simp only [oset, if_neg h1, List.length_cons]
        rw [ih]
        simpa [omem, h1] using h

theorem oset_ne_of_absent (d : List (String × J)) (k : String) (v : J)
    (h : omem d k = false) : oset d k v ≠ d := by
  intro he
  have := length_oset_absent d k v h
  rw [he] at this
  omega

/-- C10: compliance validation mutates its argument: the returned document
always carries `ies4Version` and `specificationDate`; when `ies4Version`
was absent it is inserted with the tool value and the document changes, so
validation is not pure; every document that reaches the save path carries
both keys. -/
theorem validate_mutation (fromOk : String → Bool) (d : List (String × J)) :
    omem (validate_ies4_compliance fromOk d).2 "ies4Version" = true ∧
    omem (validate_ies4_compliance fromOk d).2 "specificationDate" = true ∧
    (omem d "ies4Version" = false →
      olookup (validate_ies4_compliance fromOk d).2 "ies4Version" = some (J.s ies4_version) ∧
      (validate_ies4_compliance fromOk d).2 ≠ d) ∧
    (∀ out, save_consolidated_file fromOk d = some out →
      omem out "ies4Version" = true ∧ omem out "specificationDate" = true) := by
  have hud : "specificationDate" ≠ "ies4Version" := by decide
  have hdu : "ies4Version" ≠ "specificationDate" := by decide
  have h2 : ∀ e : List (String × J), (validate_ies4_compliance fromOk e).2 =
      (let d1 := if omem e "ies4Version" then e else oset e "ies4Version" (J.s ies4_version)
       if omem d1 "specificationDate" then d1 else oset d1 "specificationDate" (J.s ies4_spec_date)) :=
    fun e => rfl
  refine ⟨?_, ?_, ?_, ?_⟩
  · rw [h2]
    by_cases hv : omem d "ies4Version" = true
    · simp only [hv, if_true]
      by_cases hs : omem d "specificationDate" = true
      · simp [hs, hv]
      · simp only [Bool.not_eq_true] at hs
        simp [hs, omem_oset_ne _ _ _ _ hud, hv]
    · simp only [Bool.not_eq_true] at hv
      simp only [hv, Bool.false_eq_true, if_false]
      by_cases hs : omem (oset d "ies4Version" (J.s ies4_version)) "specificationDate" = true
      · simp [hs, omem_oset_self]
      · simp only [Bool.not_eq_true] at hs
        simp [hs, omem_oset_ne _ _ _ _ hud, omem_oset_self]
  · rw [h2]
    by_cases hv : omem d "ies4Version" = true
    · simp only [hv, if_true]
      by_cases hs : omem d "specificationDate" = true
      · simp [hs]
      · simp only [Bool.not_eq_true] at hs
        simp [hs, omem_oset_self]
    · simp only [Bool.not_eq_true] at hv
      simp only [hv, Bool.false_eq_true, if_false]
      by_cases hs : omem (oset d "ies4Version" (J.s ies4_version)) "specificationDate" = true
      · simp [hs]
      · simp only [Bool.not_eq_true] at hs
        simp [hs, omem_oset_self]
  · intro hv
    rw [h2]
    simp only [hv, Bool.false_eq_true, if_false]
    constructor
    · by_cases hs : omem (oset d "ies4Version" (J.s ies4_version)) "specificationDate" = true
      · simp [hs, olookup_oset_self]
      · simp only [Bool.not_eq_true] at hs
        simp [hs, olookup_oset_ne _ _ _ _ hud, olookup_oset_self]
    · by_cases hs : omem (oset d "ies4Version" (J.s ies4_version)) "specificationDate" = true
      · simp only [hs, if_true]
        intro he
        have := omem_oset_self d "ies4Version" (J.s ies4_version)
        rw [he] at this
        rw [this] at hv
        cases hv
      · simp only [Bool.not_eq_true] at hs
        simp only [hs, Bool.false_eq_true, if_false]
        intro he
        have h1 : omem (oset (oset d "ies4Version" (J.s ies4_version)) "specificationDate"
            (J.s ies4_spec_date)) "ies4Version" = true := by
          rw [omem_oset_ne _ _ _ _ hud]
          exact omem_oset_self _ _ _
        rw [he] at h1
        rw [h1] at hv
        cases hv
  · intro out hout
    simp only [save_consolidated_file, validate_json_structure] at hout
    split at hout
    · cases hout
      refine ⟨?_, ?_⟩
      · rw [h2]
        by_cases hv : omem d "ies4Version" = true
        · simp only [hv, if_true]
          by_cases hs : omem d "specificationDate" = true
          · simp [hs, hv]
          · simp only [Bool.not_eq_true] at hs
            simp [hs, omem_oset_ne _ _ _ _ hud, hv]
        · simp only [Bool.not_eq_true] at hv
          simp only [hv, Bool.false_eq_true, if_false]
          by_cases hs : omem (oset d "ies4Version" (J.s ies4_version)) "specificationDate" = true
          · simp [hs, omem_oset_self]
          · simp only [Bool.not_eq_true] at hs
            simp [hs, omem_oset_ne _ _ _ _ hud, omem_oset_self]
      · rw [h2]
        by_cases hv : omem d "ies4Version" = true
        · simp only [hv, if_true]
          by_cases hs : omem d "specificationDate" = true
          · simp [hs]
          · simp only [Bool.not_eq_true] at hs
            simp [hs, omem_oset_self]
        · simp only [Bool.not_eq_true] at hv
          simp only [hv, Bool.false_eq_true, if_false]
          by_cases hs : omem (oset d "ies4Version" (J.s ies4_version)) "specificationDate" = true
          · simp [hs]
          · simp only [Bool.not_eq_true] at hs
            simp [hs, omem_oset_self]
    · cases hout

theorem entityFieldErrors_eq_nil_iff (t : String) (i : Nat) (fields : List String)
    (ekvs : List (String × J)) :
    entityFieldErrors t i fields ekvs = [] ↔ ∀ f ∈ fields, omem ekvs f = true := by
  induction fields with
  | nil => simp [entityFieldErrors]
  | cons f rest ih =>
      by_cases h : omem ekvs f = true
      · simp [entityFieldErrors, h, ih]
      · simp only [Bool.not_eq_true] at h
        simp [entityFieldErrors, h]

theorem entityFieldErrors_length (t : String) (i : Nat) (fields : List String)
    (ekvs : List (String × J)) :
    (entityFieldErrors t i fields ekvs).length =
      (fields.filter (fun f => !(omem ekvs f))).length := by
  induction fields with
  | nil => rfl
  | cons f rest ih =>
      by_cases h : omem ekvs f = true
      · simp [entityFieldErrors, h, ih, List.filter]
      · simp only [Bool.not_eq_true] at h
        simp [entityFieldErrors, h, ih, List.filter]

theorem entityFieldErrors_msg (t : String) (i : Nat) (fields : List String)
    (ekvs : List (String × J)) :
    ∀ msg ∈ entityFieldErrors t i fields ekvs, ∃ rule, msg = t ++ "[" ++ toString i ++ "]: " ++ rule := by
  induction fields with
  | nil => simp [entityFieldErrors]
  | cons f rest ih =>
      by_cases h : omem ekvs f = true
      · simpa [entityFieldErrors, h] using ih
      · simp only [Bool.not_eq_true] at h
        simp only [entityFieldErrors, h, Bool.false_eq_true, if_false, List.mem_cons]
        rintro msg (rfl | hm)
        · refine ⟨"Missing required field " ++ pyQ ++ f ++ pyQ, ?_⟩
          simp only [String.append_assoc]
          rw [← String.append_assoc ("]: " : String) "Missing required field "]
          rfl
        · exact ih msg hm

theorem idFormatErrors_eq_nil_iff (t : String) (i : Nat) (ekvs : List (String × J)) :
    idFormatErrors t i ekvs = [] ↔
      (match olookup ekvs "id" with
       | some (J.s sid) => (pyStrip sid).isEmpty
       | some _ => true
       | none => false) = false := by
  cases h : olookup ekvs "id" with
  | none => simp [idFormatErrors, h]
  | some v =>
      cases v with
      | s sid =>
          by_cases hs : (pyStrip sid).isEmpty = true
          · simp [idFormatErrors, h, hs]
          · simp only [Bool.not_eq_true] at hs
            simp [idFormatErrors, h, hs]
      | null => simp [idFormatErrors, h]
      | b x => simp [idFormatErrors, h]
      | i x => simp [idFormatErrors, h]
      | a x => simp [idFormatErrors, h]
      | o x => simp [idFormatErrors, h]

theorem timestampErrors_eq_nil_iff (fromOk : String → Bool) (t : String) (i : Nat)
    (ekvs : List (String × J)) :
    timestampErrors fromOk t i ekvs = [] ↔
      (match olookup ekvs "timestamp" with
       | some ts => !(validate_timestamp fromOk ts)
       | none => false) = false := by
  cases h : olookup ekvs "timestamp" with
  | none => simp [timestampErrors, h]
  | some ts =>
      by_cases hv : validate_timestamp fromOk ts = true
      · simp [timestampErrors, h, hv]
      · simp only [Bool.not_eq_true] at hv
        simp [timestampErrors, h, hv]

theorem idFormatErrors_msg (t : String) (i : Nat) (ekvs : List (String × J)) :
    ∀ msg ∈ idFormatErrors t i ekvs, ∃ rule, msg = t ++ "[" ++ toString i ++ "]: " ++ rule := by
  have hone : t ++ "[" ++ toString i ++ "]: Invalid ID format" =
      t ++ "[" ++ toString i ++ "]: " ++ "Invalid ID format" := by
    simp only [String.append_assoc]
    rfl
  intro msg hm
  refine ⟨"Invalid ID format", ?_⟩
  cases h : olookup ekvs "id" with
  | none => simp only [idFormatErrors, h] at hm; cases hm
  | some v =>
      cases v with
      | s sid =>
          by_cases hs : (pyStrip sid).isEmpty = true
          · simp only [idFormatErrors, h, hs, if_true, List.mem_singleton] at hm
            rw [hm]; exact hone
          · simp only [Bool.not_eq_true] at hs
            simp only [idFormatErrors, h, hs, Bool.false_eq_true, if_false] at hm
            cases hm
      | null =>
          simp only [idFormatErrors, h, List.mem_singleton] at hm
          rw [hm]; exact hone
      | b x =>
          simp only [idFormatErrors, h, List.mem_singleton] at hm
          rw [hm]; exact hone
      | i x =>
          simp only [idFormatErrors, h, List.mem_singleton] at hm
          rw [hm]; exact hone
      | a x =>
          simp only [idFormatErrors, h, List.mem_singleton] at hm
          rw [hm]; exact hone
      | o x =>
          simp only [idFormatErrors, h, List.mem_singleton] at hm
          rw [hm]; exact hone

theorem timestampErrors_msg (fromOk : String → Bool) (t : String) (i : Nat)
    (ekvs : List (String × J)) :
    ∀ msg ∈ timestampErrors fromOk t i ekvs, ∃ rule, msg = t ++ "[" ++ toString i ++ "]: " ++ rule := by
  have hone : t ++ "[" ++ toString i ++ "]: Invalid timestamp format" =
      t ++ "[" ++ toString i ++ "]: " ++ "Invalid timestamp format" := by
    simp only [String.append_assoc]
    rfl
  intro msg hm
  refine ⟨"Invalid timestamp format", ?_⟩
  cases h : olookup ekvs "timestamp" with
  | none => simp only [timestampErrors, h] at hm; cases hm
  | some ts =>
      by_cases hv : validate_timestamp fromOk ts = true
      · simp only [timestampErrors, h, hv, if_true] at hm
        cases hm
      · simp only [Bool.not_eq_true] at hv
        simp only [timestampErrors, h, hv, Bool.false_eq_true, if_false,
          List.mem_singleton] at hm
        rw [hm]; exact hone

/-- C6 (amended): an entity is flagged exactly when it is not a mapping,
or one of the four required fields (id, type, timestamp, version) is
missing, or its id is present but not a non-blank string, or its timestamp
is present and fails the Timestamp Validator (`amendedEntityViolates`);
every message is prefixed `type[index]: `; an entity missing both id and
type draws at least two violations.  (The original claim's type-emptiness
rule does not exist, and it omits the missing-version rule.) -/
theorem entityErrors_characterization (fromOk : String → Bool) (t : String) (i : Nat) (e : J) :
    (entityErrors fromOk t i e ≠ [] ↔ amendedEntityViolates fromOk e = true) ∧
    (∀ msg ∈ entityErrors fromOk t i e, ∃ rule, msg = t ++ "[" ++ toString i ++ "]: " ++ rule) ∧
    (∀ ekvs, e = J.o ekvs → omem ekvs "id" = false → omem ekvs "type" = false →
      2 ≤ (entityErrors fromOk t i e).length) := by
  cases e with
  | o ekvs =>
      refine ⟨?_, ?_, ?_⟩
      · rw [show entityErrors fromOk t i (J.o ekvs) =
            entityFieldErrors t i required_ies4_fields ekvs
            ++ idFormatErrors t i ekvs ++ timestampErrors fromOk t i ekvs from rfl]
        rw [Ne, List.append_eq_nil, List.append_eq_nil]
        rw [entityFieldErrors_eq_nil_iff, idFormatErrors_eq_nil_iff,
          timestampErrors_eq_nil_iff fromOk]
        rw [show amendedEntityViolates fromOk (J.o ekvs) =
            (required_ies4_fields.any (fun f => !(omem ekvs f)) ||
             (match olookup ekvs "id" with
              | some (J.s sid) => (pyStrip sid).isEmpty
              | some _ => true
              | none => false) ||
             (match olookup ekvs "timestamp" with
              | some ts => !(validate_timestamp fromOk ts)
              | none => false)) from rfl]
        simp only [Bool.or_eq_true, List.any_eq_true, Bool.not_eq_true]
        constructor
        · intro h
          by_cases hA : ∀ f ∈ required_ies4_fields, omem ekvs f = true
          · by_cases hB : (match olookup ekvs "id" with
                | some (J.s sid) => (pyStrip sid).isEmpty
                | some _ => true
                | none => false) = false
            · right
              by_cases hC : (match olookup ekvs "timestamp" with
                  | some ts => !(validate_timestamp fromOk ts)
                  | none => false) = false
              · exact absurd ⟨⟨hA, hB⟩, hC⟩ h
              · simpa using hC
            · left; right
              simpa using hB
          · left; left
            push_neg at hA
            obtain ⟨f, hf, hof⟩ := hA
            exact ⟨f, hf, by simpa using hof⟩
        · intro h hc
          obtain ⟨⟨hA, hB⟩, hC⟩ := hc
          rcases h with (⟨f, hf, hof⟩ | hB2) | hC2
          · rw [hA f hf] at hof; cases hof
          · rw [hB] at hB2; cases hB2
          · rw [hC] at hC2; cases hC2
      · intro msg hm
        rw [show entityErrors fromOk t i (J.o ekvs) =
            entityFieldErrors t i required_ies4_fields ekvs
            ++ idFormatErrors t i ekvs ++ timestampErrors fromOk t i ekvs from rfl] at hm
        rw [List.mem_append, List.mem_append] at hm
        rcases hm with (hm | hm) | hm
        · exact entityFieldErrors_msg t i required_ies4_fields ekvs msg hm
        · exact idFormatErrors_msg t i ekvs msg hm
        · exact timestampErrors_msg fromOk t i ekvs msg hm
      · intro ekvs2 he hid htyp
        injection he with he2
        subst he2
        rw [show entityErrors fromOk t i (J.o ekvs) =
            entityFieldErrors t i required_ies4_fields ekvs
            ++ idFormatErrors t i ekvs ++ timestampErrors fromOk t i ekvs from rfl]
        rw [List.length_append, List.length_append, entityFieldErrors_length,
          show required_ies4_fields = ["id", "type", "timestamp", "version"] from rfl]
        simp only [List.filter, hid, htyp, Bool.not_false, List.length_cons]
        omega
  | null =>
      refine ⟨by simp [entityErrors, amendedEntityViolates], ?_, by intro ekvs he; cases he⟩
      intro msg hm
      simp only [entityErrors, List.mem_singleton] at hm
      refine ⟨"Entity must be an object", ?_⟩
      rw [hm]
      simp only [String.append_assoc]
      rfl
  | b x =>
      refine ⟨by simp [entityErrors, amendedEntityViolates], ?_, by intro ekvs he; cases he⟩
      intro msg hm
      simp only [entityErrors, List.mem_singleton] at hm
      refine ⟨"Entity must be an object", ?_⟩
      rw [hm]
      simp only [String.append_assoc]
      rfl
  | i x =>
      refine ⟨by simp [entityErrors, amendedEntityViolates], ?_, by intro ekvs he; cases he⟩
      intro msg hm
      simp only [entityErrors, List.mem_singleton] at hm
      refine ⟨"Entity must be an object", ?_⟩
      rw [hm]
      simp only [String.append_assoc]
      rfl
  | s x =>
      refine ⟨by simp [entityErrors, amendedEntityViolates], ?_, by intro ekvs he; cases he⟩
      intro msg hm
      simp only [entityErrors, List.mem_singleton] at hm
      refine ⟨"Entity must be an object", ?_⟩
      rw [hm]
      simp only [String.append_assoc]
      rfl
  | a x =>
      refine ⟨by simp [entityErrors, amendedEntityViolates], ?_, by intro ekvs he; cases he⟩
      intro msg hm
      simp only [entityErrors, List.mem_singleton] at hm
      refine ⟨"Entity must be an object", ?_⟩
      rw [hm]
      simp only [String.append_assoc]
      rfl

theorem tlookup_tset_self {α : Type} (m : List (String × α)) (k : String) (v : α) (d : α) :
    tlookup (tset m k v) k d = v := by
  induction m with
  | nil => simp [tset, tlookup]
  | cons kv rest ih =>
      obtain ⟨k1, v1⟩ := kv
      by_cases h : k1 = k
      · subst h; simp [tset, tlookup]
      · simp [tset, tlookup, h, ih]

theorem tlookup_tset_ne {α : Type} (m : List (String × α)) (k k2 : String) (v : α) (d : α)
    (h : k ≠ k2) : tlookup (tset m k v) k2 d = tlookup m k2 d := by
  induction m with
  | nil => simp [tset, tlookup, h]
  | cons kv rest ih =>
      obtain ⟨k1, v1⟩ := kv
      by_cases h1 : k1 = k
      · subst h1; simp [tset, tlookup, h]
      · simp only [tset, if_neg h1, tlookup]
        by_cases h2 : k1 = k2
        · simp [h2]
        · simp [h2, ih]

theorem foldEntities_eq_steps (now path : String) (es : List J) (ts : TypeState) :
    foldEntities now path es ts = mergeEntitySteps now (es.filterMap (qualify path)) ts := by
  induction es generalizing ts with
  | nil => rfl
  | cons e rest ih =>
      cases e with
      | o ekvs =>
          by_cases h : omem ekvs "id" = true
          · simp only [foldEntities, entityStep, h, if_true, List.filterMap_cons, qualify, h,
              mergeEntitySteps]
            cases mergeEntityStep now path ekvs ts with
            | none => rfl
            | some ts1 => exact ih ts1
          · simp only [Bool.not_eq_true] at h
            simp only [foldEntities, entityStep, h, Bool.false_eq_true, if_false,
              List.filterMap_cons, qualify, ih]
      | null => simpa [foldEntities, entityStep, List.filterMap_cons, qualify] using ih ts
      | b x => simpa [foldEntities, entityStep, List.filterMap_cons, qualify] using ih ts
      | i x => simpa [foldEntities, entityStep, List.filterMap_cons, qualify] using ih ts
      | s x => simpa [foldEntities, entityStep, List.filterMap_cons, qualify] using ih ts
      | a x => simpa [foldEntities, entityStep, List.filterMap_cons, qualify] using ih ts

theorem mergeEntitySteps_append (now : String) (l1 l2 : List (String × List (String × J)))
    (ts : TypeState) :
    mergeEntitySteps now (l1 ++ l2) ts =
      (mergeEntitySteps now l1 ts).bind (mergeEntitySteps now l2) := by
  induction l1 generalizing ts with
  | nil => rfl
  | cons pe rest ih =>
      obtain ⟨p, ekvs⟩ := pe
      simp only [List.cons_append, mergeEntitySteps]
      cases mergeEntityStep now p ekvs ts with
      | none => rfl
      | some ts1 => exact ih ts1

theorem preserveTitleDesc_frame (m s : List (String × J)) (k : String)
    (h1 : k ≠ "title") (h2 : k ≠ "description") :
    olookup (preserveTitleDesc m s) k = olookup m k := by
  unfold preserveTitleDesc
  have e1 : ∀ d v, olookup (oset d "title" v) k = olookup d k :=
    fun d v => olookup_oset_ne d "title" k v (Ne.symm h1)
  have e2 : ∀ d v, olookup (oset d "description" v) k = olookup d k :=
    fun d v => olookup_oset_ne d "description" k v (Ne.symm h2)
  split
  · split <;> split <;> simp [e1, e2]
  · rfl

theorem recordSourceVersion_frame (m s : List (String × J)) (p : String) (k : String)
    (h3 : k ≠ "consolidationMetadata") :
    olookup (recordSourceVersion m s p) k = olookup m k := by
  unfold recordSourceVersion
  have e3 : ∀ d v, olookup (oset d "consolidationMetadata" v) k = olookup d k :=
    fun d v => olookup_oset_ne d "consolidationMetadata" k v (Ne.symm h3)
  split
  · cases hm : olookup m "consolidationMetadata" with
    | none => rfl
    | some v =>
        cases v with
        | o meta => simp [e3]
        | null => rfl
        | b x => rfl
        | i x => rfl
        | s x => rfl
        | a x => rfl
  · rfl

theorem preserve_lookup_frame (m s : List (String × J)) (p : String) (k : String)
    (h1 : k ≠ "title") (h2 : k ≠ "description") (h3 : k ≠ "consolidationMetadata") :
    olookup (preserve_source_metadata m s p) k = olookup m k := by
  unfold preserve_source_metadata
  rw [recordSourceVersion_frame _ _ _ _ h3, preserveTitleDesc_frame _ _ _ h1 h2]

theorem appendConsolidatedFile_frame (now : String) (m : List (String × J)) (f : SrcFile)
    (k : String) (h3 : k ≠ "consolidationMetadata") :
    olookup (appendConsolidatedFile now m f) k = olookup m k := by
  unfold appendConsolidatedFile
  have e3 : ∀ d v, olookup (oset d "consolidationMetadata" v) k = olookup d k :=
    fun d v => olookup_oset_ne d "consolidationMetadata" k v (Ne.symm h3)
  cases hm : olookup m "consolidationMetadata" with
  | none => rfl
  | some v =>
      cases v with
      | o meta =>
          cases hf : olookup meta "consolidatedFiles" with
          | none => simp [hf]
          | some w =>
              cases w with
              | a fs => simp [hf, e3]
              | null => simp [hf]
              | b x => simp [hf]
              | i x => simp [hf]
              | s x => simp [hf]
              | o x => simp [hf]
      | null => rfl
      | b x => rfl
      | i x => rfl
      | s x => rfl
      | a x => rfl

theorem addEntityCounts_frame (m : List (String × J)) (k : String)
    (h3 : k ≠ "consolidationMetadata") :
    olookup (addEntityCounts m) k = olookup m k := by
  unfold addEntityCounts
  have e3 : ∀ d v, olookup (oset d "consolidationMetadata" v) k = olookup d k :=
    fun d v => olookup_oset_ne d "consolidationMetadata" k v (Ne.symm h3)
  cases hm : olookup m "consolidationMetadata" with
  | none => rfl
  | some v =>
      cases v with
      | o meta => simp [e3]
      | null => rfl
      | b x => rfl
      | i x => rfl
      | s x => rfl
      | a x => rfl

theorem processType_frame (now path t : String) (dkvs : List (String × J))
    (st st' : MergeState) (h : processType now path t dkvs st = some st')
    (k : String) (hk : k ≠ t) :
    olookup st'.merged k = olookup st.merged k ∧
    tlookup st'.tracker k [] = tlookup st.tracker k [] ∧
    tlookup st'.versions k [] = tlookup st.versions k [] := by
  unfold processType at h
  cases hd : olookup dkvs t with
  | none => rw [hd] at h; cases h; exact ⟨rfl, rfl, rfl⟩
  | some v =>
      cases v with
      | a es =>
          rw [hd] at h
          simp only at h
          cases hf : foldEntities now path es
              ⟨(match olookup st.merged t with | some (J.a l) => l | _ => []),
               tlookup st.tracker t [], tlookup st.versions t []⟩ with
          | none => rw [hf] at h; cases h
          | some ts1 =>
              rw [hf] at h
              simp only [Option.some.injEq] at h
              subst h
              refine ⟨?_, ?_, ?_⟩
              · exact olookup_oset_ne _ t k _ (Ne.symm hk)
              · exact tlookup_tset_ne _ t k _ _ (Ne.symm hk)
              · exact tlookup_tset_ne _ t k _ _ (Ne.symm hk)
      | null => rw [hd] at h; cases h; exact ⟨rfl, rfl, rfl⟩
      | b x => rw [hd] at h; cases h; exact ⟨rfl, rfl, rfl⟩
      | i x => rw [hd] at h; cases h; exact ⟨rfl, rfl, rfl⟩
      | s x => rw [hd] at h; cases h; exact ⟨rfl, rfl, rfl⟩
      | o x => rw [hd] at h; cases h; exact ⟨rfl, rfl, rfl⟩

theorem processType_inv (now path t : String) (dkvs : List (String × J))
    (st st' : MergeState) (h : processType now path t dkvs st = some st')
    (occ : List (String × List (String × J))) (hinv : InvAt now t occ st) :
    InvAt now t (occ ++ docTypeOccs path dkvs t) st' := by
  obtain ⟨ts1, hsteps, hm, htr, hv⟩ := hinv
  unfold processType at h
  unfold docTypeOccs
  cases hd : olookup dkvs t with
  | none =>
      rw [hd] at h; cases h
      exact ⟨ts1, by simpa using hsteps, hm, htr, hv⟩
  | some v =>
      cases v with
      | a es =>
          rw [hd] at h
          simp only at h
          rw [show (match olookup st.merged t with | some (J.a l) => l | _ => []) =
              ts1.entities from by rw [hm]] at h
          rw [htr, hv] at h
          cases hf : foldEntities now path es ⟨ts1.entities, ts1.tracker, ts1.versions⟩ with
          | none => rw [hf] at h; cases h
          | some ts2 =>
              rw [hf] at h
              simp only [Option.some.injEq] at h
              subst h
              refine ⟨ts2, ?_, ?_, ?_, ?_⟩
              · rw [mergeEntitySteps_append, hsteps]
                rw [foldEntities_eq_steps] at hf
                simpa using hf
              · simp [olookup_oset_self]
              · simp [tlookup_tset_self]
              · simp [tlookup_tset_self]
      | null =>
          rw [hd] at h; cases h
          exact ⟨ts1, by simpa using hsteps, hm, htr, hv⟩
      | b x =>
          rw [hd] at h; cases h
          exact ⟨ts1, by simpa using hsteps, hm, htr, hv⟩
      | i x =>
          rw [hd] at h; cases h
          exact ⟨ts1, by simpa using hsteps, hm, htr, hv⟩
      | s x =>
          rw [hd] at h; cases h
          exact ⟨ts1, by simpa using hsteps, hm, htr, hv⟩
      | o x =>
          rw [hd] at h; cases h
          exact ⟨ts1, by simpa using hsteps, hm, htr, hv⟩

theorem processTypes_frame (now path : String) (dkvs : List (String × J))
    (ts : List String) (st st' : MergeState)
    (h : processTypes now path dkvs ts st = some st') (k : String) (hk : k ∉ ts) :
    olookup st'.merged k = olookup st.merged k ∧
    tlookup st'.tracker k [] = tlookup st.tracker k [] ∧
    tlookup st'.versions k [] = tlookup st.versions k [] := by
  induction ts generalizing st with
  | nil => cases h; exact ⟨rfl, rfl, rfl⟩
  | cons t rest ih =>
      simp only [processTypes] at h
      cases hp : processType now path t dkvs st with
      | none => rw [hp] at h; cases h
      | some st1 =>
          rw [hp] at h
          have hk1 : k ≠ t := fun he => hk (he ▸ List.mem_cons_self t rest)
          have hk2 : k ∉ rest := fun he => hk (List.mem_cons_of_mem t he)
          obtain ⟨a1, a2, a3⟩ := processType_frame now path t dkvs st st1 hp k hk1
          obtain ⟨b1, b2, b3⟩ := ih st1 h hk2
          exact ⟨b1.trans a1, b2.trans a2, b3.trans a3⟩

theorem processTypes_inv (now path : String) (dkvs : List (String × J))
    (ts : List String) (hnd : ts.Nodup) (st st' : MergeState)
    (h : processTypes now path dkvs ts st = some st') (t : String) (ht : t ∈ ts)
    (occ : List (String × List (String × J))) (hinv : InvAt now t occ st) :
    InvAt now t (occ ++ docTypeOccs path dkvs t) st' := by
  induction ts generalizing st with
  | nil => cases ht
  | cons u rest ih =>
      simp only [processTypes] at h
      cases hp : processType now path u dkvs st with
      | none => rw [hp] at h; cases h
      | some st1 =>
          rw [hp] at h
          rcases List.mem_cons.mp ht with rfl | htr
          · have hnotin : t ∉ rest := by
              have := hnd
              simp only [List.nodup_cons] at this
              exact this.1
            have hstep := processType_inv now path t dkvs st st1 hp occ hinv
            obtain ⟨ts1, hsteps, hm, htrk, hv⟩ := hstep
            obtain ⟨f1, f2, f3⟩ := processTypes_frame now path dkvs rest st1 st' h t hnotin
            exact ⟨ts1, hsteps, f1.trans hm, f2.trans htrk, f3.trans hv⟩
          · have hne : t ≠ u := by
              rintro rfl
              simp only [List.nodup_cons] at hnd
              exact hnd.1 htr
            obtain ⟨a1, a2, a3⟩ := processType_frame now path u dkvs st st1 hp t hne
            have hinv1 : InvAt now t occ st1 := by
              obtain ⟨ts1, hsteps, hm, htrk, hv⟩ := hinv
              exact ⟨ts1, hsteps, a1.trans hm, a2.trans htrk, a3.trans hv⟩
            exact ih (by simp only [List.nodup_cons] at hnd; exact hnd.2) st1 h htr hinv1

theorem entity_types_keys_ok :
    ∀ t ∈ entity_types, t ≠ "title" ∧ t ≠ "description" ∧ t ≠ "consolidationMetadata" := by
  decide

theorem entity_types_nodup : entity_types.Nodup := by decide

theorem initMerged_lookup (now : String) (n : Nat) (t : String) (ht : t ∈ entity_types) :
    olookup (initMerged now n) t = some (J.a []) := by
  fin_cases ht <;> rfl

theorem processFile_inv (now : String) (st st' : MergeState) (f : SrcFile)
    (h : processFile now st f = some st') (t : String) (ht : t ∈ entity_types)
    (occ : List (String × List (String × J))) (hinv : InvAt now t occ st) :
    InvAt now t (occ ++ fileTypeEntities t f) st' := by
  obtain ⟨hne1, hne2, hne3⟩ := entity_types_keys_ok t ht
  unfold processFile at h
  cases hdata : f.data with
  | none =>
      rw [hdata] at h; cases h
      unfold fileTypeEntities
      rw [hdata]
      simpa using hinv
  | some dkvs =>
      rw [hdata] at h
      replace h : (if dkvs.isEmpty = true then some st
          else processTypes now f.path dkvs entity_types
            { merged := preserve_source_metadata (appendConsolidatedFile now st.merged f) dkvs f.path,
              tracker := st.tracker, versions := st.versions }) = some st' := h
      by_cases hemp : dkvs.isEmpty = true
      · rw [if_pos hemp] at h; cases h
        simp only [fileTypeEntities, hdata, hemp, if_true, List.append_nil]
        exact hinv
      · simp only [Bool.not_eq_true] at hemp
        rw [hemp] at h
        simp only [Bool.false_eq_true, if_false] at h
        have hmid : InvAt now t occ
            { st with merged := preserve_source_metadata (appendConsolidatedFile now st.merged f) dkvs f.path } := by
          obtain ⟨ts1, hsteps, hm, htrk, hv⟩ := hinv
          refine ⟨ts1, hsteps, ?_, htrk, hv⟩
          rw [show ({ st with merged := preserve_source_metadata (appendConsolidatedFile now st.merged f) dkvs f.path } : MergeState).merged =
              preserve_source_metadata (appendConsolidatedFile now st.merged f) dkvs f.path from rfl]
          rw [preserve_lookup_frame _ _ _ t hne1 hne2 hne3,
            appendConsolidatedFile_frame now _ f t hne3]
          exact hm
        have := processTypes_inv now f.path dkvs entity_types entity_types_nodup _ st' h t ht occ hmid
        simpa only [fileTypeEntities, hdata, hemp, Bool.false_eq_true, if_false,
          docTypeOccs] using this

theorem processFiles_inv (now : String) (fs : List SrcFile) (st st' : MergeState)
    (h : processFiles now st fs = some st') (t : String) (ht : t ∈ entity_types)
    (occ : List (String × List (String × J))) (hinv : InvAt now t occ st) :
    InvAt now t (occ ++ fs.flatMap (fileTypeEntities t)) st' := by
  induction fs generalizing st occ with
  | nil => cases h; simpa using hinv
  | cons f rest ih =>
      simp only [processFiles] at h
      cases hp : processFile now st f with
      | none => rw [hp] at h; cases h
      | some st1 =>
          rw [hp] at h
          have h1 := processFile_inv now st st1 f hp t ht occ hinv
          have h2 := ih st1 h (occ ++ fileTypeEntities t f) h1
          simpa [List.append_assoc] using h2

/-- The central simulation theorem: a successful merge computes, for every
recognized entity type, exactly the standalone per-type fold over that
type's qualifying occurrence stream. -/
theorem merge_sim (now : String) (files : List SrcFile) (out : List (String × J))
    (h : mergeJsonFiles now files = some out) (t : String) (ht : t ∈ entity_types) :
    ∃ ts1 : TypeState, mergeEntitySteps now (occs t files) ⟨[], [], []⟩ = some ts1 ∧
      olookup out t = some (J.a ts1.entities) := by
  obtain ⟨hne1, hne2, hne3⟩ := entity_types_keys_ok t ht
  replace h : (match processFiles now
      { merged := initMerged now files.length, tracker := [], versions := [] } files with
    | none => none
    | some st => some (addEntityCounts st.merged)) = some out := h
  cases hp : processFiles now
      { merged := initMerged now files.length, tracker := [], versions := [] } files with
  | none => rw [hp] at h; cases h
  | some st =>
      rw [hp] at h
      simp only [Option.some.injEq] at h
      subst h
      have hinit : InvAt now t []
          { merged := initMerged now files.length, tracker := [], versions := [] } :=
        ⟨⟨[], [], []⟩, rfl, initMerged_lookup now files.length t ht, rfl, rfl⟩
      have := processFiles_inv now files _ st hp t ht [] hinit
      obtain ⟨ts1, hsteps, hm, _, _⟩ := this
      refine ⟨ts1, by simpa [occs] using hsteps, ?_⟩
      rw [addEntityCounts_frame _ t hne3]
      exact hm

theorem mem_lset (l : List J) : ∀ (i : Nat) (v e : J), e ∈ lset l i v → e ∈ l ∨ e = v := by
  induction l with
  | nil => intro i v e he; cases he
  | cons x rest ih =>
      intro i v e he
      cases i with
      | zero =>
          simp only [lset, List.mem_cons] at he
          rcases he with rfl | he
          · exact Or.inr rfl
          · exact Or.inl (List.mem_cons_of_mem x he)
      | succ n =>
          simp only [lset, List.mem_cons] at he
          rcases he with he0 | he
          · exact Or.inl (by rw [he0]; exact List.mem_cons_self x rest)
          · rcases ih n v e he with h1 | h1
            · exact Or.inl (List.mem_cons_of_mem x h1)
            · exact Or.inr h1

theorem stampFirst_hasId (now path : String) (ekvs : List (String × J))
    (h : omem ekvs "id" = true) : entityHasId (J.o (stampFirst now path ekvs)) = true := by
  simp only [entityHasId, stampFirst]
  have e1 : ∀ d (v : J), omem (oset d "_sourceFiles" v) "id" = omem d "id" :=
    fun d v => omem_oset_ne d _ _ v (by decide)
  have e2 : ∀ d (v : J), omem (oset d "_consolidatedAt" v) "id" = omem d "id" :=
    fun d v => omem_oset_ne d _ _ v (by decide)
  have e3 : ∀ d (v : J), omem (oset d "timestamp" v) "id" = omem d "id" :=
    fun d v => omem_oset_ne d _ _ v (by decide)
  have e4 : ∀ d (v : J), omem (oset d "version" v) "id" = omem d "id" :=
    fun d v => omem_oset_ne d _ _ v (by decide)
  split <;> split <;> simp [e1, e2, e3, e4, h]

theorem stampReplaced_hasId (now path : String) (ekvs : List (String × J)) (rv : J)
    (h : omem ekvs "id" = true) : entityHasId (J.o (stampReplaced now path ekvs rv)) = true := by
  simp only [entityHasId, stampReplaced]
  have e1 : ∀ d (v : J), omem (oset d "_sourceFiles" v) "id" = omem d "id" :=
    fun d v => omem_oset_ne d _ _ v (by decide)
  have e2 : ∀ d (v : J), omem (oset d "_consolidatedAt" v) "id" = omem d "id" :=
    fun d v => omem_oset_ne d _ _ v (by decide)
  have e5 : ∀ d (v : J), omem (oset d "_replacedVersion" v) "id" = omem d "id" :=
    fun d v => omem_oset_ne d _ _ v (by decide)
  simp [e1, e2, e5, h]

theorem mergeEntityStep_hasId (now path : String) (ekvs : List (String × J))
    (ts ts' : TypeState) (h : mergeEntityStep now path ekvs ts = some ts')
    (hall : ∀ e ∈ ts.entities, entityHasId e = true) :
    ∀ e ∈ ts'.entities, entityHasId e = true := by
  unfold mergeEntityStep at h
  split at h
  · cases h; exact hall
  next eid heq =>
    by_cases hh : hashable eid = false
    · rw [if_pos hh] at h; cases h
    · rw [if_neg hh] at h
      by_cases htr : (ts.tracker.any fun x => beqJ x eid) = false
      · rw [if_pos htr] at h
        cases h
        intro e he
        simp only [List.mem_append, List.mem_singleton] at he
        rcases he with he | rfl
        · exact hall e he
        · exact stampFirst_hasId now path ekvs (by simp [omem, heq])
      · rw [if_neg htr] at h
        split at h
        · cases h
        next existing hex =>
          split at h
          · cases h
          next c hc =>
            by_cases hgt : c > 0
            · rw [if_pos hgt] at h
              split at h
              · cases h
              · cases h; exact hall
              next idx hidx =>
                cases h
                intro e he
                rcases mem_lset ts.entities idx _ e he with he1 | he2
                · exact hall e he1
                · rw [he2]
                  exact stampReplaced_hasId now path ekvs existing (by simp [omem, heq])
            · rw [if_neg hgt] at h
              cases h
              exact hall

theorem mergeEntitySteps_hasId (now : String) (occ : List (String × List (String × J)))
    (ts ts' : TypeState) (h : mergeEntitySteps now occ ts = some ts')
    (hall : ∀ e ∈ ts.entities, entityHasId e = true) :
    ∀ e ∈ ts'.entities, entityHasId e = true := by
  induction occ generalizing ts with
  | nil => cases h; exact hall
  | cons pe rest ih =>
      obtain ⟨p, ekvs⟩ := pe
      simp only [mergeEntitySteps] at h
      cases hs : mergeEntityStep now p ekvs ts with
      | none => rw [hs] at h; cases h
      | some ts1 =>
          rw [hs] at h
          exact ih ts1 h (mergeEntityStep_hasId now p ekvs ts ts1 hs hall)

/-- C2 (amended): id-less mapping entities are not merged at all — every
element of every consolidated entity-type collection is a mapping carrying
an `id` key. -/
theorem merged_entities_have_id (now : String) (files : List SrcFile)
    (out : List (String × J)) (h : mergeJsonFiles now files = some out)
    (t : String) (ht : t ∈ entity_types) (l : List J)
    (hl : olookup out t = some (J.a l)) :
    ∀ e ∈ l, ∃ ekvs, e = J.o ekvs ∧ omem ekvs "id" = true := by
  obtain ⟨ts1, hsteps, hout⟩ := merge_sim now files out h t ht
  rw [hl] at hout
  have hle : l = ts1.entities := by
    cases hout; rfl
  subst hle
  intro e he
  have := mergeEntitySteps_hasId now (occs t files) ⟨[], [], []⟩ ts1 hsteps
    (by intro e2 he2; cases he2) e he
  cases e with
  | o ekvs => exact ⟨ekvs, rfl, by simpa [entityHasId] using this⟩
  | null => simp [entityHasId] at this
  | b x => simp [entityHasId] at this
  | i x => simp [entityHasId] at this
  | s x => simp [entityHasId] at this
  | a x => simp [entityHasId] at this

theorem appendConsolidatedFile_metaLookup (now : String) (m : List (String × J)) (f : SrcFile)
    (k : String) (hk : k ≠ "consolidatedFiles") :
    metaLookup (appendConsolidatedFile now m f) k = metaLookup m k := by
  unfold appendConsolidatedFile metaLookup
  cases hm : olookup m "consolidationMetadata" with
  | none => simp [hm]
  | some v =>
      cases v with
      | o meta =>
          cases hf : olookup meta "consolidatedFiles" with
          | none => simp [hm, hf]
          | some w =>
              cases w with
              | a fs =>
                  simp [hm, hf, olookup_oset_self, olookup_oset_ne _ _ _ _ (Ne.symm hk)]
              | null => simp [hm, hf]
              | b x => simp [hm, hf]
              | i x => simp [hm, hf]
              | s x => simp [hm, hf]
              | o x => simp [hm, hf]
      | null => simp [hm]
      | b x => simp [hm]
      | i x => simp [hm]
      | s x => simp [hm]
      | a x => simp [hm]

theorem recordSourceVersion_metaLookup (m s : List (String × J)) (p : String)
    (k : String) (hk : k ≠ "sourceVersions") :
    metaLookup (recordSourceVersion m s p) k = metaLookup m k := by
  unfold recordSourceVersion
  split
  · cases hm : olookup m "consolidationMetadata" with
    | none => simp [metaLookup, hm]
    | some v =>
        cases v with
        | o meta =>
            by_cases hsv : omem meta "sourceVersions" = true
            · simp only [hm, hsv, if_true]
              cases hsl : olookup meta "sourceVersions" with
              | none => simp [metaLookup, hm, olookup_oset_self]
              | some w =>
                  cases w with
                  | o sv =>
                      simp [metaLookup, hm, olookup_oset_self,
                        olookup_oset_ne _ _ _ _ (Ne.symm hk)]
                  | null => simp [metaLookup, hm, olookup_oset_self]
                  | b x => simp [metaLookup, hm, olookup_oset_self]
                  | i x => simp [metaLookup, hm, olookup_oset_self]
                  | s x => simp [metaLookup, hm, olookup_oset_self]
                  | a x => simp [metaLookup, hm, olookup_oset_self]
            · simp only [Bool.not_eq_true] at hsv
              simp only [hm, hsv, Bool.false_eq_true, if_false]
              rw [show olookup (oset meta "sourceVersions" (J.o [])) "sourceVersions" =
                  some (J.o []) from olookup_oset_self _ _ _]
              simp [metaLookup, hm, olookup_oset_self,
                olookup_oset_ne _ "sourceVersions" k _ (Ne.symm hk)]
        | null => simp [metaLookup, hm]
        | b x => simp [metaLookup, hm]
        | i x => simp [metaLookup, hm]
        | s x => simp [metaLookup, hm]
        | a x => simp [metaLookup, hm]
  · rfl

theorem preserveTitleDesc_metaLookup (m s : List (String × J)) (k : String) :
    metaLookup (preserveTitleDesc m s) k = metaLookup m k := by
  unfold metaLookup
  rw [preserveTitleDesc_frame m s "consolidationMetadata" (by decide) (by decide)]

theorem addEntityCounts_metaLookup (m : List (String × J)) (k : String)
    (hk : k ≠ "entityCounts") :
    metaLookup (addEntityCounts m) k = metaLookup m k := by
  unfold addEntityCounts metaLookup
  cases hm : olookup m "consolidationMetadata" with
  | none => simp [hm]
  | some v =>
      cases v with
      | o meta =>
          simp [hm, olookup_oset_self, olookup_oset_ne _ _ _ _ (Ne.symm hk)]
      | null => simp [hm]
      | b x => simp [hm]
      | i x => simp [hm]
      | s x => simp [hm]
      | a x => simp [hm]

theorem processTypes_metaLookup (now path : String) (dkvs : List (String × J))
    (st st' : MergeState) (h : processTypes now path dkvs entity_types st = some st')
    (k : String) :
    metaLookup st'.merged k = metaLookup st.merged k := by
  unfold metaLookup
  rw [(processTypes_frame now path dkvs entity_types st st' h "consolidationMetadata"
    (by decide)).1]

theorem processFile_metaLookup (now : String) (st st' : MergeState) (f : SrcFile)
    (h : processFile now st f = some st') (k : String)
    (hk1 : k ≠ "consolidatedFiles") (hk2 : k ≠ "sourceVersions") :
    metaLookup st'.merged k = metaLookup st.merged k := by
  unfold processFile at h
  cases hdata : f.data with
  | none => rw [hdata] at h; cases h; rfl
  | some dkvs =>
      rw [hdata] at h
      replace h : (if dkvs.isEmpty = true then some st
          else processTypes now f.path dkvs entity_types
            { merged := preserve_source_metadata (appendConsolidatedFile now st.merged f) dkvs f.path,
              tracker := st.tracker, versions := st.versions }) = some st' := h
      by_cases hemp : dkvs.isEmpty = true
      · rw [if_pos hemp] at h; cases h; rfl
      · rw [if_neg hemp] at h
        rw [processTypes_metaLookup now f.path dkvs _ st' h k]
        rw [show ({ merged := preserve_source_metadata (appendConsolidatedFile now st.merged f) dkvs f.path, tracker := st.tracker, versions := st.versions } : MergeState).merged = preserve_source_metadata (appendConsolidatedFile now st.merged f) dkvs f.path from rfl]
        unfold preserve_source_metadata
        rw [recordSourceVersion_metaLookup _ _ _ k hk2,
          preserveTitleDesc_metaLookup _ _ k,
          appendConsolidatedFile_metaLookup now _ f k hk1]

theorem processFiles_metaLookup (now : String) (fs : List SrcFile) (st st' : MergeState)
    (h : processFiles now st fs = some st') (k : String)
    (hk1 : k ≠ "consolidatedFiles") (hk2 : k ≠ "sourceVersions") :
    metaLookup st'.merged k = metaLookup st.merged k := by
  induction fs generalizing st with
  | nil => cases h; rfl
  | cons f rest ih =>
      simp only [processFiles] at h
      cases hp : processFile now st f with
      | none => rw [hp] at h; cases h
      | some st1 =>
          rw [hp] at h
          rw [ih st1 h, processFile_metaLookup now st st1 f hp k hk1 hk2]

/-- Amended claim C4: `sourceFileCount` records the number of files handed
to the merge, parse failures included. -/
theorem sourceFileCount_counts_all_files (now : String) (files : List SrcFile)
    (out : List (String × J)) (h : mergeJsonFiles now files = some out) :
    metaLookup out "sourceFileCount" = some (J.i (files.length : Int)) := by
  replace h : (match processFiles now
      { merged := initMerged now files.length, tracker := [], versions := [] } files with
    | none => none
    | some st => some (addEntityCounts st.merged)) = some out := h
  cases hp : processFiles now
      { merged := initMerged now files.length, tracker := [], versions := [] } files with
  | none => rw [hp] at h; cases h
  | some st =>
      rw [hp] at h
      simp only [Option.some.injEq] at h
      subst h
      rw [addEntityCounts_metaLookup _ _ (by decide)]
      rw [processFiles_metaLookup now files _ st hp "sourceFileCount" (by decide) (by decide)]
      rfl

theorem preserveTitleDesc_skip (m s : List (String × J)) (tv : J)
    (htv : olookup m "title" = some tv)
    (hne : beqJ tv (J.s "Consolidated IES4 Military Database") = false) :
    preserveTitleDesc m s = m := by
  unfold preserveTitleDesc
  rw [htv]
  simp [hne]

theorem processFile_title_frozen (now : String) (st st' : MergeState) (f : SrcFile)
    (h : processFile now st f = some st') (tv : J)
    (htv : olookup st.merged "title" = some tv)
    (hne : beqJ tv (J.s "Consolidated IES4 Military Database") = false) :
    olookup st'.merged "title" = some tv ∧
    olookup st'.merged "description" = olookup st.merged "description" := by
  unfold processFile at h
  cases hdata : f.data with
  | none => rw [hdata] at h; cases h; exact ⟨htv, rfl⟩
  | some dkvs =>
      rw [hdata] at h
      replace h : (if dkvs.isEmpty = true then some st
          else processTypes now f.path dkvs entity_types
            { merged := preserve_source_metadata (appendConsolidatedFile now st.merged f) dkvs f.path,
              tracker := st.tracker, versions := st.versions }) = some st' := h
      by_cases hemp : dkvs.isEmpty = true
      · rw [if_pos hemp] at h; cases h; exact ⟨htv, rfl⟩
      · rw [if_neg hemp] at h
        have ht1 : olookup (appendConsolidatedFile now st.merged f) "title" = some tv := by
          rw [appendConsolidatedFile_frame now _ f "title" (by decide)]; exact htv
        have hskip : preserveTitleDesc (appendConsolidatedFile now st.merged f) dkvs =
            appendConsolidatedFile now st.merged f :=
          preserveTitleDesc_skip _ dkvs tv ht1 hne
        have hm2t : olookup (preserve_source_metadata (appendConsolidatedFile now st.merged f) dkvs f.path) "title" = some tv := by
          unfold preserve_source_metadata
          rw [recordSourceVersion_frame _ _ _ "title" (by decide), hskip, ht1]
        have hm2d : olookup (preserve_source_metadata (appendConsolidatedFile now st.merged f) dkvs f.path) "description" = olookup st.merged "description" := by
          unfold preserve_source_metadata
          rw [recordSourceVersion_frame _ _ _ "description" (by decide), hskip,
            appendConsolidatedFile_frame now _ f "description" (by decide)]
        obtain ⟨f1, _, _⟩ := processTypes_frame now f.path dkvs entity_types _ st' h "title" (by decide)
        obtain ⟨f2, _, _⟩ := processTypes_frame now f.path dkvs entity_types _ st' h "description" (by decide)
        constructor
        · rw [f1]; exact hm2t
        · rw [f2]; exact hm2d

/-- Amended claim C8: once the output title has been set to a value other
than the default `"Consolidated IES4 Military Database"`, no later input
document overwrites the title or the description. -/
theorem title_desc_frozen_once_nondefault (now : String) (st st' : MergeState)
    (fs : List SrcFile) (h : processFiles now st fs = some st') (tv : J)
    (htv : olookup st.merged "title" = some tv)
    (hne : beqJ tv (J.s "Consolidated IES4 Military Database") = false) :
    olookup st'.merged "title" = some tv ∧
    olookup st'.merged "description" = olookup st.merged "description" := by
  induction fs generalizing st with
  | nil => cases h; exact ⟨htv, rfl⟩
  | cons f rest ih =>
      simp only [processFiles] at h
      cases hp : processFile now st f with
      | none => rw [hp] at h; cases h
      | some st1 =>
          rw [hp] at h
          obtain ⟨a1, a2⟩ := processFile_title_frozen now st st1 f hp tv htv hne
          obtain ⟨b1, b2⟩ := ih st1 h a1
          exact ⟨b1, b2.trans a2⟩

/-- Counterexample to claim C1 as stated: with the non-numeric version
`"1a"` in the stream `"10", "1a", "9"`, the string-comparison fallback is
not an order (each beats the previous cyclically), the survivor carries
version `"9"`, and `"9"` is not comparator-greater-or-equal to every
version in the stream — no entity attains the claimed maximum. -/
theorem nonnumeric_version_cycle_defeats_maximality :
    (mergeJsonFiles "T0" [cx1File1, cx1File2, cx1File3]).bind
      (fun out => firstEntityVersion out "vehicles") = some (J.s "9") ∧
    compare_versions (J.s "9") (J.s "10") = some (-1) ∧
    ((["10", "1a", "9"].all fun w =>
      decide (0 ≤ (compare_versions (J.s "9") (J.s w)).getD 0)) = false) :=
  ⟨rfl, by decide, by decide⟩

/-- Counterexample to claim C2 as stated: a mapping entity without an `id`
key is dropped outright (line 289 has no else branch), not appended to the
output collection. -/
theorem idless_entity_dropped :
    omem [("name", J.s "ghost")] "id" = false ∧
    (mergeJsonFiles "T0" [cx2File]).bind (fun out => olookup out "vehicles") =
      some (J.a []) :=
  ⟨rfl, rfl⟩

/-- Counterexample to claim C4 as stated: of two files only one parses,
yet `sourceFileCount` is 2 — it is fixed to `len(json_files)` (line 250)
before any parsing is attempted. -/
theorem parse_failure_still_counted :
    (([cx4Good, cx4Bad].filter (fun f => f.data.isSome)).length = 1) ∧
    (mergeJsonFiles "T0" [cx4Good, cx4Bad]).bind
      (fun out => metaLookup out "sourceFileCount") = some (J.i 2) :=
  ⟨rfl, rfl⟩

/-- Counterexample to claim C8 as stated: the first file carries the title
`"IES4 Military Database"`, so the consolidated title becomes
`"Consolidated IES4 Military Database"` — indistinguishable from the
default the guard (line 385) tests for — and the second file overwrites it
to `"Consolidated T2"`. -/
theorem default_looking_title_overwritten :
    olookup [("title", J.s "IES4 Military Database"), ("description", J.s "D1")] "title" =
      some (J.s "IES4 Military Database") ∧
    (mergeJsonFiles "T0" [cx8File1, cx8File2]).bind (fun out => olookup out "title") =
      some (J.s "Consolidated T2") ∧
    "Consolidated T2" ≠ "Consolidated IES4 Military Database" :=
  ⟨rfl, rfl, by decide⟩

/-- Counterexample to claim C3 as stated: `rglob` descends to any depth,
so a directory three levels below the data root that directly holds a JSON
file is discovered. -/
theorem deep_nested_folder_discovered :
    (2 < (["a", "b", "c"] : List String).length) ∧
    (∃ d ∈ cx3FS, d.path = ["a", "b", "c"] ∧ d.jsonFiles ≠ []) ∧
    ["a", "b", "c"] ∈ discover_country_folders cx3FS := by
  refine ⟨by decide, ⟨⟨["a", "b", "c"], ["x.json"]⟩, by decide, rfl, by decide⟩, ?_⟩
  decide

/-- Amended claim C3: discovery returns an immediate child of the data root
when it directly contains JSON files; otherwise it returns every strict
descendant (at any depth) of that child that directly contains JSON files. -/
theorem discovery_characterization (fs : List FSDir) (p : List String) :
    p ∈ discover_country_folders fs ↔
      (∃ d ∈ fs, d.path = p ∧ d.jsonFiles ≠ [] ∧
        (p.length = 1 ∨
          ∃ d1 ∈ fs, d1.path.length = 1 ∧ d1.jsonFiles = [] ∧
            strictUnder d1.path p = true)) := by
  unfold discover_country_folders discover_nested_folders
  rw [List.mem_flatMap]
  constructor
  · rintro ⟨d, hd, hp⟩
    rw [List.mem_filter] at hd
    obtain ⟨hdfs, hdlen⟩ := hd
    by_cases hje : d.jsonFiles.isEmpty = true
    · rw [if_pos hje] at hp
      rw [List.mem_map] at hp
      obtain ⟨q, hq, hqp⟩ := hp
      rw [List.mem_filter, Bool.and_eq_true] at hq
      obtain ⟨hqfs, hsu, hqj⟩ := hq
      refine ⟨q, hqfs, hqp, by simpa using hqj, Or.inr ⟨d, hdfs, by simpa using hdlen, by simpa using hje, hqp ▸ hsu⟩⟩
    · rw [if_neg hje] at hp
      rw [List.mem_singleton] at hp
      subst hp
      refine ⟨d, hdfs, rfl, ?_, Or.inl (by simpa using hdlen)⟩
      simpa [List.isEmpty_iff] using hje
  · rintro ⟨d, hdfs, rfl, hdj, hcase⟩
    rcases hcase with hlen | ⟨d1, hd1fs, hd1len, hd1j, hsu⟩
    · refine ⟨d, ?_, ?_⟩
      · rw [List.mem_filter]
        exact ⟨hdfs, by simpa using hlen⟩
      · rw [if_neg (by simpa [List.isEmpty_iff] using hdj)]
        exact List.mem_singleton.mpr rfl
    · refine ⟨d1, ?_, ?_⟩
      · rw [List.mem_filter]
        exact ⟨hd1fs, by simpa using hd1len⟩
      · rw [if_pos (by simpa [List.isEmpty_iff] using hd1j)]
        rw [List.mem_map]
        exact ⟨d, List.mem_filter.mpr ⟨hdfs, by simp [hsu, List.isEmpty_iff, hdj]⟩, rfl⟩

theorem beqJ_eq (x y : J) : beqJ x y = true ↔ x = y :=
  ⟨beqJ_sound x y, fun h => h ▸ beqJ_refl x⟩

theorem beqJ_false_of_ne {x y : J} (h : x ≠ y) : beqJ x y = false := by
  cases hb : beqJ x y
  · rfl
  · exact absurd (beqJ_sound x y hb) h

/-- Head-and-tail unfolding of the segment comparison: a missing segment
reads as zero.  (Trivially true when both lists are empty.) -/
theorem cmpSegsRec_step (a b : List Int) :
    cmpSegsRec a b =
      (if a.headD 0 > b.headD 0 then 1
       else if a.headD 0 < b.headD 0 then -1
       else cmpSegsRec a.tail b.tail) := by
  cases a with
  | nil =>
      cases b with
      | nil => simp [cmpSegsRec, cmpZeroList]
      | cons y ys =>
          show cmpZeroList (y :: ys) = _
          simp only [cmpZeroList, List.headD_nil, List.headD_cons, List.tail_nil,
            List.tail_cons]
          rfl
  | cons x xs =>
      cases b with
      | nil => simp [cmpSegsRec]
      | cons y ys => simp [cmpSegsRec]

theorem cmpSegsRec_vals_aux : ∀ (n : Nat) (a b : List Int), a.length + b.length ≤ n →
    cmpSegsRec a b = 1 ∨ cmpSegsRec a b = 0 ∨ cmpSegsRec a b = -1 := by
  intro n
  induction n with
  | zero =>
      intro a b hl
      have ha : a = [] := List.length_eq_zero.mp (by omega)
      have hb : b = [] := List.length_eq_zero.mp (by omega)
      subst ha; subst hb
      simp [cmpSegsRec, cmpZeroList]
  | succ n ih =>
      intro a b hl
      by_cases hab : a = [] ∧ b = []
      · obtain ⟨rfl, rfl⟩ := hab
        simp [cmpSegsRec, cmpZeroList]
      · rw [cmpSegsRec_step]
        by_cases h1 : a.headD 0 > b.headD 0
        · rw [if_pos h1]; left; rfl
        · rw [if_neg h1]
          by_cases h2 : a.headD 0 < b.headD 0
          · rw [if_pos h2]; right; right; rfl
          · rw [if_neg h2]
            refine ih a.tail b.tail ?_
            have : 1 ≤ a.length ∨ 1 ≤ b.length := by
              by_contra hc
              push_neg at hc
              exact hab ⟨List.length_eq_zero.mp (by omega), List.length_eq_zero.mp (by omega)⟩
            have hta : a.tail.length = a.length - 1 := by simp [List.length_tail]
            have htb : b.tail.length = b.length - 1 := by simp [List.length_tail]
            omega

theorem cmpSegsRec_vals (a b : List Int) :
    cmpSegsRec a b = 1 ∨ cmpSegsRec a b = 0 ∨ cmpSegsRec a b = -1 :=
  cmpSegsRec_vals_aux (a.length + b.length) a b (Nat.le_refl _)

theorem cmpSegsRec_antisym_aux : ∀ (n : Nat) (a b : List Int), a.length + b.length ≤ n →
    cmpSegsRec a b = -cmpSegsRec b a := by
  intro n
  induction n with
  | zero =>
      intro a b hl
      have ha : a = [] := List.length_eq_zero.mp (by omega)
      have hb : b = [] := List.length_eq_zero.mp (by omega)
      subst ha; subst hb
      rfl
  | succ n ih =>
      intro a b hl
      by_cases hab : a = [] ∧ b = []
      · obtain ⟨rfl, rfl⟩ := hab; rfl
      · rw [cmpSegsRec_step a b, cmpSegsRec_step b a]
        by_cases h1 : a.headD 0 > b.headD 0
        · rw [if_pos h1, if_neg (by omega), if_pos (by omega)]
          rfl
        · rw [if_neg h1]
          by_cases h2 : a.headD 0 < b.headD 0
          · rw [if_pos h2, if_pos (by omega)]
          · rw [if_neg h2, if_neg (by omega), if_neg (by omega)]
            refine ih a.tail b.tail ?_
            have : 1 ≤ a.length ∨ 1 ≤ b.length := by
              by_contra hc
              push_neg at hc
              exact hab ⟨List.length_eq_zero.mp (by omega), List.length_eq_zero.mp (by omega)⟩
            have hta : a.tail.length = a.length - 1 := by simp [List.length_tail]
            have htb : b.tail.length = b.length - 1 := by simp [List.length_tail]
            omega

theorem cmpSegsRec_antisym (a b : List Int) : cmpSegsRec a b = -cmpSegsRec b a :=
  cmpSegsRec_antisym_aux (a.length + b.length) a b (Nat.le_refl _)

theorem cmpSegsRec_le_trans_aux : ∀ (n : Nat) (a b d : List Int),
    a.length + b.length + d.length ≤ n →
    cmpSegsRec a b ≤ 0 → cmpSegsRec b d ≤ 0 → cmpSegsRec a d ≤ 0 := by
  intro n
  induction n with
  | zero =>
      intro a b d hl _ _
      have ha : a = [] := List.length_eq_zero.mp (by omega)
      have hd : d = [] := List.length_eq_zero.mp (by omega)
      subst ha; subst hd
      simp [cmpSegsRec, cmpZeroList]
  | succ n ih =>
      intro a b d hl h1 h2
      by_cases hall : a = [] ∧ b = [] ∧ d = []
      · obtain ⟨rfl, rfl, rfl⟩ := hall
        simp [cmpSegsRec, cmpZeroList]
      · rw [cmpSegsRec_step] at h1 h2 ⊢
        by_cases c1 : a.headD 0 > b.headD 0
        · rw [if_pos c1] at h1; omega
        · rw [if_neg c1] at h1
          by_cases c2 : b.headD 0 > d.headD 0
          · rw [if_pos c2] at h2; omega
          · rw [if_neg c2] at h2
            by_cases c3 : a.headD 0 > d.headD 0
            · exfalso; omega
            · rw [if_neg c3]
              by_cases c4 : a.headD 0 < d.headD 0
              · rw [if_pos c4]; omega
              · rw [if_neg c4]
                by_cases c5 : a.headD 0 < b.headD 0
                · omega
                · rw [if_neg c5] at h1
                  by_cases c6 : b.headD 0 < d.headD 0
                  · omega
                  · rw [if_neg c6] at h2
                    refine ih a.tail b.tail d.tail ?_ h1 h2
                    have : 1 ≤ a.length ∨ 1 ≤ b.length ∨ 1 ≤ d.length := by
                      by_contra hc
                      push_neg at hc
                      exact hall ⟨List.length_eq_zero.mp (by omega),
                        List.length_eq_zero.mp (by omega), List.length_eq_zero.mp (by omega)⟩
                    have hta : a.tail.length = a.length - 1 := by simp [List.length_tail]
                    have htb : b.tail.length = b.length - 1 := by simp [List.length_tail]
                    have htd : d.tail.length = d.length - 1 := by simp [List.length_tail]
                    omega

theorem cmpSegsRec_refl (a : List Int) : cmpSegsRec a a = 0 := by
  induction a with
  | nil => rfl
  | cons x xs ih => simp [cmpSegsRec, ih]

theorem cmpSegsRec_lt_of_le_of_lt (a b d : List Int)
    (h1 : cmpSegsRec a b ≤ 0) (h2 : cmpSegsRec b d < 0) : cmpSegsRec a d < 0 := by
  have hle := cmpSegsRec_le_trans_aux (a.length + b.length + d.length) a b d
    (Nat.le_refl _) h1 (by omega)
  rcases cmpSegsRec_vals a d with hv | hv | hv
  · omega
  · exfalso
    have hda : cmpSegsRec d a = 0 := by
      have := cmpSegsRec_antisym a d
      omega
    have hdb := cmpSegsRec_le_trans_aux (d.length + a.length + b.length) d a b
      (Nat.le_refl _) (by omega) h1
    have := cmpSegsRec_antisym b d
    omega
  · omega

theorem compare_versions_parts {v w : J} {pv pw : List Int}
    (hv : partsOf v = some pv) (hw : partsOf w = some pw) :
    compare_versions v w = some (cmpSegsRec pv pw) := by
  cases v with
  | s sv =>
      cases w with
      | s sw =>
          simp only [partsOf] at hv hw
          simp only [compare_versions, hv, hw]
          rw [numCmp_eq_cmpSegsRec]
      | null => simp [partsOf] at hw
      | b x => simp [partsOf] at hw
      | i x => simp [partsOf] at hw
      | a x => simp [partsOf] at hw
      | o x => simp [partsOf] at hw
  | null => simp [partsOf] at hv
  | b x => simp [partsOf] at hv
  | i x => simp [partsOf] at hv
  | a x => simp [partsOf] at hv
  | o x => simp [partsOf] at hv

theorem cmpGeB_refl {v : J} (h : isNumericVersion v = true) : cmpGeB v v = true := by
  simp only [isNumericVersion, Option.isSome_iff_exists] at h
  obtain ⟨pv, hpv⟩ := h
  simp [cmpGeB, compare_versions_parts hpv hpv, cmpSegsRec_refl]

theorem cmpGeB_of_not_gt {v w : J} {pv pw : List Int}
    (hv : partsOf v = some pv) (hw : partsOf w = some pw)
    {c : Int} (hc : compare_versions w v = some c) (hng : ¬(c > 0)) :
    cmpGeB v w = true := by
  rw [compare_versions_parts hw hv] at hc
  injection hc with hc
  subst hc
  have := cmpSegsRec_antisym pv pw
  simp only [cmpGeB, compare_versions_parts hv hw]
  simp
  omega

theorem cmpLtB_of_gt {v w : J} {pv pw : List Int}
    (hv : partsOf v = some pv) (hw : partsOf w = some pw)
    {c : Int} (hc : compare_versions w v = some c) (hg : c > 0) :
    cmpLtB v w = true := by
  rw [compare_versions_parts hw hv] at hc
  injection hc with hc
  subst hc
  have := cmpSegsRec_antisym pv pw
  simp only [cmpLtB, compare_versions_parts hv hw]
  simp
  omega

theorem cmpGeB_trans_of_gt {u v w : J} {pu pv pw : List Int}
    (hu : partsOf u = some pu) (hv : partsOf v = some pv) (hw : partsOf w = some pw)
    (h1 : cmpGeB v u = true) {c : Int}
    (hc : compare_versions w v = some c) (hg : c > 0) :
    cmpGeB w u = true ∧ cmpLtB u w = true := by
  rw [compare_versions_parts hw hv] at hc
  injection hc with hc
  subst hc
  simp only [cmpGeB, compare_versions_parts hv hu, decide_eq_true_eq] at h1
  have hlt : cmpSegsRec pu pw < 0 := by
    refine cmpSegsRec_lt_of_le_of_lt pu pv pw ?_ ?_
    · have := cmpSegsRec_antisym pv pu
      omega
    · have := cmpSegsRec_antisym pv pw
      omega
  constructor
  · simp only [cmpGeB, compare_versions_parts hw hu, decide_eq_true_eq]
    have := cmpSegsRec_antisym pu pw
    omega
  · simp only [cmpLtB, compare_versions_parts hu hw, decide_eq_true_eq]
    exact hlt

theorem stampFirst_lookup_other (now path : String) (ekvs : List (String × J))
    (k : String) (h1 : k ≠ "_sourceFiles") (h2 : k ≠ "_consolidatedAt")
    (h3 : k ≠ "timestamp") (h4 : k ≠ "version") :
    olookup (stampFirst now path ekvs) k = olookup ekvs k := by
  simp only [stampFirst]
  have e0 := olookup_oset_ne ekvs "_sourceFiles" k (J.a [J.s path]) (Ne.symm h1)
  have e1 := olookup_oset_ne (oset ekvs "_sourceFiles" (J.a [J.s path])) "_consolidatedAt"
    k (J.s now) (Ne.symm h2)
  have e2 : ∀ d (v : J), olookup (oset d "timestamp" v) k = olookup d k :=
    fun d v => olookup_oset_ne d _ _ v (Ne.symm h3)
  have e3 : ∀ d (v : J), olookup (oset d "version" v) k = olookup d k :=
    fun d v => olookup_oset_ne d _ _ v (Ne.symm h4)
  split
  · split <;> simp [e0, e1, e2, e3]
  · split <;> simp [e0, e1, e2, e3]

theorem olookup_stampFirst_id (now path : String) (ekvs : List (String × J)) :
    olookup (stampFirst now path ekvs) "id" = olookup ekvs "id" :=
  stampFirst_lookup_other now path ekvs "id" (by decide) (by decide) (by decide) (by decide)

theorem stampReplaced_lookup_other (now path : String) (ekvs : List (String × J)) (rv : J)
    (k : String) (h1 : k ≠ "_sourceFiles") (h2 : k ≠ "_consolidatedAt")
    (h5 : k ≠ "_replacedVersion") :
    olookup (stampReplaced now path ekvs rv) k = olookup ekvs k := by
  simp only [stampReplaced]
  simp [olookup_oset_ne _ "_sourceFiles" k _ (Ne.symm h1),
    olookup_oset_ne _ "_consolidatedAt" k _ (Ne.symm h2),
    olookup_oset_ne _ "_replacedVersion" k _ (Ne.symm h5)]

theorem olookup_stampReplaced_id (now path : String) (ekvs : List (String × J)) (rv : J) :
    olookup (stampReplaced now path ekvs rv) "id" = olookup ekvs "id" :=
  stampReplaced_lookup_other now path ekvs rv "id" (by decide) (by decide) (by decide)

theorem olookup_stampFirst_version (now path : String) (ekvs : List (String × J)) :
    olookup (stampFirst now path ekvs) "version" =
      (match olookup ekvs "version" with
       | some v => some v
       | none => some (J.s "1.0")) := by
  simp only [stampFirst]
  have e0 := olookup_oset_ne ekvs "_sourceFiles" "version" (J.a [J.s path]) (by decide)
  have e1 := olookup_oset_ne (oset ekvs "_sourceFiles" (J.a [J.s path])) "_consolidatedAt"
    "version" (J.s now) (by decide)
  have e2 : ∀ d (v : J), olookup (oset d "timestamp" v) "version" = olookup d "version" :=
    fun d v => olookup_oset_ne d _ _ v (by decide)
  by_cases hts : omem (oset (oset ekvs "_sourceFiles" (J.a [J.s path])) "_consolidatedAt" (J.s now)) "timestamp" = true
  · rw [if_pos hts]
    by_cases hver : omem (oset (oset ekvs "_sourceFiles" (J.a [J.s path])) "_consolidatedAt" (J.s now)) "version" = true
    · rw [if_pos hver, e1, e0]
      have hs : (olookup ekvs "version").isSome = true := by
        simpa [omem, e1, e0] using hver
      cases hl : olookup ekvs "version" with
      | none => rw [hl] at hs; simp at hs
      | some v => rfl
    · rw [if_neg hver, olookup_oset_self]
      have hs : (olookup ekvs "version").isSome = false := by
        have := (Bool.not_eq_true _).mp hver
        simpa [omem, e1, e0] using this
      cases hl : olookup ekvs "version" with
      | none => rfl
      | some v => rw [hl] at hs; simp at hs
  · rw [if_neg hts]
    by_cases hver : omem (oset (oset (oset ekvs "_sourceFiles" (J.a [J.s path])) "_consolidatedAt" (J.s now)) "timestamp" (J.s now)) "version" = true
    · rw [if_pos hver, e2, e1, e0]
      have hs : (olookup ekvs "version").isSome = true := by
        simpa [omem, e2, e1, e0] using hver
      cases hl : olookup ekvs "version" with
      | none => rw [hl] at hs; simp at hs
      | some v => rfl
    · rw [if_neg hver, olookup_oset_self]
      have hs : (olookup ekvs "version").isSome = false := by
        have := (Bool.not_eq_true _).mp hver
        simpa [omem, e2, e1, e0] using this
      cases hl : olookup ekvs "version" with
      | none => rfl
      | some v => rw [hl] at hs; simp at hs

theorem effVersion_stampFirst (now path : String) (ekvs : List (String × J)) :
    effVersion (stampFirst now path ekvs) = effVersion ekvs := by
  unfold effVersion ogetD
  rw [olookup_stampFirst_version]
  cases hl : olookup ekvs "version" with
  | none => rfl
  | some v => rfl

theorem effVersion_stampReplaced (now path : String) (ekvs : List (String × J)) (rv : J) :
    effVersion (stampReplaced now path ekvs rv) = effVersion ekvs := by
  unfold effVersion ogetD
  rw [stampReplaced_lookup_other now path ekvs rv "version" (by decide) (by decide) (by decide)]

theorem olookup_stampReplaced_rv (now path : String) (ekvs : List (String × J)) (rv : J) :
    olookup (stampReplaced now path ekvs rv) "_replacedVersion" = some rv := by
  simp only [stampReplaced]
  rw [olookup_oset_self]

theorem any_beq_iff (l : List J) (x : J) : (l.any fun y => beqJ y x) = true ↔ x ∈ l := by
  rw [List.any_eq_true]
  constructor
  · rintro ⟨y, hy, hb⟩
    rw [beqJ_sound y x hb] at hy
    exact hy
  · intro hx
    exact ⟨x, hx, beqJ_refl x⟩

theorem vlookup_vset_self (m : List (J × J)) (k v : J) :
    vlookup (vset m k v) k = some v := by
  induction m with
  | nil => simp [vset, vlookup, beqJ_refl]
  | cons kv rest ih =>
      obtain ⟨k1, v1⟩ := kv
      by_cases h : beqJ k1 k = true
      · simp [vset, vlookup, h]
      · simp only [Bool.not_eq_true] at h
        simp [vset, vlookup, h, ih]

theorem vlookup_vset_ne (m : List (J × J)) (k k2 v : J) (h : k ≠ k2) :
    vlookup (vset m k v) k2 = vlookup m k2 := by
  induction m with
  | nil =>
      simp [vset, vlookup, beqJ_false_of_ne h]
  | cons kv rest ih =>
      obtain ⟨k1, v1⟩ := kv
      by_cases h1 : beqJ k1 k = true
      · have : k1 = k := beqJ_sound _ _ h1
        subst this
        simp [vset, vlookup, h1, beqJ_false_of_ne h]
      · simp only [Bool.not_eq_true] at h1
        by_cases h2 : beqJ k1 k2 = true
        · simp [vset, vlookup, h1, h2]
        · simp only [Bool.not_eq_true] at h2
          simp [vset, vlookup, h1, h2, ih]

theorem ne_of_beqJ_false {x y : J} (h : beqJ x y = false) : x ≠ y := by
  intro he
  rw [he, beqJ_refl] at h
  cases h

theorem findReplaceIdx_unique (eid : J) (l : List J) (cur : J)
    (hall : ∀ e ∈ l, entityHasId e = true)
    (hf : l.filter (idIs eid) = [cur]) :
    ∃ idx, findReplaceIdx eid l = some (some idx) ∧
      ∀ v, idIs eid v = true → (lset l idx v).filter (idIs eid) = [v] := by
  induction l with
  | nil => simp [List.filter] at hf
  | cons e rest ih =>
      have he := hall e (List.mem_cons_self e rest)
      cases e with
      | o ekvs =>
          simp only [entityHasId, omem, Option.isSome_iff_exists] at he
          obtain ⟨i, hi⟩ := he
          by_cases hb : beqJ i eid = true
          · have hP : idIs eid (J.o ekvs) = true := by simp [idIs, hi, hb]
            rw [List.filter_cons_of_pos hP] at hf
            have hcur : J.o ekvs = cur := by
              injection hf
            have hrest : rest.filter (idIs eid) = [] := by
              injection hf with h1 h2
            refine ⟨0, ?_, ?_⟩
            · simp [findReplaceIdx, hi, hb]
            · intro v hv
              simp only [lset]
              rw [List.filter_cons_of_pos hv, hrest]
          · simp only [Bool.not_eq_true] at hb
            have hP : idIs eid (J.o ekvs) = false := by simp [idIs, hi, hb]
            rw [List.filter_cons_of_neg (by simp [hP])] at hf
            obtain ⟨k, hk, hrepl⟩ := ih (fun x hx => hall x (List.mem_cons_of_mem _ hx)) hf
            refine ⟨k + 1, ?_, ?_⟩
            · simp [findReplaceIdx, hi, hb, hk]
            · intro v hv
              simp only [lset]
              rw [List.filter_cons_of_neg (by simp [hP]), hrepl v hv]
      | null => simp [entityHasId] at he
      | b x => simp [entityHasId] at he
      | i x => simp [entityHasId] at he
      | s x => simp [entityHasId] at he
      | a x => simp [entityHasId] at he

theorem findReplaceIdx_found (i0 : J) (l : List J) (idx : Nat)
    (hfind : findReplaceIdx i0 l = some (some idx)) :
    ∃ ekvs0, l.get? idx = some (J.o ekvs0) ∧ olookup ekvs0 "id" = some i0 := by
  induction l generalizing idx with
  | nil => simp [findReplaceIdx] at hfind
  | cons e rest ih =>
      cases e with
      | o ekvs =>
          cases hi : olookup ekvs "id" with
          | none => simp [findReplaceIdx, hi] at hfind
          | some i =>
              by_cases hb : beqJ i i0 = true
              · simp only [findReplaceIdx, hi, hb, if_true, Option.some.injEq] at hfind
                subst hfind
                exact ⟨ekvs, rfl, by rw [hi, beqJ_sound i i0 hb]⟩
              · simp only [Bool.not_eq_true] at hb
                simp only [findReplaceIdx, hi, hb, Bool.false_eq_true, if_false] at hfind
                cases hk : findReplaceIdx i0 rest with
                | none => rw [hk] at hfind; cases hfind
                | some r =>
                    rw [hk] at hfind
                    cases r with
                    | none => simp at hfind
                    | some k =>
                        simp at hfind
                        obtain ⟨ekvs0, hget, hid⟩ := ih k hk
                        refine ⟨ekvs0, ?_, hid⟩
                        rw [← hfind]
                        simpa using hget
      | null => simp [findReplaceIdx] at hfind
      | b x => simp [findReplaceIdx] at hfind
      | i x => simp [findReplaceIdx] at hfind
      | s x => simp [findReplaceIdx] at hfind
      | a x => simp [findReplaceIdx] at hfind

theorem filter_lset_unchanged (P : J → Bool) (l : List J) (idx : Nat) (old v : J)
    (hget : l.get? idx = some old) (hold : P old = false) (hv : P v = false) :
    (lset l idx v).filter P = l.filter P := by
  induction l generalizing idx with
  | nil => rfl
  | cons e rest ih =>
      cases idx with
      | zero =>
          simp only [List.get?_cons_zero, Option.some.injEq] at hget
          subst hget
          simp only [lset]
          rw [List.filter_cons_of_neg (by simp [hv]), List.filter_cons_of_neg (by simp [hold])]
      | succ k =>
          simp only [List.get?_cons_succ] at hget
          simp only [lset]
          by_cases hPe : P e = true
          · rw [List.filter_cons_of_pos hPe, List.filter_cons_of_pos hPe, ih k hget]
          · simp only [Bool.not_eq_true] at hPe
            rw [List.filter_cons_of_neg (by simp [hPe]), List.filter_cons_of_neg (by simp [hPe]),
              ih k hget]

theorem idIs_lookup (eid : J) (ekvs : List (String × J)) (i : J)
    (hi : olookup ekvs "id" = some i) : idIs eid (J.o ekvs) = beqJ i eid := by
  simp [idIs, hi]

theorem mergeEntityStep_proj_miss (now path : String) (eid : J)
    (ekvs : List (String × J)) (ts ts' : TypeState) (ps : Option (J × J))
    (hstep : mergeEntityStep now path ekvs ts = some ts')
    (hmiss : occIdIs eid (path, ekvs) = false)
    (hinv : projInv eid ts ps) : projInv eid ts' ps := by
  cases hid : olookup ekvs "id" with
  | none =>
      replace hstep : some ts = some ts' := by
        simpa [mergeEntityStep, hid] using hstep
      injection hstep with hstep
      exact hstep ▸ hinv
  | some eid2 =>
      have hne : beqJ eid2 eid = false := by
        simpa [occIdIs, idIs, hid] using hmiss
      have hne2 : eid2 ≠ eid := ne_of_beqJ_false hne
      simp only [mergeEntityStep, hid] at hstep
      by_cases hh : hashable eid2 = false
      · rw [if_pos hh] at hstep; cases hstep
      · rw [if_neg hh] at hstep
        by_cases htr : (ts.tracker.any fun x => beqJ x eid2) = false
        · rw [if_pos htr] at hstep
          injection hstep with hstep
          subst hstep
          obtain ⟨hall, hrest⟩ := hinv
          have hstid : idIs eid (J.o (stampFirst now path ekvs)) = false := by
            rw [idIs_lookup eid _ eid2 (by rw [olookup_stampFirst_id]; exact hid)]
            exact hne
          have hallnew : ∀ e ∈ ts.entities ++ [J.o (stampFirst now path ekvs)],
              entityHasId e = true := by
            intro e he
            rcases List.mem_append.mp he with h1 | h1
            · exact hall e h1
            · rcases List.mem_singleton.mp h1 with rfl
              simp [entityHasId, omem, olookup_stampFirst_id, hid]
          refine ⟨hallnew, ?_⟩
          cases ps with
          | none =>
              obtain ⟨hf, ht, hv⟩ := hrest
              refine ⟨?_, ?_, ?_⟩
              · simp only [List.filter_append, hf]
                simp [List.filter, hstid]
              · simp only [List.any_append, ht]
                simp [hne]
              · rw [vlookup_vset_ne _ _ _ _ hne2]
                exact hv
          | some pr =>
              obtain ⟨cur, rec⟩ := pr
              obtain ⟨hf, hc, ht, hv⟩ := hrest
              refine ⟨?_, hc, ?_, ?_⟩
              · simp only [List.filter_append, hf]
                simp [List.filter, hstid]
              · simp only [List.any_append, ht]
                simp
              · rw [vlookup_vset_ne _ _ _ _ hne2]
                exact hv
        · rw [if_neg htr] at hstep
          cases hvl : vlookup ts.versions eid2 with
          | none => rw [hvl] at hstep; cases hstep
          | some existing =>
              rw [hvl] at hstep
              replace hstep :
                  (match compare_versions (ogetD ekvs "version" (J.s "1.0")) existing with
                   | none => (none : Option TypeState)
                   | some c =>
                       if c > 0 then
                         match findReplaceIdx eid2 ts.entities with
                         | none => none
                         | some none => some ts
                         | some (some idx) =>
                             some { entities := lset ts.entities idx
                                      (J.o (stampReplaced now path ekvs existing)),
                                    tracker := ts.tracker,
                                    versions := vset ts.versions eid2
                                      (ogetD ekvs "version" (J.s "1.0")) }
                       else some ts) = some ts' := hstep
              cases hcv : compare_versions (ogetD ekvs "version" (J.s "1.0")) existing with
              | none => rw [hcv] at hstep; cases hstep
              | some c =>
                  rw [hcv] at hstep
                  replace hstep :
                      (if c > 0 then
                         match findReplaceIdx eid2 ts.entities with
                         | none => (none : Option TypeState)
                         | some none => some ts
                         | some (some idx) =>
                             some { entities := lset ts.entities idx
                                      (J.o (stampReplaced now path ekvs existing)),
                                    tracker := ts.tracker,
                                    versions := vset ts.versions eid2
                                      (ogetD ekvs "version" (J.s "1.0")) }
                       else some ts) = some ts' := hstep
                  by_cases hc : c > 0
                  · rw [if_pos hc] at hstep
                    cases hfr : findReplaceIdx eid2 ts.entities with
                    | none => rw [hfr] at hstep; cases hstep
                    | some r =>
                        rw [hfr] at hstep
                        cases r with
                        | none =>
                            replace hstep : some ts = some ts' := hstep
                            injection hstep with hstep
                            exact hstep ▸ hinv
                        | some idx =>
                            replace hstep :
                                some { entities := lset ts.entities idx
                                         (J.o (stampReplaced now path ekvs existing)),
                                       tracker := ts.tracker,
                                       versions := vset ts.versions eid2
                                         (ogetD ekvs "version" (J.s "1.0")) } = some ts' := hstep
                            injection hstep with hstep
                            subst hstep
                            obtain ⟨hall, hrest⟩ := hinv
                            obtain ⟨ekvs0, hget, hid0⟩ := findReplaceIdx_found eid2 ts.entities idx hfr
                            have holdF : idIs eid (J.o ekvs0) = false := by
                              rw [idIs_lookup eid _ eid2 hid0]; exact hne
                            have hnewF : idIs eid (J.o (stampReplaced now path ekvs existing)) = false := by
                              rw [idIs_lookup eid _ eid2 (by rw [olookup_stampReplaced_id]; exact hid)]
                              exact hne
                            have hfilter := filter_lset_unchanged (idIs eid) ts.entities idx
                              (J.o ekvs0) (J.o (stampReplaced now path ekvs existing)) hget holdF hnewF
                            have hallnew : ∀ e ∈ lset ts.entities idx
                                (J.o (stampReplaced now path ekvs existing)),
                                entityHasId e = true := by
                              intro e he
                              rcases mem_lset ts.entities idx _ e he with h1 | h1
                              · exact hall e h1
                              · rw [h1]
                                simp [entityHasId, omem, olookup_stampReplaced_id, hid]
                            refine ⟨hallnew, ?_⟩
                            cases ps with
                            | none =>
                                obtain ⟨hf, ht, hv⟩ := hrest
                                exact ⟨by rw [hfilter]; exact hf, ht,
                                  by rw [vlookup_vset_ne _ _ _ _ hne2]; exact hv⟩
                            | some pr =>
                                obtain ⟨cur, rec⟩ := pr
                                obtain ⟨hf, hcu, ht, hv⟩ := hrest
                                exact ⟨by rw [hfilter]; exact hf, hcu, ht,
                                  by rw [vlookup_vset_ne _ _ _ _ hne2]; exact hv⟩
                  · rw [if_neg hc] at hstep
                    injection hstep with hstep
                    exact hstep ▸ hinv

theorem mergeEntityStep_proj_hit (now path : String) (eid : J)
    (ekvs : List (String × J)) (ts ts' : TypeState) (ps : Option (J × J))
    (hstep : mergeEntityStep now path ekvs ts = some ts')
    (hhit : occIdIs eid (path, ekvs) = true)
    (hinv : projInv eid ts ps) :
    ∃ ps1, projStep now (path, ekvs) ps = some ps1 ∧ projInv eid ts' ps1 := by
  cases hid0 : olookup ekvs "id" with
  | none => simp [occIdIs, idIs, hid0] at hhit
  | some i =>
      have hbeq : beqJ i eid = true := by
        simpa [occIdIs, idIs, hid0] using hhit
      have hid : olookup ekvs "id" = some eid := by
        rw [hid0, beqJ_sound i eid hbeq]
      simp only [mergeEntityStep, hid] at hstep
      by_cases hh : hashable eid = false
      · rw [if_pos hh] at hstep; cases hstep
      · rw [if_neg hh] at hstep
        by_cases htr : (ts.tracker.any fun x => beqJ x eid) = false
        · rw [if_pos htr] at hstep
          injection hstep with hstep
          subst hstep
          obtain ⟨hall, hrest⟩ := hinv
          cases ps with
          | some pr =>
              obtain ⟨cur, rec⟩ := pr
              obtain ⟨_, _, ht, _⟩ := hrest
              rw [ht] at htr
              simp at htr
          | none =>
              obtain ⟨hf, ht, hv⟩ := hrest
              refine ⟨some (J.o (stampFirst now path ekvs), effVersion ekvs), rfl, ?_, ?_⟩
              · intro e he
                rcases List.mem_append.mp he with h1 | h1
                · exact hall e h1
                · rcases List.mem_singleton.mp h1 with rfl
                  simp [entityHasId, omem, olookup_stampFirst_id, hid]
              · have hstid : idIs eid (J.o (stampFirst now path ekvs)) = true := by
                  rw [idIs_lookup eid _ eid (by rw [olookup_stampFirst_id]; exact hid)]
                  exact beqJ_refl eid
                refine ⟨?_, hstid, ?_, ?_⟩
                · simp only [List.filter_append, hf]
                  simp [List.filter, hstid]
                · simp only [List.any_append]
                  simp [beqJ_refl]
                · rw [vlookup_vset_self]
                  rfl
        · rw [if_neg htr] at hstep
          simp only [Bool.not_eq_false] at htr
          obtain ⟨hall, hrest⟩ := hinv
          cases ps with
          | none =>
              obtain ⟨_, ht, _⟩ := hrest
              rw [ht] at htr
              simp at htr
          | some pr =>
              obtain ⟨cur, rec⟩ := pr
              obtain ⟨hf, hcu, ht, hv⟩ := hrest
              rw [hv] at hstep
              replace hstep :
                  (match compare_versions (ogetD ekvs "version" (J.s "1.0")) rec with
                   | none => (none : Option TypeState)
                   | some c =>
                       if c > 0 then
                         match findReplaceIdx eid ts.entities with
                         | none => none
                         | some none => some ts
                         | some (some idx) =>
                             some { entities := lset ts.entities idx
                                      (J.o (stampReplaced now path ekvs rec)),
                                    tracker := ts.tracker,
                                    versions := vset ts.versions eid
                                      (ogetD ekvs "version" (J.s "1.0")) }
                       else some ts) = some ts' := hstep
              cases hcv : compare_versions (ogetD ekvs "version" (J.s "1.0")) rec with
              | none => rw [hcv] at hstep; cases hstep
              | some c =>
                  rw [hcv] at hstep
                  replace hstep :
                      (if c > 0 then
                         match findReplaceIdx eid ts.entities with
                         | none => (none : Option TypeState)
                         | some none => some ts
                         | some (some idx) =>
                             some { entities := lset ts.entities idx
                                      (J.o (stampReplaced now path ekvs rec)),
                                    tracker := ts.tracker,
                                    versions := vset ts.versions eid
                                      (ogetD ekvs "version" (J.s "1.0")) }
                       else some ts) = some ts' := hstep
                  have hcv2 : compare_versions (effVersion ekvs) rec = some c := hcv
                  by_cases hc : c > 0
                  · rw [if_pos hc] at hstep
                    obtain ⟨idx, hfr, hrepl⟩ := findReplaceIdx_unique eid ts.entities cur hall hf
                    rw [hfr] at hstep
                    replace hstep :
                        some { entities := lset ts.entities idx
                                 (J.o (stampReplaced now path ekvs rec)),
                               tracker := ts.tracker,
                               versions := vset ts.versions eid
                                 (ogetD ekvs "version" (J.s "1.0")) } = some ts' := hstep
                    injection hstep with hstep
                    subst hstep
                    have hstid : idIs eid (J.o (stampReplaced now path ekvs rec)) = true := by
                      rw [idIs_lookup eid _ eid (by rw [olookup_stampReplaced_id]; exact hid)]
                      exact beqJ_refl eid
                    refine ⟨some (J.o (stampReplaced now path ekvs rec), effVersion ekvs),
                      ?_, ?_, ?_⟩
                    · simp only [projStep, hcv2]
                      rw [if_pos hc]
                    · intro e he
                      rcases mem_lset ts.entities idx _ e he with h1 | h1
                      · exact hall e h1
                      · rw [h1]
                        simp [entityHasId, omem, olookup_stampReplaced_id, hid]
                    · refine ⟨hrepl _ hstid, hstid, htr, ?_⟩
                      rw [vlookup_vset_self]
                      rfl
                  · rw [if_neg hc] at hstep
                    injection hstep with hstep
                    subst hstep
                    refine ⟨some (cur, rec), ?_, hall, hf, hcu, htr, hv⟩
                    simp only [projStep, hcv2]
                    rw [if_neg hc]

theorem mergeEntitySteps_proj (now : String) (eid : J)
    (occ : List (String × List (String × J))) :
    ∀ (ts ts' : TypeState) (ps : Option (J × J)),
      mergeEntitySteps now occ ts = some ts' → projInv eid ts ps →
      ∃ ps1, projFold now (occ.filter (occIdIs eid)) ps = some ps1 ∧
        projInv eid ts' ps1 := by
  induction occ with
  | nil =>
      intro ts ts' ps hrun hinv
      replace hrun : some ts = some ts' := hrun
      injection hrun with hrun
      exact ⟨ps, rfl, hrun ▸ hinv⟩
  | cons pe rest ih =>
      intro ts ts' ps hrun hinv
      obtain ⟨p, ekvs⟩ := pe
      replace hrun :
          (match mergeEntityStep now p ekvs ts with
           | none => none
           | some ts1 => mergeEntitySteps now rest ts1) = some ts' := hrun
      cases hstep : mergeEntityStep now p ekvs ts with
      | none => rw [hstep] at hrun; cases hrun
      | some ts1 =>
          rw [hstep] at hrun
          replace hrun : mergeEntitySteps now rest ts1 = some ts' := hrun
          by_cases hocc : occIdIs eid (p, ekvs) = true
          · obtain ⟨ps1, hps1, hinv1⟩ :=
              mergeEntityStep_proj_hit now p eid ekvs ts ts1 ps hstep hocc hinv
            obtain ⟨ps2, hps2, hinv2⟩ := ih ts1 ts' ps1 hrun hinv1
            refine ⟨ps2, ?_, hinv2⟩
            rw [List.filter_cons_of_pos hocc]
            simp only [projFold, hps1]
            exact hps2
          · simp only [Bool.not_eq_true] at hocc
            have hinv1 := mergeEntityStep_proj_miss now p eid ekvs ts ts1 ps hstep hocc hinv
            obtain ⟨ps2, hps2, hinv2⟩ := ih ts1 ts' ps hrun hinv1
            refine ⟨ps2, ?_, hinv2⟩
            rw [List.filter_cons_of_neg (by simp [hocc])]
            exact hps2

theorem survivorSpec_mem_of_decomp {now : String}
    {occ : List (String × List (String × J))} {cur rec : J}
    (h : survivorSpec now occ cur rec) : ∃ pe ∈ occ, rec = effVersion pe.2 := by
  obtain ⟨_, before0, pe0, after0, hdec, hrec0, _, _⟩ := h
  exact ⟨pe0, by rw [hdec]; exact List.mem_append_right _ (List.mem_cons_self _ _), hrec0⟩

theorem projFold_survivorAux (now : String) (rest : List (String × List (String × J))) :
    ∀ (done : List (String × List (String × J))) (cur rec : J) (res : Option (J × J)),
      (∀ qe ∈ done, isNumericVersion (effVersion qe.2) = true) →
      (∀ qe ∈ rest, isNumericVersion (effVersion qe.2) = true) →
      survivorSpec now done cur rec →
      projFold now rest (some (cur, rec)) = some res →
      ∃ cur2 rec2, res = some (cur2, rec2) ∧
        survivorSpec now (done ++ rest) cur2 rec2 := by
  induction rest with
  | nil =>
      intro done cur rec res hnd hnr hspec hrun
      replace hrun : some (some (cur, rec)) = some res := hrun
      injection hrun with hrun
      exact ⟨cur, rec, hrun.symm, by simpa using hspec⟩
  | cons pe rest ih =>
      intro done cur rec res hnd hnr hspec hrun
      have hnpe : isNumericVersion (effVersion pe.2) = true :=
        hnr pe (List.mem_cons_self _ _)
      have hnpe2 := hnpe
      simp only [isNumericVersion, Option.isSome_iff_exists] at hnpe2
      obtain ⟨ppe, hppe⟩ := hnpe2
      obtain ⟨hmax, before0, pe0, after0, hdec, hrec0, hlt0, hbr0⟩ := hspec
      have hpe0mem : pe0 ∈ done := by
        rw [hdec]; exact List.mem_append_right _ (List.mem_cons_self _ _)
      have hnrec : isNumericVersion rec = true := by
        rw [hrec0]; exact hnd pe0 hpe0mem
      simp only [isNumericVersion, Option.isSome_iff_exists] at hnrec
      obtain ⟨prec, hprec⟩ := hnrec
      have hcmp : compare_versions (effVersion pe.2) rec = some (cmpSegsRec ppe prec) :=
        compare_versions_parts hppe hprec
      have hspecrec : survivorSpec now done cur rec :=
        ⟨hmax, before0, pe0, after0, hdec, hrec0, hlt0, hbr0⟩
      replace hrun :
          (match projStep now pe (some (cur, rec)) with
           | none => none
           | some ps1 => projFold now rest ps1) = some res := hrun
      have hstep : projStep now pe (some (cur, rec)) =
          (if cmpSegsRec ppe prec > 0
           then some (some (J.o (stampReplaced now pe.1 pe.2 rec), effVersion pe.2))
           else some (some (cur, rec))) := by
        simp only [projStep, hcmp]
      by_cases hgt : cmpSegsRec ppe prec > 0
      · rw [hstep, if_pos hgt] at hrun
        replace hrun : projFold now rest
            (some (J.o (stampReplaced now pe.1 pe.2 rec), effVersion pe.2)) = some res := hrun
        have hspec1 : survivorSpec now (done ++ [pe])
            (J.o (stampReplaced now pe.1 pe.2 rec)) (effVersion pe.2) := by
          constructor
          · intro qe hqe
            rcases List.mem_append.mp hqe with hq | hq
            · have hnq := hnd qe hq
              simp only [isNumericVersion, Option.isSome_iff_exists] at hnq
              obtain ⟨pq, hpq⟩ := hnq
              exact (cmpGeB_trans_of_gt hpq hprec hppe (hmax qe hq) hcmp hgt).1
            · rcases List.mem_singleton.mp hq with rfl
              exact cmpGeB_refl hnpe
          · refine ⟨done, pe, [], rfl, rfl, ?_, ?_⟩
            · intro qe hq
              have hnq := hnd qe hq
              simp only [isNumericVersion, Option.isSome_iff_exists] at hnq
              obtain ⟨pq, hpq⟩ := hnq
              exact (cmpGeB_trans_of_gt hpq hprec hppe (hmax qe hq) hcmp hgt).2
            · right
              refine ⟨by rw [hdec]; simp, rec, rfl,
                olookup_stampReplaced_rv _ _ _ _, hmax, ?_⟩
              rw [hrec0]
              exact List.mem_map_of_mem _ hpe0mem
        have hnd1 : ∀ qe ∈ done ++ [pe], isNumericVersion (effVersion qe.2) = true := by
          intro qe hq
          rcases List.mem_append.mp hq with hq | hq
          · exact hnd qe hq
          · rcases List.mem_singleton.mp hq with rfl
            exact hnpe
        obtain ⟨cur2, rec2, hres, hspec2⟩ := ih (done ++ [pe]) _ _ res hnd1
          (fun qe hq => hnr qe (List.mem_cons_of_mem _ hq)) hspec1 hrun
        refine ⟨cur2, rec2, hres, ?_⟩
        have hass : (done ++ [pe]) ++ rest = done ++ pe :: rest := by simp
        rwa [hass] at hspec2
      · rw [hstep, if_neg hgt] at hrun
        replace hrun : projFold now rest (some (cur, rec)) = some res := hrun
        have hge : cmpGeB rec (effVersion pe.2) = true :=
          cmpGeB_of_not_gt hprec hppe hcmp hgt
        have hspec1 : survivorSpec now (done ++ [pe]) cur rec := by
          refine ⟨?_, before0, pe0, after0 ++ [pe], ?_, hrec0, hlt0, hbr0⟩
          · intro qe hq
            rcases List.mem_append.mp hq with hq | hq
            · exact hmax qe hq
            · rcases List.mem_singleton.mp hq with rfl
              exact hge
          · rw [hdec]; simp
        have hnd1 : ∀ qe ∈ done ++ [pe], isNumericVersion (effVersion qe.2) = true := by
          intro qe hq
          rcases List.mem_append.mp hq with hq | hq
          · exact hnd qe hq
          · rcases List.mem_singleton.mp hq with rfl
            exact hnpe
        obtain ⟨cur2, rec2, hres, hspec2⟩ := ih (done ++ [pe]) _ _ res hnd1
          (fun qe hq => hnr qe (List.mem_cons_of_mem _ hq)) hspec1 hrun
        refine ⟨cur2, rec2, hres, ?_⟩
        have hass : (done ++ [pe]) ++ rest = done ++ pe :: rest := by simp
        rwa [hass] at hspec2

theorem projFold_survivor (now : String) (pe0 : String × List (String × J))
    (rest : List (String × List (String × J))) (res : Option (J × J))
    (hnum : ∀ qe ∈ pe0 :: rest, isNumericVersion (effVersion qe.2) = true)
    (hrun : projFold now (pe0 :: rest) none = some res) :
    ∃ cur rec, res = some (cur, rec) ∧ survivorSpec now (pe0 :: rest) cur rec := by
  replace hrun : projFold now rest
      (some (J.o (stampFirst now pe0.1 pe0.2), effVersion pe0.2)) = some res := hrun
  have hbase : survivorSpec now [pe0]
      (J.o (stampFirst now pe0.1 pe0.2)) (effVersion pe0.2) := by
    constructor
    · intro qe hq
      rw [List.mem_singleton.mp hq]
      exact cmpGeB_refl (hnum pe0 (List.mem_cons_self _ _))
    · refine ⟨[], pe0, [], rfl, rfl, ?_, Or.inl ⟨rfl, rfl⟩⟩
      intro qe hq
      cases hq
  obtain ⟨cur2, rec2, hres, hspec2⟩ := projFold_survivorAux now rest [pe0] _ _ res
    (by
      intro qe hq
      rw [List.mem_singleton.mp hq]
      exact hnum pe0 (List.mem_cons_self _ _))
    (fun qe hq => hnum qe (List.mem_cons_of_mem _ hq)) hbase hrun
  exact ⟨cur2, rec2, hres, by simpa using hspec2⟩

theorem entityIds_lset_same (l : List J) : ∀ (idx : Nat) (v old : J),
    l.get? idx = some old → entityIdOf v = entityIdOf old →
    entityIds (lset l idx v) = entityIds l := by
  induction l with
  | nil => intro idx v old hget _; cases hget
  | cons e rest ih =>
      intro idx v old hget hsame
      cases idx with
      | zero =>
          simp only [List.get?_cons_zero, Option.some.injEq] at hget
          subst hget
          simp only [lset, entityIds, List.map_cons]
          rw [hsame]
      | succ k =>
          simp only [List.get?_cons_succ] at hget
          simp only [lset, entityIds, List.map_cons]
          have := ih k v old hget hsame
          simp only [entityIds] at this
          rw [this]

theorem mergeEntityStep_ids (now path : String) (ekvs : List (String × J))
    (ts ts' : TypeState)
    (hstep : mergeEntityStep now path ekvs ts = some ts')
    (hid : omem ekvs "id" = true)
    (hids : entityIds ts.entities = ts.tracker.map some) :
    entityIds ts'.entities = ts'.tracker.map some ∧
    ts'.tracker = ts.tracker ++ dedupNew ts.tracker [occId (path, ekvs)] := by
  cases hid0 : olookup ekvs "id" with
  | none => simp [omem, hid0] at hid
  | some eid =>
      have hoccid : occId (path, ekvs) = eid := by simp [occId, hid0]
      simp only [mergeEntityStep, hid0] at hstep
      by_cases hh : hashable eid = false
      · rw [if_pos hh] at hstep; cases hstep
      · rw [if_neg hh] at hstep
        by_cases htr : (ts.tracker.any fun x => beqJ x eid) = false
        · rw [if_pos htr] at hstep
          injection hstep with hstep
          subst hstep
          have htr2 : (ts.tracker.any fun y => beqJ y eid) = false := htr
          constructor
          · simp only [entityIds, List.map_append, List.map_cons, List.map_nil]
            simp only [entityIds] at hids
            rw [hids]
            simp [entityIdOf, olookup_stampFirst_id, hid0]
          · simp [dedupNew, hoccid, htr2]
        · rw [if_neg htr] at hstep
          simp only [Bool.not_eq_false] at htr
          have hskip : dedupNew ts.tracker [occId (path, ekvs)] = [] := by
            simp [dedupNew, hoccid, htr]
          cases hvl : vlookup ts.versions eid with
          | none => rw [hvl] at hstep; cases hstep
          | some existing =>
              rw [hvl] at hstep
              replace hstep :
                  (match compare_versions (ogetD ekvs "version" (J.s "1.0")) existing with
                   | none => (none : Option TypeState)
                   | some c =>
                       if c > 0 then
                         match findReplaceIdx eid ts.entities with
                         | none => none
                         | some none => some ts
                         | some (some idx) =>
                             some { entities := lset ts.entities idx
                                      (J.o (stampReplaced now path ekvs existing)),
                                    tracker := ts.tracker,
                                    versions := vset ts.versions eid
                                      (ogetD ekvs "version" (J.s "1.0")) }
                       else some ts) = some ts' := hstep
              cases hcv : compare_versions (ogetD ekvs "version" (J.s "1.0")) existing with
              | none => rw [hcv] at hstep; cases hstep
              | some c =>
                  rw [hcv] at hstep
                  replace hstep :
                      (if c > 0 then
                         match findReplaceIdx eid ts.entities with
                         | none => (none : Option TypeState)
                         | some none => some ts
                         | some (some idx) =>
                             some { entities := lset ts.entities idx
                                      (J.o (stampReplaced now path ekvs existing)),
                                    tracker := ts.tracker,
                                    versions := vset ts.versions eid
                                      (ogetD ekvs "version" (J.s "1.0")) }
                       else some ts) = some ts' := hstep
                  by_cases hc : c > 0
                  · rw [if_pos hc] at hstep
                    cases hfr : findReplaceIdx eid ts.entities with
                    | none => rw [hfr] at hstep; cases hstep
                    | some r =>
                        rw [hfr] at hstep
                        cases r with
                        | none =>
                            replace hstep : some ts = some ts' := hstep
                            injection hstep with hstep
                            subst hstep
                            exact ⟨hids, by rw [hskip]; simp⟩
                        | some idx =>
                            replace hstep :
                                some { entities := lset ts.entities idx
                                         (J.o (stampReplaced now path ekvs existing)),
                                       tracker := ts.tracker,
                                       versions := vset ts.versions eid
                                         (ogetD ekvs "version" (J.s "1.0")) } = some ts' := hstep
                            injection hstep with hstep
                            subst hstep
                            obtain ⟨ekvs0, hget, hid1⟩ := findReplaceIdx_found eid ts.entities idx hfr
                            have hsame : entityIdOf (J.o (stampReplaced now path ekvs existing)) =
                                entityIdOf (J.o ekvs0) := by
                              simp [entityIdOf, olookup_stampReplaced_id, hid0, hid1]
                            constructor
                            · rw [entityIds_lset_same ts.entities idx _ _ hget hsame]
                              exact hids
                            · rw [hskip]; simp
                  · rw [if_neg hc] at hstep
                    injection hstep with hstep
                    subst hstep
                    exact ⟨hids, by rw [hskip]; simp⟩

theorem dedupNew_append_step (seen : List J) (x : J) (xs : List J) :
    seen ++ dedupNew seen (x :: xs) =
      (seen ++ dedupNew seen [x]) ++ dedupNew (seen ++ dedupNew seen [x]) xs := by
  by_cases hx : (seen.any fun y => beqJ y x) = true
  · simp [dedupNew, hx]
  · simp only [Bool.not_eq_true] at hx
    simp [dedupNew, hx]

theorem mergeEntitySteps_ids (now : String) (occ : List (String × List (String × J))) :
    ∀ (ts ts' : TypeState),
      mergeEntitySteps now occ ts = some ts' →
      (∀ pe ∈ occ, omem pe.2 "id" = true) →
      entityIds ts.entities = ts.tracker.map some →
      entityIds ts'.entities = ts'.tracker.map some ∧
      ts'.tracker = ts.tracker ++ dedupNew ts.tracker (occ.map occId) := by
  induction occ with
  | nil =>
      intro ts ts' hrun _ hids
      replace hrun : some ts = some ts' := hrun
      injection hrun with hrun
      subst hrun
      exact ⟨hids, by simp [dedupNew]⟩
  | cons pe rest ih =>
      intro ts ts' hrun hocc hids
      obtain ⟨p, ekvs⟩ := pe
      replace hrun :
          (match mergeEntityStep now p ekvs ts with
           | none => none
           | some ts1 => mergeEntitySteps now rest ts1) = some ts' := hrun
      cases hstep : mergeEntityStep now p ekvs ts with
      | none => rw [hstep] at hrun; cases hrun
      | some ts1 =>
          rw [hstep] at hrun
          replace hrun : mergeEntitySteps now rest ts1 = some ts' := hrun
          obtain ⟨hids1, htr1⟩ := mergeEntityStep_ids now p ekvs ts ts1 hstep
            (hocc (p, ekvs) (List.mem_cons_self _ _)) hids
          obtain ⟨hids2, htr2⟩ := ih ts1 ts' hrun
            (fun qe hq => hocc qe (List.mem_cons_of_mem _ hq)) hids1
          refine ⟨hids2, ?_⟩
          rw [htr2, htr1]
          simp only [List.map_cons]
          exact (dedupNew_append_step ts.tracker (occId (p, ekvs)) (rest.map occId)).symm

theorem qualify_hasId (path : String) (es : List J) (pe : String × List (String × J))
    (h : pe ∈ es.filterMap (qualify path)) : omem pe.2 "id" = true := by
  rcases List.mem_filterMap.mp h with ⟨e, _, hq⟩
  cases e with
  | o ekvs =>
      by_cases hm : omem ekvs "id" = true
      · simp only [qualify, hm, if_true] at hq
        injection hq with hq
        rw [← hq]
        exact hm
      · simp [qualify, hm] at hq
  | null => simp [qualify] at hq
  | b x => simp [qualify] at hq
  | i x => simp [qualify] at hq
  | s x => simp [qualify] at hq
  | a x => simp [qualify] at hq

theorem occs_hasId (t : String) (files : List SrcFile) :
    ∀ pe ∈ occs t files, omem pe.2 "id" = true := by
  intro pe hpe
  simp only [occs] at hpe
  rcases List.mem_flatMap.mp hpe with ⟨f, _, hmem⟩
  simp only [fileTypeEntities] at hmem
  cases hd : f.data with
  | none =>
      rw [hd] at hmem
      cases hmem
  | some dkvs =>
      rw [hd] at hmem
      replace hmem : pe ∈
          (if dkvs.isEmpty = true then []
           else match olookup dkvs t with
                | some (J.a es) => List.filterMap (qualify f.path) es
                | _ => []) := hmem
      by_cases he : dkvs.isEmpty = true
      · rw [if_pos he] at hmem
        cases hmem
      · rw [if_neg he] at hmem
        cases hol : olookup dkvs t with
        | none =>
            rw [hol] at hmem
            replace hmem : pe ∈ ([] : List (String × List (String × J))) := hmem
            cases hmem
        | some v =>
            rw [hol] at hmem
            cases v with
            | a es =>
                replace hmem : pe ∈ es.filterMap (qualify f.path) := hmem
                exact qualify_hasId f.path es pe hmem
            | null =>
                replace hmem : pe ∈ ([] : List (String × List (String × J))) := hmem
                cases hmem
            | b x =>
                replace hmem : pe ∈ ([] : List (String × List (String × J))) := hmem
                cases hmem
            | i x =>
                replace hmem : pe ∈ ([] : List (String × List (String × J))) := hmem
                cases hmem
            | s x =>
                replace hmem : pe ∈ ([] : List (String × List (String × J))) := hmem
                cases hmem
            | o x =>
                replace hmem : pe ∈ ([] : List (String × List (String × J))) := hmem
                cases hmem

/-- C1 (amended): in a successful merge, for any id whose qualifying
occurrences under an entity type all carry dotted-numeric versions, the
output collection holds exactly one entity with that id; it is the earliest
occurrence of the comparator-maximal version, stamped as a first insertion
when nothing preceded it and otherwise as a replacement whose
`_replacedVersion` holds the version it superseded (the maximum of the
earlier occurrences); and the collection's id order is the first-occurrence
order of ids, so a replacement sits at the replaced entity's position. -/
theorem consolidation_per_id_survivor (now : String) (files : List SrcFile)
    (out : List (String × J)) (h : mergeJsonFiles now files = some out)
    (t : String) (ht : t ∈ entity_types) (eid : J)
    (hnum : ∀ pe ∈ (occs t files).filter (occIdIs eid),
        isNumericVersion (effVersion pe.2) = true) :
    ∃ es, olookup out t = some (J.a es) ∧
      entityIds es = (dedupNew [] ((occs t files).map occId)).map some ∧
      (((occs t files).filter (occIdIs eid) = [] ∧ es.filter (idIs eid) = []) ∨
       (∃ cur rec, es.filter (idIs eid) = [cur] ∧ idIs eid cur = true ∧
          survivorSpec now ((occs t files).filter (occIdIs eid)) cur rec)) := by
  obtain ⟨ts1, hrun, hout⟩ := merge_sim now files out h t ht
  refine ⟨ts1.entities, hout, ?_, ?_⟩
  · obtain ⟨hids, htr⟩ := mergeEntitySteps_ids now (occs t files) ⟨[], [], []⟩ ts1 hrun
      (occs_hasId t files) (by simp [entityIds])
    rw [hids, htr]
    simp
  · have hinv0 : projInv eid ⟨[], [], []⟩ none := by
      constructor
      · intro e he
        cases he
      · exact ⟨rfl, rfl, rfl⟩
    obtain ⟨ps1, hps, hinv1⟩ :=
      mergeEntitySteps_proj now eid (occs t files) ⟨[], [], []⟩ ts1 none hrun hinv0
    cases hF : (occs t files).filter (occIdIs eid) with
    | nil =>
        rw [hF] at hps
        replace hps : some (none : Option (J × J)) = some ps1 := hps
        injection hps with hps
        subst hps
        obtain ⟨_, hf, _, _⟩ := hinv1
        exact Or.inl ⟨rfl, hf⟩
    | cons pe0 restF =>
        rw [hF] at hps
        obtain ⟨cur, rec, hres, hspec⟩ := projFold_survivor now pe0 restF ps1
          (by rw [← hF]; exact hnum) hps
        subst hres
        obtain ⟨_, hf, hcu, _, _⟩ := hinv1
        exact Or.inr ⟨cur, rec, hf, hcu, hspec⟩

theorem hget_hset_ne (h : Heap) (a b : Addr) (o : HObj) (hne : a ≠ b) :
    hget (hset h b o) a = hget h a := by
  simp only [hget, hset]
  induction h.objs with
  | nil => rfl
  | cons kv rest ih =>
      obtain ⟨k1, o1⟩ := kv
      simp only [List.map_cons]
      by_cases hk : k1 = b
      · rw [if_pos hk]
        rw [List.find?_cons_of_neg _ (by simp [Ne.symm hne]),
          List.find?_cons_of_neg _ (by simp [hk, Ne.symm hne])]
        exact ih
      · rw [if_neg hk]
        by_cases hka : k1 = a
        · rw [List.find?_cons_of_pos _ (by simp [hka]),
            List.find?_cons_of_pos _ (by simp [hka])]
        · rw [List.find?_cons_of_neg _ (by simp [hka]),
            List.find?_cons_of_neg _ (by simp [hka])]
          exact ih

theorem hset_next (h : Heap) (b : Addr) (o : HObj) : (hset h b o).next = h.next := rfl

theorem halloc_snd (h : Heap) (o : HObj) : (halloc h o).2 = h.next := rfl

theorem halloc_fst_next (h : Heap) (o : HObj) : (halloc h o).1.next = h.next + 1 := rfl

theorem hget_halloc_lt (h : Heap) (o : HObj) (a : Addr) (ha : a < h.next) :
    hget (halloc h o).1 a = hget h a := by
  simp only [hget, halloc]
  induction h.objs with
  | nil =>
      simp only [List.nil_append]
      rw [List.find?_cons_of_neg _ (by
        simp only [decide_eq_true_eq]
        exact Ne.symm (Nat.ne_of_lt ha))]
  | cons kv rest ih =>
      obtain ⟨k1, o1⟩ := kv
      simp only [List.cons_append]
      by_cases hka : k1 = a
      · rw [List.find?_cons_of_pos _ (by simp [hka]),
          List.find?_cons_of_pos _ (by simp [hka])]
      · rw [List.find?_cons_of_neg _ (by simp [hka]),
          List.find?_cons_of_neg _ (by simp [hka])]
        exact ih

theorem hsetField_next (h : Heap) (b : Addr) (k : String) (v : HVal) :
    (hsetField h b k v).next = h.next := by
  simp only [hsetField]
  cases hget h b with
  | none => rfl
  | some o =>
      cases o with
      | dict kvs => rfl
      | arr xs => rfl

theorem hget_hsetField_ne (h : Heap) (a b : Addr) (k : String) (v : HVal)
    (hne : a ≠ b) : hget (hsetField h b k v) a = hget h a := by
  simp only [hsetField]
  cases hget h b with
  | none => rfl
  | some o =>
      cases o with
      | dict kvs => exact hget_hset_ne h a b _ hne
      | arr xs => rfl

theorem hEnsureField_next (h : Heap) (b : Addr) (k : String) (v : HVal) :
    (hEnsureField h b k v).next = h.next := by
  simp only [hEnsureField]
  by_cases hc : hmemField h b k = true
  · rw [if_pos hc]
  · rw [if_neg hc]
    exact hsetField_next h b k v

theorem hget_hEnsureField_ne (h : Heap) (a b : Addr) (k : String) (v : HVal)
    (hne : a ≠ b) : hget (hEnsureField h b k v) a = hget h a := by
  simp only [hEnsureField]
  by_cases hc : hmemField h b k = true
  · rw [if_pos hc]
  · rw [if_neg hc]
    exact hget_hsetField_ne h a b k v hne

theorem hStampNew_next (now path : String) (h : Heap) (ekvs : List (String × HVal)) :
    (hStampNew now path h ekvs).1.next = h.next + 2 := by
  simp only [hStampNew]
  rw [hEnsureField_next, hEnsureField_next, hsetField_next, hsetField_next,
    halloc_fst_next, halloc_fst_next]

theorem hStampNew_frame (now path : String) (h : Heap) (ekvs : List (String × HVal))
    (a : Addr) (ha : a < h.next) :
    hget (hStampNew now path h ekvs).1 a = hget h a := by
  have hane : a ≠ (halloc h (HObj.dict ekvs)).2 := by
    rw [halloc_snd]
    exact Nat.ne_of_lt ha
  have ha1 : a < (halloc h (HObj.dict ekvs)).1.next := by
    rw [halloc_fst_next]
    exact Nat.lt_succ_of_lt ha
  simp only [hStampNew]
  rw [hget_hEnsureField_ne _ _ _ _ _ hane, hget_hEnsureField_ne _ _ _ _ _ hane,
    hget_hsetField_ne _ _ _ _ _ hane, hget_hsetField_ne _ _ _ _ _ hane,
    hget_halloc_lt _ _ _ ha1, hget_halloc_lt _ _ _ ha]

theorem hStampRepl_next (now path : String) (h : Heap) (ekvs : List (String × HVal))
    (existing : HVal) :
    (hStampRepl now path h ekvs existing).1.next = h.next + 2 := by
  simp only [hStampRepl]
  rw [hsetField_next, hsetField_next, hsetField_next, halloc_fst_next, halloc_fst_next]

theorem hStampRepl_frame (now path : String) (h : Heap) (ekvs : List (String × HVal))
    (existing : HVal) (a : Addr) (ha : a < h.next) :
    hget (hStampRepl now path h ekvs existing).1 a = hget h a := by
  have hane : a ≠ (halloc h (HObj.dict ekvs)).2 := by
    rw [halloc_snd]
    exact Nat.ne_of_lt ha
  have ha1 : a < (halloc h (HObj.dict ekvs)).1.next := by
    rw [halloc_fst_next]
    exact Nat.lt_succ_of_lt ha
  simp only [hStampRepl]
  rw [hget_hsetField_ne _ _ _ _ _ hane, hget_hsetField_ne _ _ _ _ _ hane,
    hget_hsetField_ne _ _ _ _ _ hane, hget_halloc_lt _ _ _ ha1, hget_halloc_lt _ _ _ ha]

theorem hAppendNew_frame (now path : String) (aMerged : Addr)
    (ekvs : List (String × HVal)) (eid : HVal) (st st' : HState)
    (hstep : hAppendNew now path aMerged ekvs eid st = some st') :
    st.heap.next ≤ st'.heap.next ∧
    ∀ a, a < st.heap.next → a ≠ aMerged → hget st'.heap a = hget st.heap a := by
  simp only [hAppendNew] at hstep
  cases hg : hget (hStampNew now path st.heap ekvs).1 aMerged with
  | none => rw [hg] at hstep; cases hstep
  | some o =>
      rw [hg] at hstep
      cases o with
      | dict kvs => cases hstep
      | arr xs =>
          replace hstep :
              some (⟨hset (hStampNew now path st.heap ekvs).1 aMerged
                       (HObj.arr (xs ++ [HVal.ref (hStampNew now path st.heap ekvs).2])),
                     st.tracker ++ [eid],
                     vsetH st.versions eid (ogetDH ekvs "version" (HVal.s "1.0"))⟩ :
                HState) = some st' := hstep
          injection hstep with hstep
          subst hstep
          constructor
          · show st.heap.next ≤ (hset _ _ _).next
            rw [hset_next, hStampNew_next]
            exact Nat.le_add_right _ _
          · intro a ha hne
            show hget (hset _ _ _) a = _
            rw [hget_hset_ne _ _ _ _ hne, hStampNew_frame _ _ _ _ _ ha]

theorem hReplaceAt_frame (now path : String) (aMerged : Addr)
    (ekvs : List (String × HVal)) (eid existing : HVal) (idx : Nat) (st st' : HState)
    (hstep : hReplaceAt now path aMerged ekvs eid existing idx st = some st') :
    st.heap.next ≤ st'.heap.next ∧
    ∀ a, a < st.heap.next → a ≠ aMerged → hget st'.heap a = hget st.heap a := by
  simp only [hReplaceAt] at hstep
  cases hg : hget (hStampRepl now path st.heap ekvs existing).1 aMerged with
  | none => rw [hg] at hstep; cases hstep
  | some o =>
      rw [hg] at hstep
      cases o with
      | dict kvs => cases hstep
      | arr xs2 =>
          replace hstep :
              some (⟨hset (hStampRepl now path st.heap ekvs existing).1 aMerged
                       (HObj.arr (lsetH xs2 idx
                         (HVal.ref (hStampRepl now path st.heap ekvs existing).2))),
                     st.tracker,
                     vsetH st.versions eid (ogetDH ekvs "version" (HVal.s "1.0"))⟩ :
                HState) = some st' := hstep
          injection hstep with hstep
          subst hstep
          constructor
          · show st.heap.next ≤ (hset _ _ _).next
            rw [hset_next, hStampRepl_next]
            exact Nat.le_add_right _ _
          · intro a ha hne
            show hget (hset _ _ _) a = _
            rw [hget_hset_ne _ _ _ _ hne, hStampRepl_frame _ _ _ _ _ _ ha]

theorem hMergeQualified_frame (now path : String) (aMerged : Addr)
    (ekvs : List (String × HVal)) (eid : HVal) (st st' : HState)
    (hstep : hMergeQualified now path aMerged ekvs eid st = some st') :
    st.heap.next ≤ st'.heap.next ∧
    ∀ a, a < st.heap.next → a ≠ aMerged → hget st'.heap a = hget st.heap a := by
  simp only [hMergeQualified] at hstep
  by_cases hh : hashableH eid = false
  · rw [if_pos hh] at hstep; cases hstep
  · rw [if_neg hh] at hstep
    by_cases htr : (st.tracker.any fun x => beqHV x eid) = false
    · rw [if_pos htr] at hstep
      exact hAppendNew_frame now path aMerged ekvs eid st st' hstep
    · rw [if_neg htr] at hstep
      cases hvl : vlookupH st.versions eid with
      | none => rw [hvl] at hstep; cases hstep
      | some existing =>
          rw [hvl] at hstep
          replace hstep :
              (match hCompareVersions (ogetDH ekvs "version" (HVal.s "1.0")) existing with
               | none => (none : Option HState)
               | some c =>
                   if c > 0 then
                     match hget st.heap aMerged with
                     | some (HObj.arr xs) =>
                         match findReplaceIdxH st.heap eid xs with
                         | none => none
                         | some none => some st
                         | some (some idx) =>
                             hReplaceAt now path aMerged ekvs eid existing idx st
                     | _ => none
                   else some st) = some st' := hstep
          cases hcv : hCompareVersions (ogetDH ekvs "version" (HVal.s "1.0")) existing with
          | none => rw [hcv] at hstep; cases hstep
          | some c =>
              rw [hcv] at hstep
              replace hstep :
                  (if c > 0 then
                     match hget st.heap aMerged with
                     | some (HObj.arr xs) =>
                         match findReplaceIdxH st.heap eid xs with
                         | none => (none : Option HState)
                         | some none => some st
                         | some (some idx) =>
                             hReplaceAt now path aMerged ekvs eid existing idx st
                     | _ => none
                   else some st) = some st' := hstep
              by_cases hc : c > 0
              · rw [if_pos hc] at hstep
                cases hgm : hget st.heap aMerged with
                | none => rw [hgm] at hstep; cases hstep
                | some o =>
                    rw [hgm] at hstep
                    cases o with
                    | dict kvs => cases hstep
                    | arr xs =>
                        replace hstep :
                            (match findReplaceIdxH st.heap eid xs with
                             | none => (none : Option HState)
                             | some none => some st
                             | some (some idx) =>
                                 hReplaceAt now path aMerged ekvs eid existing idx st) =
                              some st' := hstep
                        cases hfr : findReplaceIdxH st.heap eid xs with
                        | none => rw [hfr] at hstep; cases hstep
                        | some r =>
                            rw [hfr] at hstep
                            cases r with
                            | none =>
                                replace hstep : some st = some st' := hstep
                                injection hstep with hstep
                                subst hstep
                                exact ⟨Nat.le_refl _, fun a _ _ => rfl⟩
                            | some idx =>
                                replace hstep :
                                    hReplaceAt now path aMerged ekvs eid existing idx st =
                                      some st' := hstep
                                exact hReplaceAt_frame now path aMerged ekvs eid existing
                                  idx st st' hstep
              · rw [if_neg hc] at hstep
                injection hstep with hstep
                subst hstep
                exact ⟨Nat.le_refl _, fun a _ _ => rfl⟩

theorem hMergeEntityStep_frame (now path : String) (aMerged : Addr) (e : HVal)
    (st st' : HState)
    (hstep : hMergeEntityStep now path aMerged e st = some st') :
    st.heap.next ≤ st'.heap.next ∧
    ∀ a, a < st.heap.next → a ≠ aMerged → hget st'.heap a = hget st.heap a := by
  cases e with
  | ref a0 =>
      simp only [hMergeEntityStep] at hstep
      cases hg : hget st.heap a0 with
      | none => rw [hg] at hstep; cases hstep
      | some o =>
          rw [hg] at hstep
          cases o with
          | arr xs =>
              replace hstep : some st = some st' := hstep
              injection hstep with hstep
              subst hstep
              exact ⟨Nat.le_refl _, fun a _ _ => rfl⟩
          | dict ekvs =>
              replace hstep :
                  (if omemH ekvs "id" = false then some st
                   else
                     match olookupH ekvs "id" with
                     | none => some st
                     | some eid => hMergeQualified now path aMerged ekvs eid st) =
                    some st' := hstep
              by_cases hm : omemH ekvs "id" = false
              · rw [if_pos hm] at hstep
                injection hstep with hstep
                subst hstep
                exact ⟨Nat.le_refl _, fun a _ _ => rfl⟩
              · rw [if_neg hm] at hstep
                cases hol : olookupH ekvs "id" with
                | none =>
                    rw [hol] at hstep
                    replace hstep : some st = some st' := hstep
                    injection hstep with hstep
                    subst hstep
                    exact ⟨Nat.le_refl _, fun a _ _ => rfl⟩
                | some eid =>
                    rw [hol] at hstep
                    replace hstep : hMergeQualified now path aMerged ekvs eid st =
                        some st' := hstep
                    exact hMergeQualified_frame now path aMerged ekvs eid st st' hstep
  | null =>
      replace hstep : some st = some st' := hstep
      injection hstep with hstep
      subst hstep
      exact ⟨Nat.le_refl _, fun a _ _ => rfl⟩
  | b x =>
      replace hstep : some st = some st' := hstep
      injection hstep with hstep
      subst hstep
      exact ⟨Nat.le_refl _, fun a _ _ => rfl⟩
  | i x =>
      replace hstep : some st = some st' := hstep
      injection hstep with hstep
      subst hstep
      exact ⟨Nat.le_refl _, fun a _ _ => rfl⟩
  | s x =>
      replace hstep : some st = some st' := hstep
      injection hstep with hstep
      subst hstep
      exact ⟨Nat.le_refl _, fun a _ _ => rfl⟩

theorem hMergeEntities_frame (now path : String) (aMerged : Addr) (es : List HVal) :
    ∀ (st st' : HState), hMergeEntities now path aMerged es st = some st' →
      st.heap.next ≤ st'.heap.next ∧
      ∀ a, a < st.heap.next → a ≠ aMerged → hget st'.heap a = hget st.heap a := by
  induction es with
  | nil =>
      intro st st' hrun
      replace hrun : some st = some st' := hrun
      injection hrun with hrun
      subst hrun
      exact ⟨Nat.le_refl _, fun a _ _ => rfl⟩
  | cons e rest ih =>
      intro st st' hrun
      replace hrun :
          (match hMergeEntityStep now path aMerged e st with
           | none => none
           | some st1 => hMergeEntities now path aMerged rest st1) = some st' := hrun
      cases hstep : hMergeEntityStep now path aMerged e st with
      | none => rw [hstep] at hrun; cases hrun
      | some st1 =>
          rw [hstep] at hrun
          replace hrun : hMergeEntities now path aMerged rest st1 = some st' := hrun
          obtain ⟨hle1, hfr1⟩ := hMergeEntityStep_frame now path aMerged e st st1 hstep
          obtain ⟨hle2, hfr2⟩ := ih st1 st' hrun
          refine ⟨Nat.le_trans hle1 hle2, ?_⟩
          intro a ha hne
          rw [hfr2 a (Nat.lt_of_lt_of_le ha hle1) hne, hfr1 a ha hne]

/-- C9: the merge never mutates an input document.  Input objects live in
the heap below the watermark `h0.next`; the engine allocates the output
collection afterwards and runs the entity loop; every input address then
reads back exactly the object it held before, because entities are copied
to fresh addresses before any stamping write, and the only other writes
target the output collection itself. -/
theorem merge_never_mutates_inputs (now path : String) (h0 : Heap)
    (es : List HVal) (tr : List HVal) (vs : List (HVal × HVal)) (st' : HState)
    (hrun : hMergeEntities now path (halloc h0 (HObj.arr [])).2 es
        ⟨(halloc h0 (HObj.arr [])).1, tr, vs⟩ = some st') :
    ∀ a, a < h0.next → hget st'.heap a = hget h0 a := by
  intro a ha
  obtain ⟨hle, hfr⟩ := hMergeEntities_frame now path (halloc h0 (HObj.arr [])).2 es
    ⟨(halloc h0 (HObj.arr [])).1, tr, vs⟩ st' hrun
  have h1 : a < (halloc h0 (HObj.arr [])).1.next := by
    rw [halloc_fst_next]
    exact Nat.lt_succ_of_lt ha
  have h2 : a ≠ (halloc h0 (HObj.arr [])).2 := by
    rw [halloc_snd]
    exact Nat.ne_of_lt ha
  rw [hfr a h1 h2]
  exact hget_halloc_lt h0 _ a ha

/-- Counterexample to claim C6 as stated: an entity whose `type` is the
empty string is not flagged (the validator only checks key presence, line
160), while an entity merely missing `version` is flagged (the claim lists
no version rule). -/
theorem empty_type_not_flagged_missing_version_flagged :
    claimEntityViolates (fun x => true) cx6TypeEmpty = true ∧
    entityErrors (fun x => true) "vehicles" 0 cx6TypeEmpty = [] ∧
    claimEntityViolates (fun x => true) cx6NoVersion = false ∧
    entityErrors (fun x => true) "vehicles" 0 cx6NoVersion ≠ [] :=
  ⟨by decide, by decide, by decide, by decide⟩

theorem consolidation_per_id_survivor_witness :
    mergeJsonFiles "T0" [c1wF1, c1wF2] = some c1wOut ∧
    (∀ pe ∈ (occs "vehicles" [c1wF1, c1wF2]).filter (occIdIs (J.s "v1")),
        isNumericVersion (effVersion pe.2) = true) ∧
    ∃ es, olookup c1wOut "vehicles" = some (J.a es) ∧
      entityIds es = (dedupNew [] ((occs "vehicles" [c1wF1, c1wF2]).map occId)).map some ∧
      (((occs "vehicles" [c1wF1, c1wF2]).filter (occIdIs (J.s "v1")) = [] ∧
         es.filter (idIs (J.s "v1")) = []) ∨
       (∃ cur rec, es.filter (idIs (J.s "v1")) = [cur] ∧ idIs (J.s "v1") cur = true ∧
          survivorSpec "T0" ((occs "vehicles" [c1wF1, c1wF2]).filter (occIdIs (J.s "v1")))
            cur rec)) :=
  ⟨rfl, by decide,
   consolidation_per_id_survivor "T0" [c1wF1, c1wF2] c1wOut rfl "vehicles" (by decide)
     (J.s "v1") (by decide)⟩

theorem merged_entities_have_id_witness :
    mergeJsonFiles "T0" [cx1File1] = some c2wOut ∧
    olookup c2wOut "vehicles" = some (J.a c2wList) ∧
    ∀ e ∈ c2wList, ∃ ekvs, e = J.o ekvs ∧ omem ekvs "id" = true :=
  ⟨rfl, rfl,
   merged_entities_have_id "T0" [cx1File1] c2wOut rfl "vehicles" (by decide) c2wList rfl⟩

theorem sourceFileCount_counts_all_files_witness :
    mergeJsonFiles "T0" [cx4Good, cx4Bad] = some c4wOut ∧
    metaLookup c4wOut "sourceFileCount" = some (J.i 2) :=
  ⟨rfl, sourceFileCount_counts_all_files "T0" [cx4Good, cx4Bad] c4wOut rfl⟩

theorem compare_versions_spec_witness :
    ∃ p1 p2, versionParts "1.2" = some p1 ∧ versionParts "1.10" = some p2 ∧
      compare_versions (J.s "1.2") (J.s "1.10") = some (cmpSegsRec p1 p2) := by
  refine (compare_versions_spec "1.2" "1.10").1 ?_ ?_
  · intro seg hseg
    have h2 : seg ∈ [String.data "1", String.data "2"] := hseg
    simp only [List.mem_cons, List.mem_singleton] at h2
    rcases h2 with rfl | rfl | h3
    · exact ⟨1, by decide, by decide⟩
    · exact ⟨2, by decide, by decide⟩
    · cases h3
  · intro seg hseg
    have h2 : seg ∈ [String.data "1", String.data "10"] := hseg
    simp only [List.mem_cons, List.mem_singleton] at h2
    rcases h2 with rfl | rfl | h3
    · exact ⟨1, by decide, by decide⟩
    · exact ⟨10, by decide, by decide⟩
    · cases h3

theorem entityErrors_characterization_witness :
    2 ≤ (entityErrors (fun x => true) "vehicles" 0 (J.o [])).length :=
  (entityErrors_characterization (fun x => true) "vehicles" 0 (J.o [])).2.2 [] rfl rfl rfl

theorem title_desc_frozen_once_nondefault_witness :
    processFiles "T0" c8wSt [cx8File2] = some c8wSt2 ∧
    olookup c8wSt.merged "title" = some (J.s "Allied Forces DB") ∧
    beqJ (J.s "Allied Forces DB") (J.s "Consolidated IES4 Military Database") = false ∧
    olookup c8wSt2.merged "title" = some (J.s "Allied Forces DB") ∧
    olookup c8wSt2.merged "description" = olookup c8wSt.merged "description" :=
  ⟨rfl, rfl, by decide,
   title_desc_frozen_once_nondefault "T0" c8wSt c8wSt2 [cx8File2] rfl
     (J.s "Allied Forces DB") rfl (by decide)⟩

theorem merge_never_mutates_inputs_witness :
    hMergeEntities "T0" "a/1.json" (halloc c9h0 (HObj.arr [])).2 [HVal.ref 0]
      ⟨(halloc c9h0 (HObj.arr [])).1, [], []⟩ = some c9res ∧
    hget c9res.heap 0 = hget c9h0 0 ∧
    hget c9res.heap 1 = hget c9h0 1 :=
  ⟨rfl,
   merge_never_mutates_inputs "T0" "a/1.json" c9h0 [HVal.ref 0] [] [] c9res rfl 0 (by decide),
   merge_never_mutates_inputs "T0" "a/1.json" c9h0 [HVal.ref 0] [] [] c9res rfl 1 (by decide)⟩

theorem validate_mutation_witness :
    omem (validate_ies4_compliance (fun x => true) []).2 "ies4Version" = true ∧
    olookup (validate_ies4_compliance (fun x => true) []).2 "ies4Version" =
      some (J.s ies4_version) ∧
    (validate_ies4_compliance (fun x => true) []).2 ≠ [] :=
  ⟨(validate_mutation (fun x => true) []).1,
   ((validate_mutation (fun x => true) []).2.2.1 rfl).1,
   ((validate_mutation (fun x => true) []).2.2.1 rfl).2⟩

theorem invalid_file_excluded_scenario_witness :
    validate_timestamp (fun x => true) (J.s "2024-12-01T10:00:00Z") = true ∧
    ∃ out v1kv v2kv,
      mergeJsonFiles "2025-06-01T12:00:00" [dvF1, dvF2, dvBad] = some out ∧
      olookup out "vehicles" = some (J.a [J.o v1kv, J.o v2kv]) ∧
      olookup v1kv "id" = some (J.s "iran-drone-001") ∧
      olookup v1kv "version" = some (J.s "2.0") ∧
      olookup v1kv "name" = some (J.s "Shahed-136 Enhanced") ∧
      olookup v1kv "_replacedVersion" = some (J.s "1.0") ∧
      olookup v2kv "id" = some (J.s "iran-drone-002") ∧
      save_consolidated_file (fun x => true) out = some out :=
  ⟨rfl, invalid_file_excluded_scenario (fun x => true) rfl rfl rfl⟩
